import Mathlib

/-!
Verification development for the smartini INI library (src/smartini).

The definitions below are a shallow embedding of the Python source:

* `src/smartini/utils.py`    — ordered container with positional (iloc) access,
* `src/smartini/slots.py`    — slot stores (`Slots`, `_SlotEntity`, structures),
* `src/smartini/entities.py` — `Comment`, `Option`, `OptionSlotValue`, `SectionName`,
* `src/smartini/args.py`     — `Parameters` marker validation,
* `src/smartini/interface.py` — `Section`, `Schema`, `_ReadIni` (the document
  reader state machine), `Schema._export`, `SlotDecider`, `SlotViewer`.

Python strings are modelled as Lean `String`s (lists of characters); regular
expressions used by the source are translated into the equivalent character
level operations, which is noted at each definition.  Python `None` is
modelled by `Option` (for values inside slot stores) or by the dedicated
`PyV.pynone` constructor (for option values, where `None` is a first class
value).  Exceptions are modelled with `Except PyErr`.  Mutation is modelled by
explicit state passing; object identity of sections is modelled with a heap
(list of sections indexed by position) so that Python's reference semantics
of `current_section` / `current_option` are preserved.
-/

namespace Smartini

/-- Slot keys are Python `int | str` (`slots.py`, `type SlotKey = int | str`). -/
abbrev SlotKey := Sum Int String

/-- Python exceptions raised by the modelled code (`exceptions`,
`exceptions_warnings`).  `iniStructure`/`multilineErr` carry the 0-based entity
index that `_ReadIni.__new__` interpolates into the message. -/
inductive PyErr where
  | indexError
  | slotNotFound
  | slotAlreadyExists
  | entityNotFound
  | duplicateEntity
  | extractionError
  | valueError
  | attributeError
  | assertionError
  | stopIteration
  | iniStructureOwn
  | iniStructure (line : Nat)
  | multilineErr (line : Nat)
deriving DecidableEq, Repr

/- ------------------------------------------------------------------ -/
/- Python string helpers                                               -/
/- ------------------------------------------------------------------ -/

/-- Characters matched by the regex class `\s` (Python `re`, ASCII range),
used by `str.strip` and by `_ReadIni._is_empty_entity`'s pattern. -/
def pyWs (c : Char) : Bool :=
  c = ' ' ∨ c = '\t' ∨ c = '\n' ∨ c = '\r' ∨ c = '\x0b' ∨ c = '\x0c'

/-- Characters matched by the regex class `\w` (word characters; we model the
ASCII subset, which covers every input the source's claims are about). -/
def isWordChar (c : Char) : Bool := c.isAlphanum ∨ c = '_'

/-- Drop the longest suffix of `l` whose elements satisfy `p`. -/
def dropWhileRight (p : α → Bool) (l : List α) : List α :=
  (l.reverse.dropWhile p).reverse

/-- Python `str.strip()` on a list of characters. -/
def pstripL (l : List Char) : List Char :=
  dropWhileRight pyWs (l.dropWhile pyWs)

/-- Python `str.strip()`. -/
def pstrip (s : String) : String := ⟨pstripL s.data⟩

/-- Python `re.split("\n", s)`: split `s` at every newline, keeping empty
pieces (`re.split(parameters.entity_delimiter, file_content)` with the
default newline entity delimiter). -/
def splitNlL : List Char → List (List Char)
  | [] => [[]]
  | c :: rest =>
      if c = '\n' then [] :: splitNlL rest
      else match splitNlL rest with
        | [] => [[c]]
        | h :: t => (c :: h) :: t

/-- String version of `splitNlL`. -/
def splitNl (s : String) : List String :=
  (splitNlL s.data).map (fun l => ⟨l⟩)

/- ------------------------------------------------------------------ -/
/- Option values                                                       -/
/- ------------------------------------------------------------------ -/

/-- Python values an option slot can hold: `None`, a raw string, a converter
result (abstract type `C`), or an `OptionValueMultiline` list
(`entities.py`).  Converter results are kept abstract because the concrete
converter library is injected (`type_converters/converters.py`). -/
inductive PyV (C : Type) where
  | pynone
  | str (s : String)
  | conv (c : C)
  | multi (xs : List (PyV C))

/-- A type converter is the injected `TypeConverter` call: a total function
from a raw string to a converted value (the "soft" conversion contract of
`new_converter`: it never raises, returning the input on failure). -/
abbrev TypeConv (C : Type) := String → PyV C

/-- Application of a `TypeConverter` instance to an arbitrary value:
`new_converter.convert` only processes `str` inputs and returns any other
value unchanged (`converters.py`, `convert`). -/
def pyConvApply (f : TypeConv C) : PyV C → PyV C
  | .str s => f s
  | v => v

/-- `OptionSlotValue` (`entities.py`): pairs the raw input with the converted
value.  Both fields default to `None`. -/
structure OSV (C : Type) where
  input : PyV C := .pynone
  converted : PyV C := .pynone

/- ------------------------------------------------------------------ -/
/- Slot stores                                                         -/
/- ------------------------------------------------------------------ -/

/-- Ordered association list standing for the `Slots` `OrderedDict`
(`slots.py` / `utils.py`): keys are unique, insertion order is iteration
order. -/
abbrev SlotStore (α : Type) := List (SlotKey × α)

/-- Key lookup (`OrderedDict.__getitem__`); `none` models a `KeyError`. -/
def slotsLookup (l : SlotStore α) (k : SlotKey) : Option α :=
  (l.find? (fun p => p.1 = k)).map (·.2)

/-- Dict item assignment: replace in place if the key exists (keeping its
position), otherwise append. -/
def slotsSetItem (l : SlotStore α) (k : SlotKey) (v : α) : SlotStore α :=
  match l with
  | [] => [(k, v)]
  | (k₀, v₀) :: t =>
      if k₀ = k then (k, v) :: t else (k₀, v₀) :: slotsSetItem t k v

/-- `Slots.add` (`slots.py`): insert default-valued slots; `IndexError` on an
existing key unless `exist_ok`. -/
def slotsAdd (l : SlotStore α) (keys : List SlotKey) (deft : α)
    (existOk : Bool) : Except PyErr (SlotStore α) :=
  keys.foldlM
    (fun acc k =>
      if (slotsLookup acc k).isSome then
        if existOk then .ok acc else .error .indexError
      else .ok (acc ++ [(k, deft)]))
    l

/-- `Slots.slot_access` with `verify=True`: every requested key must exist,
else `SlotNotFound`. -/
def slotAccessVerify (l : SlotStore α) (ks : List SlotKey) :
    Except PyErr Unit :=
  if ks.all (fun k => (slotsLookup l k).isSome) then .ok () else
    .error .slotNotFound

/-- `Slots.set_slots` with a callable value (the only form the modelled call
sites use): one fresh value per requested slot; missing slots are appended
when `create_missing_slots`, else `IndexError`. -/
def setSlotsV (l : SlotStore α) (ks : List SlotKey) (v : α)
    (createMissing : Bool) : Except PyErr (SlotStore α) :=
  ks.foldlM
    (fun acc k =>
      if (slotsLookup acc k).isSome then .ok (slotsSetItem acc k v)
      else if createMissing then .ok (slotsSetItem acc k v)
      else .error .indexError)
    l

/-- Python tuple indexing `items[idx]` (supports negative indices, `None` on
out of range). -/
def pyTupleGet (l : List α) (idx : Int) : Option α :=
  if 0 ≤ idx then l.get? idx.toNat
  else if 0 ≤ idx + l.length then l.get? (idx + l.length).toNat
  else none

/-- `_iLocIndexer.__getitem__` (`utils.py`) for an `int` key: the source first
rewrites a negative index `i` to `dict_len + i` and then indexes the items
tuple with the result (where Python again interprets a negative value from
the end); any `IndexError` is re-raised as "OrderedDict index out of
range". -/
def ilocGetInt (l : List (K × V)) (i : Int) : Except PyErr (K × V) :=
  let idx : Int := if i < 0 then (l.length : Int) + i else i
  match pyTupleGet l idx with
  | some x => .ok x
  | none => .error .indexError

/- ------------------------------------------------------------------ -/
/- Entity extraction                                                   -/
/- ------------------------------------------------------------------ -/

/-- `SectionName.__new__` with `name_with_brackets` (`entities.py`): the
stripped line must match `(?<=^\[).*(?=\]$)` (start with `[`, end with `]`,
no newline between); the interior is then stripped of remaining leading `[`
and trailing `]` runs and of surrounding whitespace. -/
def extractSectionName (line : String) : Option String :=
  let t := pstripL line.data
  if t.head? = some '[' ∧ t.getLast? = some ']' then
    let interior := (t.drop 1).dropLast
    some ⟨pstripL (dropWhileRight (fun c => c = ']')
      (interior.dropWhile (fun c => c = '[')))⟩
  else none

/-- `Comment.__init__` with `content_with_prefix` (`entities.py`): the line is
split by `(?<=^[prefixes])(?=.)`.  With a non-empty prefix tuple this
requires the first character to be one of the prefix characters (the regex
character class built from the escaped prefixes) and a second, non-newline
character to exist; the content is the rest of the line, stripped.  With an
empty tuple the prefix class is empty and every non-empty line is split at
position 0. -/
def commentCore (line : String) (prefixes : List String) : Option String :=
  match prefixes with
  | [] =>
      match line.data with
      | [] => none
      | c :: rest => if c = '\n' then none else some ⟨pstripL (c :: rest)⟩
  | ps =>
      let charset := ps.flatMap (·.data)
      match line.data with
      | c :: c₂ :: rest =>
          if c ∈ charset ∧ c₂ ≠ '\n' then some ⟨pstripL (c₂ :: rest)⟩
          else none
      | _ => none

/-- `_ReadIni._extract_comment`: `Comment(prefix=parameters.comment_prefixes,
content_with_prefix=line)`.  A `None` prefix tuple trips the `assert
isinstance(prefix, tuple)` in `Comment.__init__` (an `AssertionError` that is
not caught by the `except ExtractionError` handler). -/
def extractCommentE (line : String) (prefixes : Option (List String)) :
    Except PyErr (Option String) :=
  match prefixes with
  | none => .error .assertionError
  | some ps => .ok (commentCore line ps)

/-- Characters allowed in an option key by `Option.from_string`'s pattern
`\b([\w\.\-\_]+)\b$`. -/
def isKeyChar (c : Char) : Bool := isWordChar c ∨ c = '.' ∨ c = '-'

/-- `Option.from_string` (`entities.py`): split the line at the first
occurrence of any delimiter character (the regex class built from the
delimiters); the trimmed left side must end in a run matched by
`\b([\w\.\-\_]+)\b$` — i.e. its maximal suffix of key characters, cut down to
start at its first word character, with the final character a word character;
the trimmed right side is the value, an empty string normalising to `None`
("no value").  Returns `(key, value)`. -/
def extractOption (line : String) (delims : List String) :
    Option (String × Option String) :=
  let dchars := delims.flatMap (·.data)
  let pre := line.data.takeWhile (fun c => ¬ c ∈ dchars)
  if pre.length = line.data.length then none
  else
    let right := line.data.drop (pre.length + 1)
    let t := pstripL pre
    match t.getLast? with
    | some c =>
        if isWordChar c then
          let suf := (t.reverse.takeWhile isKeyChar).reverse
          let key := suf.dropWhile (fun c => ¬ isWordChar c)
          let v := pstripL right
          some (⟨key⟩, if v = [] then none else some ⟨v⟩)
        else none
    | none => none

/-- `_ReadIni._is_empty_entity`: full match of `[\s\t]*` when
`ignore_whitespace_lines`, else of the empty pattern. -/
def isEmptyEntity (line : String) (ignoreWhitespaceLines : Bool) : Bool :=
  if ignoreWhitespaceLines then line.data.all pyWs else line = ""

/-- `_ReadIni._extract_continuation`: `re.search(rf"(?<=^{prefix}).*", line)`
— the line must start with the (escaped) multiline prefix; the rest of the
line is the continuation. -/
def extractContinuation (line : String) (mlPre : String) : Option String :=
  if line.startsWith mlPre then some (line.drop mlPre.length) else none

/- ------------------------------------------------------------------ -/
/- Parameters (reader view)                                            -/
/- ------------------------------------------------------------------ -/

/-- Values of `Parameters.multiline_ignore` (`args.py`). -/
inductive MIG where
  | sectionName
  | optionDelimiter
  | commentPre
deriving DecidableEq, Repr

/-- Values of `Parameters.read_undefined`: `True`, `False`, `"section"`,
`"option"`. -/
inductive RU where
  | all
  | no
  | sectionOnly
  | optionOnly
deriving DecidableEq, Repr

/-- The `Parameters` fields the reader and exporter consult (`args.py`).
`mlPre` holds the raw (unescaped) multiline prefix, matched literally by the
continuation regex; `entity_delimiter` is the default newline (taken from the
repository's `Parameters`; the reader splits entities on it). -/
structure RParams where
  commentPres : Option (List String) := some [";"]
  optionDelims : List String := ["="]
  mlAllowed : Bool := true
  mlPre : String := ""
  mlIgnore : List MIG := []
  ignoreWhitespaceLines : Bool := true
  readUndefined : RU := .no

/- ------------------------------------------------------------------ -/
/- Options, sections, schema                                           -/
/- ------------------------------------------------------------------ -/

/-- `Option` (`entities.py`): a key, a type converter (`None` when absent),
and a slot store of `OptionSlotValue`s.  `undef` marks `UndefinedOption`.
`var` records the attribute variable name under which the owning section
binds the option: schema-declared options carry their class variable name,
options added during a read are bound under `_str_to_var(key)` by
`Section._add_entity`. -/
structure OptionE (C : Type) where
  key : String
  var : String := ""
  undef : Bool := false
  conv : Option (TypeConv C) := none
  oslots : SlotStore (OSV C) := []

/-- Items of a `Structure` (`slots.py`): references to a section's options
(identified within the owning section by their key — `_add_entity` keeps keys
unique) or comments (identified by their comment-variable counter). -/
inductive SItem where
  | opt (key : String)
  | cmt (cid : Nat)
deriving DecidableEq, Repr

/-- `Section` (`interface.py`): name (`None` for the unnamed section), the
`UndefinedSection` flag, the fixed `_schema_structure`, a slot store of
`Structure`s, and the option/comment attributes in insertion order. -/
structure SectionE (C : Type) where
  name : Option String
  undef : Bool := false
  schemaStructure : List SItem := []
  sslots : SlotStore (List SItem) := []
  opts : List (OptionE C) := []
  comments : List (Nat × String) := []

/-- `Schema` (`interface.py`).  Sections are stored in a heap (`heap`, object
identity by index) with the instance attribute dictionary `attrs` mapping
variable names to heap indices (a later `setattr` with an existing name
replaces the attribute in place, Python dict semantics).  `slots` is the
schema's own `Structure` slot store, holding section references. -/
structure SchemaE (C : Type) where
  slots : SlotStore (List Nat) := []
  schemaStructure : List Nat := []
  heap : List (SectionE C) := []
  attrs : List (String × Nat) := []

/-- `Option._set_slots` (`entities.py`): build one fresh `OptionSlotValue`
whose `input` is the given input value and whose `converted` is the
converter applied to it when a converter is present and the input is not
`None`, else the given converted value; assign it to every requested slot
(`Slots.set_slots` via `_SlotEntity._set_slots`). -/
def setOSV (o : OptionE C) (inputV convertedV : PyV C) : OSV C :=
  ⟨inputV,
    match o.conv, inputV with
    | some _, .pynone => convertedV
    | some f, iv => pyConvApply f iv
    | none, _ => convertedV⟩

/-- `Option._set_slots`, continued: assign the fresh slot value to every
requested slot (`Slots.set_slots` via `_SlotEntity._set_slots`). -/
def optionSetSlots (o : OptionE C) (inputV convertedV : PyV C)
    (createMissing : Bool) (ks : List SlotKey) : Except PyErr (OptionE C) :=
  (setSlotsV o.oslots ks (setOSV o inputV convertedV) createMissing).map
    fun l => { o with oslots := l }

/-- `Option.add_continuation` (`entities.py`): for every requested slot, read
the slot value (`SlotNotFound` if absent), promote a non-multiline input to a
one-element `OptionValueMultiline`, append the continuation string, and
recompute the converted value by applying the option's converter (falling
back to the passed converter, then to the identity) to every element. -/
def optionAddCont (o : OptionE C) (cont : String) (tc : Option (TypeConv C))
    (ks : List SlotKey) : Except PyErr (OptionE C) :=
  ks.foldlM
    (fun o k =>
      match slotsLookup o.oslots k with
      | none => .error .slotNotFound
      | some osv =>
          let xs := (match osv.input with
            | .multi xs => xs
            | iv => [iv]) ++ [.str cont]
          let ef : PyV C → PyV C :=
            match o.conv with
            | some f => pyConvApply f
            | none => match tc with
              | some g => pyConvApply g
              | none => id
          .ok { o with oslots :=
            slotsSetItem o.oslots k ⟨.multi xs, .multi (xs.map ef)⟩ })
    o

/-- `Section._get_option(key=·)`: the first option attribute with the given
key. -/
def secFindOpt (sec : SectionE C) (key : String) : Option (OptionE C) :=
  sec.opts.find? (fun o => o.key = key)

/-- Replace the (unique) option with the given key, modelling in-place
mutation of the option object. -/
def secReplaceOpt (sec : SectionE C) (key : String) (o' : OptionE C) :
    SectionE C :=
  { sec with opts := sec.opts.map fun o => if o.key = key then o' else o }

/-- `exist_action` values of `_set_structure_items` used by the modelled call
sites (the `"move"` branch is only reachable through explicit positions,
which the reader never passes). -/
inductive ExistAction where
  | exception
  | ignore
deriving DecidableEq

/-- `_StructureSlotEntity._set_structure_items` with a single item and
`positions=None` (`slots.py`): verify the requested slots exist, then append
the item to each slot's structure; an item already present is either ignored
(appending the empty set difference) or raises `DuplicateEntityError`. -/
def secSetStructureItemsOne (sec : SectionE C) (item : SItem)
    (ea : ExistAction) (ks : List SlotKey) : Except PyErr (SectionE C) := do
  _ ← slotAccessVerify sec.sslots ks
  ks.foldlM
    (fun sec k =>
      let st := (slotsLookup sec.sslots k).getD []
      if item ∈ st then
        match ea with
        | .ignore => .ok sec
        | .exception => .error .duplicateEntity
      else
        .ok { sec with sslots := slotsSetItem sec.sslots k (st ++ [item]) })
    sec

/-- `UndefinedOption.__init__` from an existing `Option` (`entities.py`):
copies key, slot values and type converter, then `Option.__init__` with
`slots=None` renumbers the slots `0..n-1` and re-runs `_set_slots` (hence the
converter) on every copied value. -/
def undefinedCopy (o : OptionE C) : Except PyErr (OptionE C) :=
  let base : OptionE C := { key := o.key, undef := true, conv := o.conv }
  (o.oslots.map (·.2)).enum.foldlM
    (fun acc iv =>
      optionSetSlots acc iv.2.input iv.2.converted true
        [.inl (Int.ofNat iv.1)])
    base

/-- `utils._str_to_var`: replace every non-word character by `_`
(`re.sub(r"\W", "_", ·)`) and prepend the variable prefix `s_` when the
result starts with a digit or the internal prefix `_`. -/
def strToVar (s : String) : String :=
  let w : List Char := s.data.map fun c => if isWordChar c then c else '_'
  match w.head? with
  | some c => if c.isDigit ∨ c = '_' then "s_" ++ ⟨w⟩ else ⟨w⟩
  | none => ⟨w⟩

/-- `Section._add_entity` for an option (`interface.py`): duplicate keys
raise `DuplicateEntityError`; a plain `Option` is first converted to an
`UndefinedOption`; the entity is then bound via
`setattr(_str_to_var(entity.key), entity)`: when an attribute of that
variable name already exists it is replaced in place (Python instance
dictionary update, keeping its position), otherwise the binding is appended;
finally the entity is inserted into the structure of the requested slots
(`exist_action="exception"`, which a fresh object never trips). -/
def secAddEntityOpt (sec : SectionE C) (entity : OptionE C)
    (ks : List SlotKey) : Except PyErr (SectionE C × OptionE C) := do
  if (secFindOpt sec entity.key).isSome then .error .duplicateEntity
  else
    let e₀ ← if entity.undef then .ok entity else undefinedCopy entity
    let e := { e₀ with var := strToVar e₀.key }
    let opts' :=
      if (sec.opts.find? (fun o => o.var = strToVar e₀.key)).isSome then
        sec.opts.map (fun o => if o.var = strToVar e₀.key then e else o)
      else sec.opts ++ [e]
    let sec₁ := { sec with opts := opts' }
    let sec₂ ← secSetStructureItemsOne sec₁ (.opt e.key) .exception ks
    .ok (sec₂, e)

/-- `Section._add_entity` for a comment: the next comment variable is the
last comment counter plus one (`_get_next_comment_var`), the comment becomes
a new attribute and is appended to the requested slots' structures. -/
def secAddComment (sec : SectionE C) (content : String) (ks : List SlotKey) :
    Except PyErr (SectionE C × Nat) := do
  let cid := match sec.comments.getLast? with
    | some (i, _) => i + 1
    | none => 0
  let sec₁ := { sec with comments := sec.comments ++ [(cid, content)] }
  let sec₂ ← secSetStructureItemsOne sec₁ (.cmt cid) .exception ks
  .ok (sec₂, cid)

/-- `_StructureSlotEntity._set_structure` (`slots.py`): every item of the new
structure must belong to the section (else `IniStructureError`), then the
requested slots are set to (a copy of) the new structure via `_set_slots`. -/
def secSetStructure (sec : SectionE C) (newS : List SItem)
    (createMissing : Bool) (ks : List SlotKey) : Except PyErr (SectionE C) :=
  if newS.all (fun it => match it with
      | .opt k => (secFindOpt sec k).isSome
      | .cmt i => (sec.comments.lookup i).isSome) then
    (setSlotsV sec.sslots ks newS createMissing).map
      fun l => { sec with sslots := l }
  else .error .iniStructureOwn

/-- `_SlotEntity._add_slots` on a section: add empty `Structure`s. -/
def secAddSlots (sec : SectionE C) (ks : List SlotKey) (existOk : Bool) :
    Except PyErr (SectionE C) :=
  (slotsAdd sec.sslots ks [] existOk).map fun l => { sec with sslots := l }

/- ------------------------------------------------------------------ -/
/- Schema operations                                                   -/
/- ------------------------------------------------------------------ -/

/-- `Schema._get_section` (`interface.py`): the first attribute whose section
has the requested name; `none` models `EntityNotFound`. -/
def schGetSectionIdx (sch : SchemaE C) (nm : Option String) :
    Option (String × Nat) :=
  sch.attrs.find? fun p =>
    match sch.heap.get? p.2 with
    | some s => s.name = nm
    | none => false

/-- `setattr(schema, var, section)`: allocate the section on the heap; an
existing attribute of the same name is rebound in place (dict update),
otherwise a new attribute is appended. -/
def schSetattrSection (sch : SchemaE C) (var : String) (sec : SectionE C) :
    SchemaE C × Nat :=
  let idx := sch.heap.length
  let attrs :=
    if (sch.attrs.find? (fun p => p.1 = var)).isSome then
      sch.attrs.map fun p => if p.1 = var then (var, idx) else p
    else sch.attrs ++ [(var, idx)]
  ({ sch with heap := sch.heap ++ [sec], attrs := attrs }, idx)

/-- Update the section object at a heap index. -/
def heapSet (sch : SchemaE C) (i : Nat) (sec : SectionE C) : SchemaE C :=
  { sch with heap := sch.heap.set i sec }

/-- Run a section-mutating operation on the heap object at index `i`. -/
def heapModify (sch : SchemaE C) (i : Nat)
    (f : SectionE C → Except PyErr (SectionE C)) : Except PyErr (SchemaE C) :=
  match sch.heap.get? i with
  | none => .error .entityNotFound
  | some sec => (f sec).map fun sec' => heapSet sch i sec'

/-- `Schema._set_structure_items` with a single section, `positions=None` and
`exist_action="ignore"` (used by `_handle_section_name`): verify the slots
exist on the schema, then append the section to each slot's structure unless
already present. -/
def schSetStructureItemsSec (sch : SchemaE C) (idx : Nat)
    (ks : List SlotKey) : Except PyErr (SchemaE C) := do
  _ ← slotAccessVerify sch.slots ks
  let sl' := ks.foldl
    (fun sl k =>
      let st := (slotsLookup sl k).getD []
      if idx ∈ st then sl else slotsSetItem sl k (st ++ [idx]))
    sch.slots
  .ok { sch with slots := sl' }

/-- `_ReadIni._get_unnamed_section`: look the unnamed (name `None`) section
up; when absent and `read_undefined` permits sections, create an
`UndefinedSection` under the `_UNNAMED` attribute, otherwise yield `None`. -/
def getUnnamedSection (sch : SchemaE C) (p : RParams) :
    SchemaE C × Option Nat :=
  match schGetSectionIdx sch none with
  | some (_, i) => (sch, some i)
  | none =>
      if p.readUndefined = .all ∨ p.readUndefined = .sectionOnly then
        let (sch', i) := schSetattrSection sch "_UNNAMED"
          { name := none, undef := true }
        (sch', some i)
      else (sch, none)

/-- `_ReadIni._handle_section_name`: resolve the section by name, creating an
`UndefinedSection` when allowed (`read_undefined` in `{True, "section"}`) and
returning `None` otherwise; the resolved section is inserted into the
schema's structure slots (`exist_action="ignore"`) and gets the active slots
added (`exist_ok=True`). -/
def handleSectionName (sch : SchemaE C) (nm : String) (p : RParams)
    (ks : List SlotKey) : Except PyErr (SchemaE C × Option Nat) := do
  let found ← match schGetSectionIdx sch (some nm) with
    | some (_, i) => .ok (sch, some i)
    | none =>
        if p.readUndefined = .all ∨ p.readUndefined = .sectionOnly then
          let (sch', i) := schSetattrSection sch (strToVar nm)
            { name := some nm, undef := true }
          .ok (sch', some i)
        else .ok (sch, none)
  match found with
  | (sch, none) => .ok (sch, none)
  | (sch, some i) => do
      let sch₁ ← schSetStructureItemsSec sch i ks
      let sch₂ ← heapModify sch₁ i fun s => secAddSlots s ks true
      .ok (sch₂, some i)

/-- The transient `Option` object built by `_ReadIni._extract_option`
(`Option.from_string` with the active slots and no type converter): one
`OptionSlotValue` per slot whose input and converted values are both the raw
right-hand side (`None` for an empty value). -/
def extractedOption (key : String) (rawVal : Option String)
    (ks : List SlotKey) : OptionE C :=
  let rv : PyV C := match rawVal with
    | none => .pynone
    | some v => .str v
  { key := key, oslots := ks.map fun k => (k, ⟨rv, rv⟩) }

/-- `_ReadIni._handle_option`: a defined option receives the extracted
option's last slot value (`iloc[-1][1]`) through its own `_set_slots`
(re-converting with its own converter) and is re-inserted into the structure
(`exist_action="ignore"`); an unknown key creates an `UndefinedOption` when
`read_undefined` is in `{True, "option"}` and otherwise yields `None`
(the caller then falls through to continuation handling). -/
def handleOption (sec : SectionE C) (p : RParams) (key : String)
    (rawVal : Option String) (ks : List SlotKey) :
    Except PyErr (SectionE C × Option String) :=
  let extracted : OptionE C := extractedOption key rawVal ks
  match secFindOpt sec key with
  | some o => do
      let (_, last) ← ilocGetInt extracted.oslots (-1)
      let o' ← optionSetSlots o last.input last.converted true ks
      let sec₁ := secReplaceOpt sec key o'
      let sec₂ ← secSetStructureItemsOne sec₁ (.opt key) .ignore ks
      .ok (sec₂, some key)
  | none =>
      match p.readUndefined with
      | .all | .optionOnly => do
          let (sec', e) ← secAddEntityOpt sec extracted ks
          .ok (sec', some e.key)
      | _ => .ok (sec, none)

/-- `_ReadIni._check_for_possible_continuation`: only probed when multiline
is allowed and an option is open; returns the (possibly prefix-stripped)
line and the possible-continuation flag. -/
def checkPossibleContinuation (line : String) (hasCurOpt : Bool)
    (p : RParams) : String × Bool :=
  if p.mlAllowed ∧ hasCurOpt then
    match extractContinuation line p.mlPre with
    | some c => (c, true)
    | none => (line, false)
  else (line, false)

/- ------------------------------------------------------------------ -/
/- The reader state machine                                            -/
/- ------------------------------------------------------------------ -/

/-- The loop state of `_ReadIni.__new__`: the schema object graph,
`current_section` (heap index), `current_option` (owning section's heap index
and option key — the object reference), and `current_section_structure`. -/
structure RState (C : Type) where
  sch : SchemaE C
  curSec : Option Nat := none
  curOpt : Option (Nat × String) := none
  curStruct : List SItem := []

/-- Tag an operation error with the state at which it aborts the read
(mutations already applied stay applied, Python exception semantics). -/
def liftE (st : RState C) : Except PyErr α → Except (RState C × PyErr) α
  | .ok a => .ok a
  | .error e => .error (st, e)

/-- The continuation fallthrough of the `_ReadIni.__new__` entity loop
("possible continuation"): structure error without an open option, the two
multiline faults, then `add_continuation` on the current option's object. -/
def readStepCont (p : RParams) (ks : List SlotKey) (st : RState C)
    (idx : Nat) (content : String) (pc : Bool) :
    Except (RState C × PyErr) (RState C) :=
  match st.curOpt with
  | none => .error (st, .iniStructure idx)
  | some (osi, okey) =>
      if ¬ p.mlAllowed then .error (st, .multilineErr idx)
      else if ¬ pc then .error (st, .multilineErr idx)
      else
        match st.sch.heap.get? osi with
        | none => .error (st, .entityNotFound)
        | some sec =>
            match secFindOpt sec okey with
            | none => .error (st, .entityNotFound)
            | some o =>
                match optionAddCont o content none ks with
                | .error e => .error (st, e)
                | .ok o' =>
                    .ok { st with
                            sch := heapSet st.sch osi
                              (secReplaceOpt sec okey o') }

/-- The option attempt of the entity loop (gated by `multiline_ignore`): on
success and acceptance the option becomes `current_option` and is appended
to the accumulator; an extracted but unhandled option (undefined, not
allowed) falls through to continuation handling, as does extraction
failure. -/
def readStepOption (p : RParams) (ks : List SlotKey) (st : RState C)
    (idx : Nat) (content : String) (pc : Bool) (si : Nat) :
    Except (RState C × PyErr) (RState C) :=
  match (if ¬ pc ∨ ¬ MIG.optionDelimiter ∈ p.mlIgnore then
      extractOption content p.optionDelims
    else none) with
  | some (k, v) =>
      match st.sch.heap.get? si with
      | none => .error (st, .entityNotFound)
      | some sec =>
          match handleOption sec p k v ks with
          | .error e => .error (st, e)
          | .ok (sec', some key) =>
              .ok { st with
                      sch := heapSet st.sch si sec',
                      curOpt := some (si, key),
                      curStruct := st.curStruct ++ [.opt key] }
          | .ok (_, none) => readStepCont p ks st idx content pc
  | none => readStepCont p ks st idx content pc

/-- The comment attempt of the entity loop (gated by `multiline_ignore`): a
comment is added to the current section and the accumulator, leaving
`current_option` untouched; failure falls through to the option attempt. -/
def readStepComment (p : RParams) (ks : List SlotKey) (st : RState C)
    (idx : Nat) (content : String) (pc : Bool) (si : Nat) :
    Except (RState C × PyErr) (RState C) :=
  match (if ¬ pc ∨ ¬ MIG.commentPre ∈ p.mlIgnore then
      extractCommentE content p.commentPres
    else .ok none) with
  | .error e => .error (st, e)
  | .ok (some cnt) =>
      match st.sch.heap.get? si with
      | none => .error (st, .entityNotFound)
      | some sec =>
          match secAddComment sec cnt ks with
          | .error e => .error (st, e)
          | .ok (sec', cid) =>
              .ok { st with
                      sch := heapSet st.sch si sec',
                      curStruct := st.curStruct ++ [.cmt cid] }
  | .ok none => readStepOption p ks st idx content pc si

/-- The section attempt of the entity loop: flush the accumulated structure
into the previous section (when one is set and the accumulator is
non-empty), then resolve the new section; `current_option` is *not* reset
by a section header. -/
def readStepSectionGo (p : RParams) (ks : List SlotKey) (st₁ : RState C)
    (nm : String) : Except (RState C × PyErr) (RState C) :=
  match handleSectionName st₁.sch nm p ks with
  | .error e => .error (st₁, e)
  | .ok (sch', iopt) => .ok { st₁ with sch := sch', curSec := iopt }

/-- The flush step preceding `_handle_section_name`, then the resolution
itself. -/
def readStepSection (p : RParams) (ks : List SlotKey) (st : RState C)
    (nm : String) : Except (RState C × PyErr) (RState C) :=
  match st.curSec with
  | some i =>
      if st.curStruct ≠ [] then
        match heapModify st.sch i
            (fun sec => secSetStructure sec st.curStruct true ks) with
        | .error e => .error (st, e)
        | .ok sch' =>
            readStepSectionGo p ks { st with sch := sch', curStruct := [] } nm
      else readStepSectionGo p ks st nm
  | none => readStepSectionGo p ks st nm

/-- One iteration of the `_ReadIni.__new__` entity loop, for the entity with
index `idx`.  Mirrors the source order: continuation probe, empty check
(resetting `current_option`), section attempt (`readStepSection`), the
no-current-section skip, comment attempt (`readStepComment`), option
attempt (`readStepOption`) and the final continuation fallthrough
(`readStepCont`).  Extraction attempts are skipped for possible
continuations whose marker class is listed in `multiline_ignore`. -/
def readStep (p : RParams) (ks : List SlotKey) (st : RState C) (idx : Nat)
    (line : String) : Except (RState C × PyErr) (RState C) :=
  let (content, pc) := checkPossibleContinuation line st.curOpt.isSome p
  if isEmptyEntity content p.ignoreWhitespaceLines then
    .ok { st with curOpt := none }
  else
    match (if ¬ pc ∨ ¬ MIG.sectionName ∈ p.mlIgnore then
        extractSectionName content
      else none) with
    | some nm => readStepSection p ks st nm
    | none =>
        match st.curSec with
        | none => .ok st
        | some si => readStepComment p ks st idx content pc si

/-- Fold `readStep` over the entities, stopping at (and reporting) the first
error while keeping the state reached so far. -/
def readLinesStep (p : RParams) (ks : List SlotKey)
    (acc : RState C × Option PyErr) (il : Nat × String) :
    RState C × Option PyErr :=
  match acc with
  | (st, some e) => (st, some e)
  | (st, none) =>
      match readStep p ks st il.1 il.2 with
      | .ok st' => (st', none)
      | .error (st', e) => (st', some e)

/-- Fold `readLinesStep` over the enumerated entities. -/
def readLines (p : RParams) (ks : List SlotKey) (st₀ : RState C)
    (lines : List String) : RState C × Option PyErr :=
  lines.enum.foldl (readLinesStep p ks) (st₀, none)

/-- Fresh slot key generation of `_ReadIni.__new__` (`slots is False`): the
first key in `range(len(slots), len(slots)*2 + 1)` that is not already a
slot key. -/
def freshSlotKey (l : SlotStore α) : Int :=
  let n := l.length
  match (List.range (n + 1)).find? fun i =>
      (slotsLookup l (.inl (Int.ofNat (n + i)))).isNone with
  | some i => Int.ofNat (n + i)
  | none => Int.ofNat n

/-- `_ReadIni.__new__` minus the file I/O: resolve the slot access (a fresh
integer slot when `slots is False`, else verified existing slots), create the
unnamed section speculatively, split the text at the entity delimiter
(default newline) and fold the entity loop; after a completed loop the final
`_get_unnamed_section` call re-resolves (and, when permitted, would re-create)
the unnamed section — the subsequent `del unnamed` only unbinds the local
variable, so no schema attribute is removed. -/
def readIni (p : RParams) (sch₀ : SchemaE C)
    (slotsArg : Option (List SlotKey)) (text : String) :
    SchemaE C × Option PyErr :=
  let pre : Except PyErr (SchemaE C × List SlotKey) :=
    match slotsArg with
    | none =>
        let b := freshSlotKey sch₀.slots
        (slotsAdd sch₀.slots [.inl b] [] false).map fun l =>
          ({ sch₀ with slots := l }, [Sum.inl b])
    | some ks => (slotAccessVerify sch₀.slots ks).map fun _ => (sch₀, ks)
  match pre with
  | .error e => (sch₀, some e)
  | .ok (sch₁, ks) =>
    let (sch₂, unnamedIdx) := getUnnamedSection sch₁ p
    let st₀ : RState C := { sch := sch₂, curSec := unnamedIdx }
    let (stF, err) := readLines p ks st₀ (splitNl text)
    match err with
    | some e => (stF.sch, some e)
    | none =>
        let (schF, _) := getUnnamedSection stF.sch p
        (schF, none)

/- ------------------------------------------------------------------ -/
/- Slot decider and slot views                                         -/
/- ------------------------------------------------------------------ -/

/-- The decider methods of `slots.py` (`SlotDeciderMethods`). -/
inductive DMethod where
  | fallback
  | first
  | latest
  | cascadeUp
  | cascadeDown
deriving DecidableEq, Repr

/-- `_SlotEntity._get_slots` for a single key on a generic slot store whose
values may themselves be Python `None`: a missing slot yields the default
`None`. -/
def slotsGetJoin (tslots : SlotStore (Option V)) (k : SlotKey) : Option V :=
  (slotsLookup tslots k).bind id

/-- `SlotDecider._decision` (`interface.py`): `latest_key`/`first_key` come
from the reference slots' `iloc[-1]`/`iloc[0]`; `fallback` takes the latest
slot unless its value is `None`, `first`/`latest` take those slots
unconditionally, and the cascades scan the target's own slots for the first
value that `is not None` (a `StopIteration` escapes when every value is
`None`). -/
def decision (tslots : SlotStore (Option V)) (ref : List (SlotKey × W))
    (m : DMethod) : Except PyErr (SlotKey × Option V) := do
  let (lk, _) ← ilocGetInt ref (-1)
  let (fk, _) ← ilocGetInt ref 0
  match m with
  | .fallback =>
      let lv := slotsGetJoin tslots lk
      if lv.isSome then .ok (lk, lv) else .ok (fk, slotsGetJoin tslots fk)
  | .first => .ok (fk, slotsGetJoin tslots fk)
  | .latest => .ok (lk, slotsGetJoin tslots lk)
  | .cascadeUp =>
      match tslots.find? (fun p => p.2.isSome) with
      | some (k, v) => .ok (k, v)
      | none => .error .stopIteration
  | .cascadeDown =>
      match tslots.reverse.find? (fun p => p.2.isSome) with
      | some (k, v) => .ok (k, v)
      | none => .error .stopIteration

/-- `SlotAccess` (`slots.py`): a single key, a list of keys, or `None` for
all slots. -/
inductive SAccess where
  | one (k : SlotKey)
  | many (ks : List SlotKey)
  | all

/-- `SlotViewer.__getattribute__` on an `Option` attribute (`interface.py`):
`out = attr[slot]`, then `out.converted` for a single slot and
`[val.converted for val in out]` for a list of slots or all slots
(`SlotNotFound` when a requested slot is missing). -/
def slotViewerGetOption (o : OptionE C) (a : SAccess) :
    Except PyErr (Sum (PyV C) (List (PyV C))) :=
  match a with
  | .one k =>
      match slotsLookup o.oslots k with
      | some v => .ok (.inl v.converted)
      | none => .error .slotNotFound
  | .many ks =>
      (ks.mapM (fun k =>
        match slotsLookup o.oslots k with
        | some v => Except.ok v.converted
        | none => Except.error PyErr.slotNotFound)).map .inr
  | .all => .ok (.inr (o.oslots.map fun p => p.2.converted))

/-- `SlotDecider.__getattribute__` on an `Option` attribute: the decided
slot's value's `.converted` field; the source dereferences `.converted` on
the decision result, so a decided `None` value raises `AttributeError`. -/
def slotDeciderGetOption (o : OptionE C) (ref : List (SlotKey × W))
    (m : DMethod) : Except PyErr (PyV C) := do
  let (_, v) ← decision (o.oslots.map fun p => (p.1, some p.2)) ref m
  match v with
  | some osv => .ok osv.converted
  | none => .error .attributeError

/- ------------------------------------------------------------------ -/
/- Exporter                                                            -/
/- ------------------------------------------------------------------ -/

/-- Python `str(·)` on a multiline element (elements are `None`, raw strings
or converter results; `showC` renders the abstract converter results).  The
nested-multiline case cannot arise in the modelled flows and is rendered as
the empty string. -/
def pyElemStr (showC : C → String) : PyV C → String
  | .pynone => "None"
  | .str s => s
  | .conv c => showC c
  | .multi _ => ""

/-- `OptionSlotValue.to_string` (`entities.py`): a multiline input is joined
with newline (plus the multiline prefix when given), `None` renders empty,
anything else through `str(·)`. -/
def osvToString (showC : C → String) (v : OSV C) (mlPre : Option String) :
    String :=
  match v.input with
  | .multi xs =>
      String.intercalate
        (match mlPre with
          | none => "\n"
          | some pre => "\n" ++ pre)
        (xs.map (pyElemStr showC))
  | .pynone => ""
  | iv => pyElemStr showC iv

/-- `Option.to_string` (`entities.py`) with a slot-access list: the generator
condition compares an `OptionSlotValue` against `""` and is therefore always
true, so the first requested slot's value is rendered (`SlotNotFound` when
the option lacks it); an empty access renders the empty default. -/
def optionToString (showC : C → String) (o : OptionE C) (delim : String)
    (mlPre : Option String) (access : List SlotKey) : Except PyErr String := do
  let value ← match access with
    | [] => .ok ""
    | k :: _ =>
        match slotsLookup o.oslots k with
        | some v => .ok (osvToString showC v mlPre)
        | none => .error .slotNotFound
  .ok (o.key ++ " " ++ delim ++ " " ++ value)

/-- `Schema._get_sections(include_undefined, slots=None)`: the sections in
attribute (insertion) order, filtered by the undefined flag. -/
def schGetSectionsForExport (sch : SchemaE C) (includeUndefined : Bool) :
    List (SectionE C) :=
  sch.attrs.filterMap fun p =>
    match sch.heap.get? p.2 with
    | some s => if includeUndefined ∨ ¬ s.undef then some s else none
    | none => none

/-- `Schema._export` (`interface.py`) with `structure="schema"`,
`content_slots=None` and `export_comments=False`: the content slot access is
the full schema slot list transformed by the decider method (`fallback`
keeps the latest plus, when more than one slot exists, the first); sections
are walked in attribute order, rendering `[name]` headers (no header for the
unnamed section) and, per section, the defined options of the fixed schema
structure as `key delimiter value` lines from the first access slot, all
joined with a double entity delimiter (default newline) whose final
occurrence is sliced off.  The option delimiter is
`parameters.option_delimiters[0]`. -/
def exportOptItem (showC : C → String) (includeUndefined : Bool)
    (sec : SectionE C) (delim : String) (access : List SlotKey)
    (acc : String) (it : SItem) : Except PyErr String :=
  match it with
  | .opt key =>
      match secFindOpt sec key with
      | some o =>
          if includeUndefined ∨ ¬ o.undef then
            match optionToString showC o delim none access with
            | .error e => .error e
            | .ok s => .ok (acc ++ s ++ "\n\n")
          else .ok acc
      | none => .ok acc
  | .cmt _ => .ok acc

/-- One section of the export: the `[name]` header (none for the unnamed
section) followed by the body fold over the fixed schema structure. -/
def exportSecStep (showC : C → String) (includeUndefined : Bool)
    (delim : String) (access : List SlotKey) (out : String)
    (sec : SectionE C) : Except PyErr String :=
  let head := match sec.name with
    | some nm => "[" ++ nm ++ "]" ++ "\n\n"
    | none => ""
  match sec.schemaStructure.foldlM
      (exportOptItem showC includeUndefined sec delim access) "" with
  | .error e => .error e
  | .ok body => .ok (out ++ head ++ body)

/-- `Schema._export` continued: resolve the content slot access from the
decider method, take the first option delimiter, fold the sections and slice
off the final doubled entity delimiter (two characters). -/
def exportText (showC : C → String) (sch : SchemaE C) (m : DMethod)
    (delims : List String) (includeUndefined : Bool) :
    Except PyErr String := do
  let allKeys := sch.slots.map (·.1)
  let access : List SlotKey ←
    match m with
    | .fallback =>
        match allKeys.getLast? with
        | some l => .ok ([l] ++ if allKeys.length > 1 then [allKeys.headI] else [])
        | none => .error .indexError
    | .first =>
        match allKeys.head? with
        | some f => .ok [f]
        | none => .error .indexError
    | .latest =>
        match allKeys.getLast? with
        | some l => .ok [l]
        | none => .error .indexError
    | .cascadeDown => .ok allKeys.reverse
    | .cascadeUp => .ok allKeys
  let delim ← match delims.head? with
    | some d => .ok d
    | none => .error .indexError
  let out ← (schGetSectionsForExport sch includeUndefined).foldlM
    (exportSecStep showC includeUndefined delim access) ""
  .ok (out.dropRight 2)

/- ------------------------------------------------------------------ -/
/- Parameters marker validation                                        -/
/- ------------------------------------------------------------------ -/

/-- The value of Python `re.escape("[")`, which `Parameters.verify_marker`
uses as the forbidden leading sequence: the backslash-escaped bracket, a two
character string. -/
def reEscapedBracket : String := "\\["

/-- `Parameters.verify_marker` (`args.py`): for every marker string, raise
`ValueError` when it starts with `re.escape("[")` (the literal two-character
sequence backslash-bracket) or contains a comma (`re.escape(",")` is `","`). -/
def verifyMarker (marker : List String) : Except PyErr Unit :=
  marker.foldlM
    (fun _ val =>
      if val.startsWith reEscapedBracket then .error .valueError
      else if ',' ∈ val.data then .error .valueError
      else .ok ())
    ()

/-- Python `set(s)` for a string: its characters as one-character strings
(`set(self.multiline_prefix)` in `verify_between_markers`). -/
def charStrings (s : String) : List String :=
  s.data.map fun c => ⟨[c]⟩

/-- `Parameters.verify_between_markers` (`args.py`).  The arguments model the
attributes visible at call time (`hasattr` is `false` until the respective
setter ran, encoded as `none`); the multiline prefix is stored escaped, and
its character set is intersected with the comment prefixes and the option
delimiters. -/
def verifyBetweenMarkers (cps : Option (Option (List String)))
    (ods : Option (List String)) (ml : Option String) : Except PyErr Unit := do
  _ ← match cps with
    | some (some ps) =>
        if ps ≠ [] then do
          _ ← match ods with
            | some ds =>
                if ps.any (fun p => p ∈ ds) then .error PyErr.valueError
                else .ok ()
            | none => .ok ()
          match ml with
          | some m =>
              if ps.any (fun p => p ∈ charStrings m) then .error PyErr.valueError
              else .ok ()
          | none => .ok ()
        else .ok ()
    | _ => .ok ()
  match ml, ods with
  | some m, some ds =>
      if (charStrings m).any (fun c => c ∈ ds) then .error PyErr.valueError
      else .ok ()
  | _, _ => .ok ()

/-- The characters Python `re.escape` (3.7+) prefixes with a backslash. -/
def reSpecialChars : List Char :=
  ['(', ')', '[', ']', '{', '}', '?', '*', '+', '-', '|', '^', '$',
   '\\', '.', '&', '~', '#', ' ', '\t', '\n', '\r', '\x0b', '\x0c']

/-- Python `re.escape`: special characters are prefixed with a backslash
(the `multiline_prefix` setter stores the escaped prefix). -/
def pyReEscape (s : String) : String :=
  ⟨s.data.flatMap fun c =>
    if c ∈ reSpecialChars then ['\\', c] else [c]⟩

/-- `Parameters.__init__` marker handling (`args.py`): `_comment_prefixes`
and `_option_delimiters` are pre-set to empty tuples, then the three setters
run in order — each normalises its tuple, calls `verify_marker` (the
multiline prefix setter does not) and re-runs `verify_between_markers` with
the attributes assigned so far (`hasattr` of the multiline prefix is false
until its own setter ran).  Returns the escaped multiline prefix on
success. -/
def paramsInitMarkers (cps : Option (List String)) (ods : List String)
    (ml : Option String) : Except PyErr String := do
  _ ← match cps with
    | some ps => verifyMarker ps
    | none => .ok ()
  _ ← verifyBetweenMarkers (some cps) (some []) none
  _ ← verifyMarker ods
  _ ← verifyBetweenMarkers (some cps) (some ods) none
  let mlStored := match ml with
    | none => ""
    | some v => pyReEscape v
  _ ← verifyBetweenMarkers (some cps) (some ods) (some mlStored)
  .ok mlStored

/- ------------------------------------------------------------------ -/
/- Theorems                                                            -/
/- ------------------------------------------------------------------ -/

/-- C9 (counterexample).  The claim states that `nth`/`iloc` access raises an
out-of-range error for every `i < -n`.  On a one-slot store, `iloc[-2]`
instead returns the pair at position 0: the source rewrites `-2` to
`dict_len + (-2) = -1` and indexes the items tuple with it, which Python
interprets from the end again. -/
theorem c9_iloc_counterexample :
    ilocGetInt [((Sum.inl 0 : SlotKey), "a")] (-2) =
      .ok ((Sum.inl 0 : SlotKey), "a") := rfl

/-- C9 (amended).  Positional access on a store of size `n` returns the pair
at position `i` for `0 ≤ i < n`, the pair at position `i + n` for
`-n ≤ i < 0`, and — because a negative index is converted to `n + i` and then
fed to Python tuple indexing, which wraps negative values once more — the
pair at position `i + 2n` for `-2n ≤ i < -n`; it raises the out-of-range
`IndexError` exactly when `i ≥ n` or `i < -2n`. -/
theorem c9_iloc_amended (l : List (K × V)) (i : Int) :
    (0 ≤ i → i < l.length →
      ∀ x, l.get? i.toNat = some x → ilocGetInt l i = .ok x) ∧
    (-(l.length : Int) ≤ i → i < 0 →
      ∀ x, l.get? (i + l.length).toNat = some x → ilocGetInt l i = .ok x) ∧
    (-(2 * l.length : Int) ≤ i → i < -(l.length : Int) →
      ∀ x, l.get? (i + 2 * l.length).toNat = some x → ilocGetInt l i = .ok x) ∧
    ((l.length : Int) ≤ i ∨ i < -(2 * l.length : Int) →
      ilocGetInt l i = .error .indexError) := by
  unfold ilocGetInt pyTupleGet
  refine ⟨?_, ?_, ?_, ?_⟩
  · intro h0 _ x hx
    simp only [if_neg (by omega : ¬ i < 0), if_pos h0, hx]
  · intro _ hlt x hx
    have h1 : (0 : Int) ≤ (l.length : Int) + i := by omega
    simp only [if_pos hlt, if_pos h1]
    have h2 : ((l.length : Int) + i).toNat = (i + l.length).toNat := by omega
    rw [h2, hx]
  · intro _ hlt x hx
    have h0 : i < 0 := by omega
    have h1 : ¬ (0 : Int) ≤ (l.length : Int) + i := by omega
    have h2 : (0 : Int) ≤ (l.length : Int) + i + l.length := by omega
    simp only [if_pos h0, if_neg h1, if_pos h2]
    have h3 : ((l.length : Int) + i + l.length).toNat = (i + 2 * l.length).toNat := by
      omega
    rw [h3, hx]
  · intro h
    rcases h with h | h
    · have h0 : ¬ i < 0 := by omega
      have hnone : l.get? i.toNat = none := by
        rw [List.get?_eq_none]
        omega
      simp only [if_neg h0, if_pos (by omega : (0 : Int) ≤ i), hnone]
    · have h1 : ¬ (0 : Int) ≤ (l.length : Int) + i := by omega
      have h2 : ¬ (0 : Int) ≤ (l.length : Int) + i + l.length := by omega
      simp only [if_pos (by omega : i < 0), if_neg h1, if_neg h2]

/-- C9 (witness for the amended theorem): on a two-slot store, `iloc[-3]`
lands in the double-wrap range and returns the pair at position 1. -/
theorem c9_iloc_amended_witness :
    ilocGetInt [((Sum.inl 0 : SlotKey), "a"), (Sum.inl 1, "b")] (-3) =
      .ok ((Sum.inl 1 : SlotKey), "b") := by
  obtain ⟨-, -, h3, -⟩ :=
    c9_iloc_amended [((Sum.inl 0 : SlotKey), "a"), (Sum.inl 1, "b")] (-3)
  exact h3 (by decide) (by decide) ((Sum.inl 1 : SlotKey), "b") rfl

/-- C2 (counterexample).  The claim defines "non-None" for an Option target
as "its raw input in that slot is not None".  Take an Option target holding
`OptionSlotValue(input=None)` in slot 0 (counting as None per the claim) and
`OptionSlotValue(input="v")` in slot 1, with reference order `[0, 1]`.
`_decision` compares the slot *value objects* against `None`, and an
`OptionSlotValue` object is never `None`, so `cascade up` resolves to slot 0
— whose raw input is `None` — rather than to slot 1's `v` as the claim
demands. -/
theorem c2_decider_counterexample :
    decision
      [((Sum.inl 0 : SlotKey),
          some ({ input := .pynone, converted := .pynone } : OSV Unit)),
        (Sum.inl 1, some { input := .str "v", converted := .str "v" })]
      [((Sum.inl 0 : SlotKey), ()), (Sum.inl 1, ())] .cascadeUp =
      .ok ((Sum.inl 0 : SlotKey),
        some ({ input := .pynone, converted := .pynone } : OSV Unit)) ∧
    ¬ decision
      [((Sum.inl 0 : SlotKey),
          some ({ input := .pynone, converted := .pynone } : OSV Unit)),
        (Sum.inl 1, some { input := .str "v", converted := .str "v" })]
      [((Sum.inl 0 : SlotKey), ()), (Sum.inl 1, ())] .cascadeUp =
      .ok ((Sum.inl 1 : SlotKey),
        some ({ input := .str "v", converted := .str "v" } : OSV Unit)) := by
  constructor
  · rfl
  · intro h
    rw [show decision
      [((Sum.inl 0 : SlotKey),
          some ({ input := .pynone, converted := .pynone } : OSV Unit)),
        (Sum.inl 1, some { input := .str "v", converted := .str "v" })]
      [((Sum.inl 0 : SlotKey), ()), (Sum.inl 1, ())] .cascadeUp =
      .ok ((Sum.inl 0 : SlotKey),
        some ({ input := .pynone, converted := .pynone } : OSV Unit)) from rfl]
      at h
    simp only [Except.ok.injEq, Prod.mk.injEq, Sum.inl.injEq] at h
    exact absurd h.1 (by decide)

/-- C2 (amended).  In `_decision`, a slot "counts as None" exactly when the
value the target stores for it is Python `None` (in particular when the
target lacks the slot, making `_get_slots` return its `None` default; the
cascade methods scan the target's own slot values for `is not None`).  For a
target whose slots are `[s0 ↦ None, s1 ↦ v]` with `v` non-None and reference
order `[s0, s1]`: `fallback` resolves to `v`, `first` to `None`, `latest` to
`v`, `cascade up` to `v`, `cascade down` to `v`. -/
theorem c2_decider_amended (v : V) (s0 s1 : SlotKey) (w0 w1 : W)
    (h : s0 ≠ s1) :
    decision [(s0, none), (s1, some v)] [(s0, w0), (s1, w1)] .fallback =
      .ok (s1, some v) ∧
    decision [(s0, none), (s1, some v)] [(s0, w0), (s1, w1)] .first =
      .ok (s0, none) ∧
    decision [(s0, none), (s1, some v)] [(s0, w0), (s1, w1)] .latest =
      .ok (s1, some v) ∧
    decision [(s0, none), (s1, some v)] [(s0, w0), (s1, w1)] .cascadeUp =
      .ok (s1, some v) ∧
    decision [(s0, none), (s1, some v)] [(s0, w0), (s1, w1)] .cascadeDown =
      .ok (s1, some v) := by
  have hiloc1 : ilocGetInt [(s0, w0), (s1, w1)] (-1) = .ok (s1, w1) := rfl
  have hiloc0 : ilocGetInt [(s0, w0), (s1, w1)] 0 = .ok (s0, w0) := rfl
  have hj1 : slotsGetJoin [(s0, none), (s1, some v)] s1 = some v := by
    unfold slotsGetJoin slotsLookup
    rw [List.find?_cons_of_neg _ (by simp [h]),
      List.find?_cons_of_pos _ (by simp)]
    rfl
  have hj0 : slotsGetJoin [(s0, none), (s1, some v)] s0 = none := by
    unfold slotsGetJoin slotsLookup
    rw [List.find?_cons_of_pos _ (by simp)]
    rfl
  have hup : List.find? (fun p => p.2.isSome)
      [(s0, (none : Option V)), (s1, some v)] = some (s1, some v) := by
    rw [List.find?_cons_of_neg _ (by simp), List.find?_cons_of_pos _ (by simp)]
  have hdown : List.find? (fun p => p.2.isSome)
      [(s0, (none : Option V)), (s1, some v)].reverse = some (s1, some v) := by
    show List.find? _ [(s1, some v), (s0, none)] = _
    rw [List.find?_cons_of_pos _ (by simp)]
  refine ⟨?_, ?_, ?_, ?_, ?_⟩
  · simp only [decision, hiloc1, hiloc0, hj1, Except.bind, bind,
      Option.isSome, if_true]
  · simp only [decision, hiloc1, hiloc0, hj0, Except.bind, bind]
  · simp only [decision, hiloc1, hiloc0, hj1, Except.bind, bind]
  · simp only [decision, hiloc1, hiloc0, hup, Except.bind, bind]
  · simp only [decision, hiloc1, hiloc0, hdown, Except.bind, bind]

/-- C2 (witness for the amended theorem) at slots 0 and 1 with `v = 5`. -/
theorem c2_decider_amended_witness :
    decision [((Sum.inl 0 : SlotKey), (none : Option Nat)),
        (Sum.inl 1, some 5)]
      [((Sum.inl 0 : SlotKey), ()), (Sum.inl 1, ())] .fallback =
      .ok ((Sum.inl 1 : SlotKey), some 5) ∧
    decision [((Sum.inl 0 : SlotKey), (none : Option Nat)),
        (Sum.inl 1, some 5)]
      [((Sum.inl 0 : SlotKey), ()), (Sum.inl 1, ())] .first =
      .ok ((Sum.inl 0 : SlotKey), none) :=
  ⟨(c2_decider_amended 5 (Sum.inl 0) (Sum.inl 1) () () (by decide)).1,
    (c2_decider_amended 5 (Sum.inl 0) (Sum.inl 1) () () (by decide)).2.1⟩

/-- C8 (code evaluation at the failing input).  The claim says construction
raises a `ValueError` whenever the section-bracket character `[` is used as
any marker.  `verify_marker` tests `val.startswith(re.escape("["))` — i.e.
the two-character sequence `\[` — so the plain marker `"["` passes
validation in every role: as a comment prefix, as an option delimiter, and
as the multiline prefix (which `verify_marker` is never called on at all).
No error is raised. -/
theorem c8_params_validation_bug :
    paramsInitMarkers (some ["["]) ["="] none = .ok "" ∧
    paramsInitMarkers (some [";"]) ["["] none = .ok "" ∧
    paramsInitMarkers (some [";"]) ["="] (some "[") = .ok "\\[" :=
  ⟨rfl, rfl, rfl⟩

/-- A schema declaring one section named `s` with no options (used by the
concrete reader scenarios). -/
def exSchemaS : SchemaE Unit :=
  { heap := [{ name := some "s" }], attrs := [("s", 0)] }

/-- Default `Parameters` as the reader sees them. -/
def defaultRParams : RParams := {}

/-- Default `Parameters` with `read_undefined=True`. -/
def rparamsUndef : RParams := { readUndefined := .all }

/-- C4 (code evaluation at the failing input).  The claim says that with
`read_undefined=False` every undefined option is dropped with a warning,
non-fatally, and the read continues.  Reading `"[s]\nk = 1"` into a schema
that defines section `s` without an option `k` instead aborts with an
`IniStructureError`: `_handle_option` returns `None` without warning, the
entity falls through to the continuation branch, and `current_option` is
`None`. -/
theorem c4_undefined_policy_bug :
    (readIni defaultRParams exSchemaS none "[s]\nk = 1").2 =
      some (.iniStructure 1) := rfl

/-- C7 (code evaluation at the failing input).  The claim says the unnamed
section is deleted from the schema when it is an `UndefinedSection` with
zero populated slots after the read.  Reading `"[s]"` with
`read_undefined=True` into an empty schema creates the speculative unnamed
section, which stays unpopulated; the read completes without error, yet the
unnamed section is still reachable as the schema's `_UNNAMED` attribute
(`del unnamed` only unbinds the local variable), an `UndefinedSection` with
zero slots. -/
theorem c7_unnamed_cleanup_bug :
    (readIni rparamsUndef ({} : SchemaE Unit) none "[s]").2 = none ∧
    schGetSectionIdx (readIni rparamsUndef ({} : SchemaE Unit) none "[s]").1
      none = some ("_UNNAMED", 0) ∧
    (readIni rparamsUndef ({} : SchemaE Unit) none "[s]").1.heap.get? 0 =
      some { name := none, undef := true, sslots := [] } :=
  ⟨rfl, rfl, rfl⟩

/-- C6 (counterexample).  The claim says every entity matching no extractor
raises a document-structure error when no option is open.  But when no
current section is addressable either, the entity is silently skipped:
reading the no-extractor entity `"x"` into an empty schema with
`read_undefined=False` completes without any error. -/
theorem c6_counterexample :
    (readIni defaultRParams ({} : SchemaE Unit) none "x").2 = none ∧
    extractSectionName "x" = none ∧
    commentCore "x" [";"] = none ∧
    extractOption "x" ["="] = none ∧
    isEmptyEntity "x" true = false :=
  ⟨rfl, rfl, rfl, rfl, rfl⟩

/- Helper lemmas for slot stores. -/

theorem slotsLookup_setItem_self (l : SlotStore α) (k : SlotKey) (v : α) :
    slotsLookup (slotsSetItem l k v) k = some v := by
  induction l with
  | nil =>
      unfold slotsSetItem slotsLookup
      rw [List.find?_cons_of_pos _ (by simp)]
      rfl
  | cons hd t ih =>
      obtain ⟨k₀, v₀⟩ := hd
      by_cases hk : k₀ = k
      · unfold slotsSetItem slotsLookup
        rw [if_pos hk, List.find?_cons_of_pos _ (by simp)]
        rfl
      · unfold slotsSetItem slotsLookup
        rw [if_neg hk, List.find?_cons_of_neg _ (by simp [hk])]
        exact ih

theorem slotsLookup_setItem_ne (l : SlotStore α) (k : SlotKey) (v : α)
    (A : SlotKey) (h : A ≠ k) :
    slotsLookup (slotsSetItem l k v) A = slotsLookup l A := by
  have hk : ¬ (k = A) := fun hh => h hh.symm
  induction l with
  | nil =>
      unfold slotsSetItem slotsLookup
      rw [List.find?_cons_of_neg _ (by simp [hk]), List.find?_nil]
  | cons hd t ih =>
      obtain ⟨k₀, v₀⟩ := hd
      by_cases hk₀ : k₀ = k
      · subst hk₀
        unfold slotsSetItem slotsLookup
        rw [if_pos rfl, List.find?_cons_of_neg _ (by simp [hk]),
          List.find?_cons_of_neg _ (by simp [hk])]
      · unfold slotsSetItem slotsLookup
        rw [if_neg hk₀]
        by_cases hA : k₀ = A
        · rw [List.find?_cons_of_pos _ (by simp [hA]),
            List.find?_cons_of_pos _ (by simp [hA])]
        · rw [List.find?_cons_of_neg _ (by simp [hA]),
            List.find?_cons_of_neg _ (by simp [hA])]
          exact ih

/-- The effective element converter used by `Option.add_continuation` when
the caller passes no fallback converter (the reader's
`_handle_continuation` case): the option's own converter, or the
identity. -/
def effConv (o : OptionE C) : PyV C → PyV C :=
  match o.conv with
  | some f => pyConvApply f
  | none => id

/-- The `OptionSlotValue` one `add_continuation` step produces from a slot
previously holding `osv`. -/
def contOSV (o : OptionE C) (osv : OSV C) (c : String) : OSV C :=
  let xs := (match osv.input with
    | .multi xs => xs
    | iv => [iv]) ++ [.str c]
  ⟨.multi xs, .multi (xs.map (effConv o))⟩

theorem optionAddCont_single (o : OptionE C) (c : String) (k : SlotKey)
    (osv : OSV C) (h : slotsLookup o.oslots k = some osv) :
    optionAddCont o c none [k] =
      .ok { o with oslots := slotsSetItem o.oslots k (contOSV o osv c) } := by
  simp only [optionAddCont, List.foldlM, h, effConv, contOSV]
  rfl

/-- Folding `add_continuation` over further continuations, starting from a
slot whose input is already an `OptionValueMultiline`. -/
theorem foldCont_from_multi (k : SlotKey) :
    ∀ (cs : List String) (o : OptionE C) (xs : List (PyV C)) (cv : PyV C),
    slotsLookup o.oslots k = some ⟨.multi xs, cv⟩ →
    ∃ o', List.foldlM (fun o c => optionAddCont o c none [k]) o cs = .ok o' ∧
      o'.conv = o.conv ∧
      slotsLookup o'.oslots k =
        (if cs = [] then some ⟨.multi xs, cv⟩ else
          some ⟨.multi (xs ++ cs.map PyV.str),
            .multi ((xs ++ cs.map PyV.str).map (effConv o))⟩) := by
  intro cs
  induction cs with
  | nil =>
      intro o xs cv h
      exact ⟨o, rfl, rfl, by simpa using h⟩
  | cons c cs ih =>
      intro o xs cv h
      have hstep := optionAddCont_single o c k ⟨.multi xs, cv⟩ h
      set nv : OSV C := contOSV o ⟨.multi xs, cv⟩ c with hnv
      set o₁ : OptionE C := { o with oslots := slotsSetItem o.oslots k nv }
        with ho₁
      have hnv' : nv = OSV.mk (PyV.multi (xs ++ [PyV.str c]))
          (PyV.multi ((xs ++ [PyV.str c]).map (effConv o))) := rfl
      have hlook₁ : slotsLookup o₁.oslots k =
          some (OSV.mk (PyV.multi (xs ++ [PyV.str c]))
            (PyV.multi ((xs ++ [PyV.str c]).map (effConv o)))) := by
        rw [ho₁, ← hnv']
        exact slotsLookup_setItem_self _ _ _
      obtain ⟨o', hfold, hconv, hres⟩ := ih o₁ (xs ++ [.str c]) _ hlook₁
      refine ⟨o', ?_, ?_, ?_⟩
      · rw [List.foldlM_cons, hstep]
        exact hfold
      · exact hconv
      · rw [hres]
        by_cases hcs : cs = []
        · subst hcs
          simp
        · rw [if_neg hcs, if_neg (by simp)]
          have heff : effConv o₁ = effConv o := rfl
          rw [heff]
          simp

/-- C5.  For an option slot holding the scalar raw assignment `r`, folding
`add_continuation` over non-empty continuations `cs` (the reader calls it
once per accepted continuation, with no fallback converter) succeeds and
leaves the slot with raw input the list `r :: cs` (as an
`OptionValueMultiline`, the first continuation having promoted the scalar to
a one-element list) and converted value the element-wise application of the
option's effective converter to that list, in original order. -/
theorem c5_multiline_accumulation (o : OptionE C) (k : SlotKey) (r : String)
    (cv : PyV C) (cs : List String)
    (hlook : slotsLookup o.oslots k = some ⟨.str r, cv⟩) (hne : cs ≠ []) :
    ∃ o', List.foldlM (fun o c => optionAddCont o c none [k]) o cs = .ok o' ∧
      slotsLookup o'.oslots k =
        some ⟨.multi ((r :: cs).map PyV.str),
          .multi (((r :: cs).map PyV.str).map (effConv o))⟩ := by
  obtain ⟨c, cs', rfl⟩ := List.exists_cons_of_ne_nil hne
  have hstep := optionAddCont_single o c k ⟨.str r, cv⟩ hlook
  set nv : OSV C := contOSV o ⟨.str r, cv⟩ c with hnv
  set o₁ : OptionE C := { o with oslots := slotsSetItem o.oslots k nv }
    with ho₁
  have hnv' : nv = OSV.mk (PyV.multi ([PyV.str r] ++ [PyV.str c]))
      (PyV.multi (([PyV.str r] ++ [PyV.str c]).map (effConv o))) := rfl
  have hlook₁ : slotsLookup o₁.oslots k =
      some (OSV.mk (PyV.multi ([PyV.str r] ++ [PyV.str c]))
        (PyV.multi (([PyV.str r] ++ [PyV.str c]).map (effConv o)))) := by
    rw [ho₁, ← hnv']
    exact slotsLookup_setItem_self _ _ _
  obtain ⟨o', hfold, hconv, hres⟩ :=
    foldCont_from_multi k cs' o₁ ([.str r] ++ [.str c]) _ hlook₁
  refine ⟨o', ?_, ?_⟩
  · rw [List.foldlM_cons, hstep]
    exact hfold
  · rw [hres]
    have heff : effConv o₁ = effConv o := rfl
    by_cases hcs : cs' = []
    · subst hcs
      simp
    · rw [if_neg hcs, heff]
      simp

/-- Concrete option for the C5 witness. -/
def exOpt5 : OptionE Nat :=
  { key := "k", oslots := [(.inl 0, ⟨.str "1", .str "1"⟩)] }

/-- C5 (witness): two continuations `["a", "b"]` on a slot holding the
scalar `"1"`. -/
theorem c5_multiline_accumulation_witness :
    ∃ o', List.foldlM (fun o c => optionAddCont o c none [Sum.inl 0]) exOpt5
        ["a", "b"] = .ok o' ∧
      slotsLookup o'.oslots (Sum.inl 0) =
        some ⟨.multi (("1" :: ["a", "b"]).map PyV.str),
          .multi ((("1" :: ["a", "b"]).map PyV.str).map (effConv exOpt5))⟩ :=
  c5_multiline_accumulation exOpt5 (Sum.inl 0) "1" (.str "1") ["a", "b"] rfl
    (by simp)

/- C10 helper: `mapM` of slot lookups along a `Forall₂` relation. -/

theorem mapM_lookup_conv (o : OptionE C) :
    ∀ (ks : List SlotKey) (osvs : List (OSV C)),
    List.Forall₂ (fun k osv => slotsLookup o.oslots k = some osv) ks osvs →
    (ks.mapM fun k =>
        match slotsLookup o.oslots k with
        | some v => Except.ok v.converted
        | none => Except.error PyErr.slotNotFound) =
      .ok (osvs.map (·.converted)) := by
  intro ks osvs h
  induction h with
  | nil => rfl
  | cons hk _ ih =>
      rw [List.mapM_cons, hk, ih]
      rfl

/-- C10.  Every option access through a slot view or through decided
attribute access returns the `converted` field of the stored
`OptionSlotValue` (the list of `converted` fields when the access names
several slots or all slots) — never the option object and never the raw
input. -/
theorem c10_access_converted (o : OptionE C) (k : SlotKey) (osv : OSV C)
    (ref : List (SlotKey × W)) (m : DMethod) (ks : List SlotKey)
    (osvs : List (OSV C)) (dk : SlotKey) :
    (slotsLookup o.oslots k = some osv →
      slotViewerGetOption o (.one k) = .ok (.inl osv.converted)) ∧
    (List.Forall₂ (fun k osv => slotsLookup o.oslots k = some osv) ks osvs →
      slotViewerGetOption o (.many ks) =
        .ok (.inr (osvs.map (·.converted)))) ∧
    (slotViewerGetOption o .all =
      .ok (.inr (o.oslots.map fun p => p.2.converted))) ∧
    (decision (o.oslots.map fun p => (p.1, some p.2)) ref m =
        .ok (dk, some osv) →
      slotDeciderGetOption o ref m = .ok osv.converted) := by
  refine ⟨?_, ?_, rfl, ?_⟩
  · intro h
    simp [slotViewerGetOption, h]
  · intro h
    simp only [slotViewerGetOption, mapM_lookup_conv o ks osvs h]
    rfl
  · intro h
    simp only [slotDeciderGetOption, h, Except.bind, bind]

/-- Concrete option for the C10 witness: raw input `"1"` converted to `7`. -/
def exOpt10 : OptionE Nat :=
  { key := "k", oslots := [(.inl 0, ⟨.str "1", .conv 7⟩)] }

/-- C10 (witness): single-slot view, list view and decided access on
`exOpt10` all return the converted value `7`, not the raw `"1"`. -/
theorem c10_access_converted_witness :
    slotViewerGetOption exOpt10 (.one (Sum.inl 0)) = .ok (.inl (.conv 7)) ∧
    slotViewerGetOption exOpt10 (.many [Sum.inl 0]) =
      .ok (.inr [.conv 7]) ∧
    slotDeciderGetOption exOpt10 [((Sum.inl 0 : SlotKey), ())] .latest =
      .ok (.conv 7) :=
  ⟨(c10_access_converted exOpt10 (Sum.inl 0) ⟨.str "1", .conv 7⟩
      [((Sum.inl 0 : SlotKey), ())] .latest [] [] (Sum.inl 0)).1 rfl,
    (c10_access_converted exOpt10 (Sum.inl 0) ⟨.str "1", .conv 7⟩
      [((Sum.inl 0 : SlotKey), ())] .latest [Sum.inl 0]
      [⟨.str "1", .conv 7⟩] (Sum.inl 0)).2.1
      (List.Forall₂.cons rfl List.Forall₂.nil),
    (c10_access_converted exOpt10 (Sum.inl 0) ⟨.str "1", .conv 7⟩
      [((Sum.inl 0 : SlotKey), ())] .latest [] [] (Sum.inl 0)).2.2.2 rfl⟩

/-- C6 (amended).  During a read, for every entity that matches no extractor
*while a current section is addressable*: if no option is open the reader
raises the document-structure `IniStructureError`; if an option is open but
`multiline_allowed` is `False` the reader raises the multiline fault — in
both cases the state is returned unchanged at the fault, so the line's
content is not merged into the preceding option. -/
theorem c6_continuation_faults_amended (p : RParams) (ks : List SlotKey)
    (st : RState C) (idx : Nat) (line content : String) (pc : Bool)
    (si : Nat)
    (hcp : checkPossibleContinuation line st.curOpt.isSome p = (content, pc))
    (hempty : isEmptyEntity content p.ignoreWhitespaceLines = false)
    (hsec : extractSectionName content = none)
    (hcom : extractCommentE content p.commentPres = .ok none)
    (hopt : extractOption content p.optionDelims = none)
    (hsi : st.curSec = some si) :
    (st.curOpt = none →
      readStep p ks st idx line = .error (st, .iniStructure idx)) ∧
    (∀ l, st.curOpt = some l → p.mlAllowed = false →
      readStep p ks st idx line = .error (st, .multilineErr idx)) := by
  obtain ⟨sch, curSec, curOpt, curStruct⟩ := st
  simp only at hcp hsi
  subst hsi
  constructor
  · intro hnone
    simp only at hnone
    subst hnone
    have hsecg : (if ¬ pc = true ∨ ¬ MIG.sectionName ∈ p.mlIgnore then
        extractSectionName content else none) = none := by
      split
      · exact hsec
      · rfl
    have hoptg : (if ¬ pc = true ∨ ¬ MIG.optionDelimiter ∈ p.mlIgnore then
        extractOption content p.optionDelims else none) = none := by
      split
      · exact hopt
      · rfl
    have hcomg : (if ¬ pc = true ∨ ¬ MIG.commentPre ∈ p.mlIgnore then
        extractCommentE content p.commentPres
      else Except.ok none) = Except.ok none := by
      split
      · exact hcom
      · rfl
    simp only [readStep, hcp, hempty, Bool.false_eq_true, if_false, hsecg,
      readStepComment, hcomg, readStepOption, hoptg, readStepCont]
  · intro l hsome hml
    simp only at hsome
    subst hsome
    obtain ⟨osi, okey⟩ := l
    simp only [checkPossibleContinuation, hml, Option.isSome_some,
      Bool.false_eq_true, false_and, if_false] at hcp
    obtain ⟨rfl, rfl⟩ := Prod.mk.injEq .. ▸ hcp
    simp only [readStep, checkPossibleContinuation, hml, Option.isSome_some,
      Bool.false_eq_true, false_and, if_false, hempty, hsec, hcom, hopt,
      not_false_eq_true, true_or, if_true, readStepComment, readStepOption,
      readStepCont]

/-- Reader state for the C6 witness with no open option. -/
def exState6a : RState Unit := { sch := exSchemaS, curSec := some 0 }

/-- Reader state for the C6 witness with an open option. -/
def exState6b : RState Unit :=
  { sch := exSchemaS, curSec := some 0, curOpt := some (0, "k") }

/-- Parameters with `multiline_allowed=False` for the C6 witness. -/
def rparamsNoMl : RParams := { mlAllowed := false }

/-- C6 (witness for the amended theorem): the no-extractor entity `"x"`
inside an addressable section raises the structure error without an open
option and the multiline fault with an open option under
`multiline_allowed=False`. -/
theorem c6_continuation_faults_amended_witness :
    readStep defaultRParams [Sum.inl 0] exState6a 0 "x" =
      .error (exState6a, .iniStructure 0) ∧
    readStep rparamsNoMl [Sum.inl 0] exState6b 0 "x" =
      .error (exState6b, .multilineErr 0) :=
  ⟨(c6_continuation_faults_amended defaultRParams [Sum.inl 0] exState6a 0
      "x" "x" false 0 rfl rfl rfl rfl rfl rfl).1 rfl,
    (c6_continuation_faults_amended rparamsNoMl [Sum.inl 0] exState6b 0
      "x" "x" false 0 rfl rfl rfl rfl rfl rfl).2 (0, "k") rfl rfl⟩

/- ------------------------------------------------------------------ -/
/- Frame lemmas for C1 (slot isolation)                                -/
/- ------------------------------------------------------------------ -/

theorem foldlM_ok_induction {σ β : Type} (f : σ → β → Except PyErr σ)
    (P : σ → σ → Prop) (hrefl : ∀ s, P s s)
    (htrans : ∀ a b c, P a b → P b c → P a c) :
    ∀ (l : List β), (∀ s b s', b ∈ l → f s b = .ok s' → P s s') →
    ∀ (s s' : σ), List.foldlM f s l = .ok s' → P s s' := by
  intro l
  induction l with
  | nil =>
      intro _ s s' h
      rw [List.foldlM_nil] at h
      cases h
      exact hrefl _
  | cons b t ih =>
      intro hstep s s' h
      rw [List.foldlM_cons] at h
      cases hf : f s b with
      | error e =>
          rw [hf] at h
          cases h
      | ok s₁ =>
          rw [hf] at h
          simp only [bind, Except.bind] at h
          exact htrans _ _ _ (hstep s b s₁ (List.mem_cons_self b t) hf)
            (ih (fun s b s' hb => hstep s b s' (List.mem_cons_of_mem _ hb))
              s₁ s' h)

theorem slotsLookup_append_single_ne (l : SlotStore α) (k : SlotKey) (v : α)
    (A : SlotKey) (h : A ≠ k) :
    slotsLookup (l ++ [(k, v)]) A = slotsLookup l A := by
  have hk : (k, v).1 = A → False := fun hh => h hh.symm
  induction l with
  | nil =>
      unfold slotsLookup
      rw [List.nil_append, List.find?_cons_of_neg _ (by simpa using hk)]
  | cons hd t ih =>
      obtain ⟨k₀, v₀⟩ := hd
      by_cases hA : k₀ = A
      · unfold slotsLookup
        rw [List.cons_append, List.find?_cons_of_pos _ (by simp [hA]),
          List.find?_cons_of_pos _ (by simp [hA])]
      · unfold slotsLookup
        rw [List.cons_append, List.find?_cons_of_neg _ (by simp [hA]),
          List.find?_cons_of_neg _ (by simp [hA])]
        exact ih

theorem setSlotsV_lookup_ne (A : SlotKey) (ks : List SlotKey) (v : α)
    (cm : Bool) (hA : ∀ k ∈ ks, A ≠ k) (l l' : SlotStore α)
    (h : setSlotsV l ks v cm = .ok l') :
    slotsLookup l' A = slotsLookup l A := by
  refine foldlM_ok_induction _ (fun a b => slotsLookup b A = slotsLookup a A)
    (fun _ => rfl) (fun a b c h1 h2 => h2.trans h1) ks ?_ l l' h
  intro acc k acc' hk hf
  by_cases h1 : (slotsLookup acc k).isSome
  · rw [if_pos h1] at hf
    cases hf
    exact slotsLookup_setItem_ne _ _ _ _ (hA k hk)
  · rw [if_neg h1] at hf
    by_cases h2 : cm
    · rw [if_pos (by simp [h2])] at hf
      cases hf
      exact slotsLookup_setItem_ne _ _ _ _ (hA k hk)
    · rw [if_neg (by simp [h2])] at hf
      cases hf

theorem slotsAdd_lookup_ne (A : SlotKey) (ks : List SlotKey) (deft : α)
    (eo : Bool) (hA : ∀ k ∈ ks, A ≠ k) (l l' : SlotStore α)
    (h : slotsAdd l ks deft eo = .ok l') :
    slotsLookup l' A = slotsLookup l A := by
  refine foldlM_ok_induction _ (fun a b => slotsLookup b A = slotsLookup a A)
    (fun _ => rfl) (fun a b c h1 h2 => h2.trans h1) ks ?_ l l' h
  intro acc k acc' hk hf
  by_cases h1 : (slotsLookup acc k).isSome
  · rw [if_pos h1] at hf
    by_cases h2 : eo
    · rw [if_pos (by simp [h2])] at hf
      cases hf
      rfl
    · rw [if_neg (by simp [h2])] at hf
      cases hf
  · rw [if_neg h1] at hf
    cases hf
    exact slotsLookup_append_single_ne _ _ _ _ (hA k hk)

theorem optionSetSlots_preserve (A : SlotKey) (o : OptionE C)
    (iv cv : PyV C) (cm : Bool) (ks : List SlotKey)
    (hA : ∀ k ∈ ks, A ≠ k) (o' : OptionE C)
    (h : optionSetSlots o iv cv cm ks = .ok o') :
    slotsLookup o'.oslots A = slotsLookup o.oslots A ∧ o'.key = o.key := by
  unfold optionSetSlots at h
  cases hs : setSlotsV o.oslots ks (setOSV o iv cv) cm with
  | error e =>
      rw [hs] at h
      cases h
  | ok l =>
      rw [hs] at h
      cases h
      exact ⟨setSlotsV_lookup_ne A ks _ cm hA _ _ hs, rfl⟩

theorem optionAddCont_preserve (A : SlotKey) (o : OptionE C) (c : String)
    (tc : Option (TypeConv C)) (ks : List SlotKey)
    (hA : ∀ k ∈ ks, A ≠ k) (o' : OptionE C)
    (h : optionAddCont o c tc ks = .ok o') :
    slotsLookup o'.oslots A = slotsLookup o.oslots A ∧ o'.key = o.key := by
  unfold optionAddCont at h
  refine foldlM_ok_induction _
    (fun a b => slotsLookup b.oslots A = slotsLookup a.oslots A ∧
      b.key = a.key)
    (fun _ => ⟨rfl, rfl⟩)
    (fun a b c h1 h2 => by exact ⟨h2.1.trans h1.1, h2.2.trans h1.2⟩)
    ks ?_ o o' h
  intro acc k acc' hk hf
  cases hl : slotsLookup acc.oslots k with
  | none =>
      rw [hl] at hf
      cases hf
  | some osv =>
      rw [hl] at hf
      cases hf
      exact ⟨slotsLookup_setItem_ne _ _ _ _ (hA k hk), rfl⟩

/-- Frame predicate on a section: every option present before is still found
under its key afterwards, with its value at slot `A` unchanged. -/
def SecPreserved (A : SlotKey) (sec sec' : SectionE C) : Prop :=
  ∀ key o, secFindOpt sec key = some o →
    ∃ o', secFindOpt sec' key = some o' ∧
      slotsLookup o'.oslots A = slotsLookup o.oslots A

/-- Frame predicate on a schema: every option of every heap section present
before is still found afterwards, with its value at slot `A` unchanged. -/
def SchPreserved (A : SlotKey) (sch sch' : SchemaE C) : Prop :=
  ∀ si key o,
    (sch.heap.get? si).bind (fun sec => secFindOpt sec key) = some o →
    ∃ o', (sch'.heap.get? si).bind (fun sec => secFindOpt sec key) = some o' ∧
      slotsLookup o'.oslots A = slotsLookup o.oslots A

theorem SecPreserved.reflSec (A : SlotKey) (sec : SectionE C) :
    SecPreserved A sec sec :=
  fun _ o h => ⟨o, h, rfl⟩

theorem SecPreserved.transSec {A : SlotKey} {a b c : SectionE C}
    (h1 : SecPreserved A a b) (h2 : SecPreserved A b c) :
    SecPreserved A a c := by
  intro key o h
  obtain ⟨o₁, h₁, e₁⟩ := h1 key o h
  obtain ⟨o₂, h₂, e₂⟩ := h2 key o₁ h₁
  exact ⟨o₂, h₂, e₂.trans e₁⟩

theorem SchPreserved.reflSch (A : SlotKey) (sch : SchemaE C) :
    SchPreserved A sch sch :=
  fun _ _ o h => ⟨o, h, rfl⟩

theorem SchPreserved.transSch {A : SlotKey} {a b c : SchemaE C}
    (h1 : SchPreserved A a b) (h2 : SchPreserved A b c) :
    SchPreserved A a c := by
  intro si key o h
  obtain ⟨o₁, h₁, e₁⟩ := h1 si key o h
  obtain ⟨o₂, h₂, e₂⟩ := h2 si key o₁ h₁
  exact ⟨o₂, h₂, e₂.trans e₁⟩

theorem SecPreserved.of_opts_eq {A : SlotKey} {sec sec' : SectionE C}
    (h : sec'.opts = sec.opts) : SecPreserved A sec sec' := by
  intro key o hf
  refine ⟨o, ?_, rfl⟩
  unfold secFindOpt at hf ⊢
  rw [h]
  exact hf

theorem secSetStructureItemsOne_opts {sec sec' : SectionE C} {item : SItem}
    {ea : ExistAction} {ks : List SlotKey}
    (h : secSetStructureItemsOne sec item ea ks = .ok sec') :
    sec'.opts = sec.opts ∧ sec'.comments = sec.comments := by
  unfold secSetStructureItemsOne at h
  cases hv : slotAccessVerify sec.sslots ks with
  | error e =>
      rw [hv] at h
      cases h
  | ok u =>
      rw [hv] at h
      simp only [bind, Except.bind] at h
      refine foldlM_ok_induction _
        (fun a b => b.opts = a.opts ∧ b.comments = a.comments)
        (fun _ => ⟨rfl, rfl⟩)
        (fun a b c h1 h2 => by exact ⟨h2.1.trans h1.1, h2.2.trans h1.2⟩)
        ks ?_ sec sec' h
      intro acc k acc' _ hf
      by_cases hmem : item ∈ (slotsLookup acc.sslots k).getD []
      · rw [if_pos hmem] at hf
        cases ea with
        | ignore =>
            cases hf
            exact ⟨rfl, rfl⟩
        | exception => cases hf
      · rw [if_neg hmem] at hf
        cases hf
        exact ⟨rfl, rfl⟩

theorem secAddSlots_opts {sec sec' : SectionE C} {ks : List SlotKey}
    {eo : Bool} (h : secAddSlots sec ks eo = .ok sec') :
    sec'.opts = sec.opts := by
  unfold secAddSlots at h
  cases hs : slotsAdd sec.sslots ks [] eo with
  | error e =>
      rw [hs] at h
      cases h
  | ok l =>
      rw [hs] at h
      cases h
      rfl

theorem secSetStructure_opts {sec sec' : SectionE C} {newS : List SItem}
    {cm : Bool} {ks : List SlotKey}
    (h : secSetStructure sec newS cm ks = .ok sec') :
    sec'.opts = sec.opts := by
  unfold secSetStructure at h
  by_cases hown : newS.all (fun it => match it with
      | .opt k => (secFindOpt sec k).isSome
      | .cmt i => (sec.comments.lookup i).isSome)
  · rw [if_pos hown] at h
    cases hs : setSlotsV sec.sslots ks newS cm with
    | error e =>
        rw [hs] at h
        cases h
    | ok l =>
        rw [hs] at h
        cases h
        rfl
  · rw [if_neg hown] at h
    cases h

theorem secAddComment_opts {sec sec' : SectionE C} {content : String}
    {ks : List SlotKey} {cid : Nat}
    (h : secAddComment sec content ks = .ok (sec', cid)) :
    sec'.opts = sec.opts := by
  unfold secAddComment at h
  simp only [bind, Except.bind] at h
  cases hs : secSetStructureItemsOne
      { sec with comments := sec.comments ++
          [(match sec.comments.getLast? with
            | some (i, _) => i + 1
            | none => 0, content)] }
      (.cmt (match sec.comments.getLast? with
        | some (i, _) => i + 1
        | none => 0)) .exception ks with
  | error e =>
      rw [hs] at h
      cases h
  | ok s₂ =>
      rw [hs] at h
      cases h
      exact (secSetStructureItemsOne_opts hs).1

theorem find?_map_replace_self (l : List (OptionE C)) (okey : String)
    (o₀ o' : OptionE C) (hk : o'.key = okey)
    (h : l.find? (fun o => o.key = okey) = some o₀) :
    (l.map (fun o => if o.key = okey then o' else o)).find?
      (fun o => o.key = okey) = some o' := by
  induction l with
  | nil => cases h
  | cons hd t ih =>
      by_cases hh : hd.key = okey
      · simp only [List.map_cons, if_pos hh]
        rw [List.find?_cons_of_pos _ (by simp [hk])]
      · simp only [List.map_cons, if_neg hh]
        rw [List.find?_cons_of_neg _ (by simp [hh])]
        rw [List.find?_cons_of_neg _ (by simp [hh])] at h
        exact ih h

theorem find?_map_replace_ne (l : List (OptionE C)) (okey key2 : String)
    (o' : OptionE C) (hk : o'.key = okey) (hne : key2 ≠ okey) :
    (l.map (fun o => if o.key = okey then o' else o)).find?
      (fun o => o.key = key2) = l.find? (fun o => o.key = key2) := by
  induction l with
  | nil => rfl
  | cons hd t ih =>
      by_cases hh : hd.key = okey
      · have hok : ¬ okey = key2 := fun hx => hne hx.symm
        simp only [List.map_cons, if_pos hh]
        rw [List.find?_cons_of_neg _ (by simp [hk, hok]),
          List.find?_cons_of_neg _ (by simp [hh, hok])]
        exact ih
      · simp only [List.map_cons, if_neg hh]
        by_cases hh2 : hd.key = key2
        · rw [List.find?_cons_of_pos _ (by simp [hh2]),
            List.find?_cons_of_pos _ (by simp [hh2])]
        · rw [List.find?_cons_of_neg _ (by simp [hh2]),
            List.find?_cons_of_neg _ (by simp [hh2])]
          exact ih

theorem secFindOpt_key {sec : SectionE C} {key : String} {o : OptionE C}
    (h : secFindOpt sec key = some o) : o.key = key := by
  have := List.find?_some h
  simpa using this

theorem secReplaceOpt_preserved {A : SlotKey} {sec : SectionE C}
    {okey : String} {o o' : OptionE C}
    (hfind : secFindOpt sec okey = some o) (hk : o'.key = okey)
    (hval : slotsLookup o'.oslots A = slotsLookup o.oslots A) :
    SecPreserved A sec (secReplaceOpt sec okey o') := by
  intro key2 o2 hf2
  by_cases hkey : key2 = okey
  · subst hkey
    rw [hfind] at hf2
    cases hf2
    refine ⟨o', ?_, hval⟩
    unfold secFindOpt at hfind
    unfold secFindOpt secReplaceOpt
    exact find?_map_replace_self _ _ _ _ hk hfind
  · refine ⟨o2, ?_, rfl⟩
    unfold secFindOpt at hf2
    unfold secFindOpt secReplaceOpt
    rw [find?_map_replace_ne _ _ _ _ hk hkey]
    exact hf2

theorem handleOption_preserved {A : SlotKey} {sec sec' : SectionE C}
    {p : RParams} {key : String} {rawVal : Option String}
    {ks : List SlotKey} {r : Option String}
    (hA : ∀ k ∈ ks, A ≠ k)
    (hRU : p.readUndefined = .no ∨ p.readUndefined = .sectionOnly)
    (h : handleOption sec p key rawVal ks = .ok (sec', r)) :
    SecPreserved A sec sec' := by
  unfold handleOption at h
  cases hfind : secFindOpt sec key with
  | some o =>
      rw [hfind] at h
      simp only [bind, Except.bind] at h
      cases hiloc : ilocGetInt (extractedOption key rawVal ks
          (C := C)).oslots (-1) with
      | error e =>
          rw [hiloc] at h
          cases h
      | ok kv =>
          rw [hiloc] at h
          dsimp only at h
          cases hset : optionSetSlots o kv.2.input kv.2.converted true ks with
          | error e =>
              rw [hset] at h
              cases h
          | ok o' =>
              rw [hset] at h
              dsimp only at h
              cases hstr : secSetStructureItemsOne
                  (secReplaceOpt sec key o') (.opt key) .ignore ks with
              | error e =>
                  rw [hstr] at h
                  cases h
              | ok s₂ =>
                  rw [hstr] at h
                  cases h
                  have hpres := optionSetSlots_preserve A o _ _ true ks hA
                    o' hset
                  have hkey : o'.key = key :=
                    hpres.2.trans (secFindOpt_key hfind)
                  exact (secReplaceOpt_preserved hfind hkey
                    hpres.1).transSec
                    (SecPreserved.of_opts_eq
                      (secSetStructureItemsOne_opts hstr).1)
  | none =>
      rw [hfind] at h
      cases hru : p.readUndefined with
      | all => rw [hru] at hRU; rcases hRU with hc | hc <;> cases hc
      | optionOnly => rw [hru] at hRU; rcases hRU with hc | hc <;> cases hc
      | no =>
          rw [hru] at h
          dsimp only at h
          cases h
          exact SecPreserved.reflSec A sec
      | sectionOnly =>
          rw [hru] at h
          dsimp only at h
          cases h
          exact SecPreserved.reflSec A sec

theorem heapGet_lt {sch : SchemaE C} {si : Nat} {sec : SectionE C}
    (h : sch.heap.get? si = some sec) : si < sch.heap.length := by
  by_contra hc
  rw [List.get?_eq_none.2 (by omega)] at h
  cases h

theorem SchPreserved.of_heap_append {A : SlotKey} {sch sch' : SchemaE C}
    {s : SectionE C} (hh : sch'.heap = sch.heap ++ [s]) :
    SchPreserved A sch sch' := by
  intro si key o h
  cases hg : sch.heap.get? si with
  | none =>
      rw [hg] at h
      cases h
  | some sec =>
      rw [hg] at h
      refine ⟨o, ?_, rfl⟩
      rw [hh, List.get?_append (heapGet_lt hg), hg]
      exact h

theorem SchPreserved.of_heap_eq {A : SlotKey} {sch sch' : SchemaE C}
    (h : sch'.heap = sch.heap) : SchPreserved A sch sch' := by
  intro si key o hh
  refine ⟨o, ?_, rfl⟩
  rw [h]
  exact hh

theorem heapSet_preserved {A : SlotKey} {sch : SchemaE C} {i : Nat}
    {sec sec' : SectionE C} (hg : sch.heap.get? i = some sec)
    (hp : SecPreserved A sec sec') :
    SchPreserved A sch (heapSet sch i sec') := by
  intro si key o h
  by_cases hsi : si = i
  · subst hsi
    rw [hg] at h
    obtain ⟨o', ho', hv⟩ := hp key o h
    refine ⟨o', ?_, hv⟩
    show ((sch.heap.set si sec').get? si).bind _ = _
    rw [List.get?_set_eq_of_lt _ (heapGet_lt hg)]
    exact ho'
  · refine ⟨o, ?_, rfl⟩
    show ((sch.heap.set i sec').get? si).bind _ = _
    rw [List.get?_set_ne _ _ (fun hx => hsi hx.symm)]
    exact h

theorem heapModify_preserved {A : SlotKey} {sch sch' : SchemaE C} {i : Nat}
    {f : SectionE C → Except PyErr (SectionE C)}
    (hf : ∀ sec sec', sch.heap.get? i = some sec → f sec = .ok sec' →
      SecPreserved A sec sec')
    (h : heapModify sch i f = .ok sch') : SchPreserved A sch sch' := by
  unfold heapModify at h
  cases hg : sch.heap.get? i with
  | none =>
      rw [hg] at h
      cases h
  | some sec =>
      rw [hg] at h
      dsimp only at h
      cases hr : f sec with
      | error e =>
          rw [hr] at h
          cases h
      | ok sec' =>
          rw [hr] at h
          cases h
          exact heapSet_preserved hg (hf sec sec' hg hr)

theorem schSetattrSection_heap (sch : SchemaE C) (var : String)
    (sec : SectionE C) :
    (schSetattrSection sch var sec).1.heap = sch.heap ++ [sec] := rfl

theorem schSetattrSection_preserved {A : SlotKey} (sch : SchemaE C)
    (var : String) (sec : SectionE C) :
    SchPreserved A sch (schSetattrSection sch var sec).1 :=
  SchPreserved.of_heap_append (schSetattrSection_heap sch var sec)

theorem schSetStructureItemsSec_preserved {A : SlotKey}
    {sch sch' : SchemaE C} {idx : Nat} {ks : List SlotKey}
    (h : schSetStructureItemsSec sch idx ks = .ok sch') :
    SchPreserved A sch sch' := by
  unfold schSetStructureItemsSec at h
  cases hv : slotAccessVerify sch.slots ks with
  | error e =>
      rw [hv] at h
      cases h
  | ok u =>
      rw [hv] at h
      dsimp only [bind, Except.bind] at h
      cases h
      exact SchPreserved.of_heap_eq rfl

theorem getUnnamedSection_preserved {A : SlotKey} (sch : SchemaE C)
    (p : RParams) : SchPreserved A sch (getUnnamedSection sch p).1 := by
  unfold getUnnamedSection
  cases hg : schGetSectionIdx sch none with
  | some pr => exact SchPreserved.reflSch A sch
  | none =>
      by_cases hru : p.readUndefined = .all ∨ p.readUndefined = .sectionOnly
      · rw [if_pos hru]
        exact schSetattrSection_preserved sch _ _
      · rw [if_neg hru]
        exact SchPreserved.reflSch A sch

theorem handleSectionName_preserved {A : SlotKey} {sch sch' : SchemaE C}
    {nm : String} {p : RParams} {ks : List SlotKey} {r : Option Nat}
    (h : handleSectionName sch nm p ks = .ok (sch', r)) :
    SchPreserved A sch sch' := by
  unfold handleSectionName at h
  simp only [bind, Except.bind] at h
  cases hg : schGetSectionIdx sch (some nm) with
  | some pr =>
      rw [hg] at h
      dsimp only at h
      cases h1 : schSetStructureItemsSec sch pr.2 ks with
      | error e =>
          rw [h1] at h
          cases h
      | ok sch₁ =>
          rw [h1] at h
          dsimp only at h
          cases h2 : heapModify sch₁ pr.2 fun s => secAddSlots s ks true with
          | error e =>
              rw [h2] at h
              cases h
          | ok sch₂ =>
              rw [h2] at h
              cases h
              refine (schSetStructureItemsSec_preserved h1).transSch
                (heapModify_preserved ?_ h2)
              intro sec sec' _ hadd
              exact SecPreserved.of_opts_eq (secAddSlots_opts hadd)
  | none =>
      rw [hg] at h
      by_cases hru : p.readUndefined = .all ∨ p.readUndefined = .sectionOnly
      · rw [if_pos hru] at h
        dsimp only at h
        cases h1 : schSetStructureItemsSec
            (schSetattrSection sch (strToVar nm)
              { name := some nm, undef := true }).1
            (schSetattrSection sch (strToVar nm)
              { name := some nm, undef := true }).2 ks with
        | error e =>
            rw [h1] at h
            cases h
        | ok sch₁ =>
            rw [h1] at h
            dsimp only at h
            cases h2 : heapModify sch₁
                (schSetattrSection sch (strToVar nm)
                  { name := some nm, undef := true }).2
                fun s => secAddSlots s ks true with
            | error e =>
                rw [h2] at h
                cases h
            | ok sch₂ =>
                rw [h2] at h
                cases h
                refine ((schSetattrSection_preserved sch (strToVar nm)
                    { name := some nm, undef := true }).transSch
                  (schSetStructureItemsSec_preserved h1)).transSch
                  (heapModify_preserved ?_ h2)
                intro sec sec' _ hadd
                exact SecPreserved.of_opts_eq (secAddSlots_opts hadd)
      · rw [if_neg hru] at h
        dsimp only at h
        cases h
        exact SchPreserved.reflSch A sch

/-- The schema component of a reader-step result (both for a normal result
and for a fault, which carries the state at the fault). -/
def resSch : Except (RState C × PyErr) (RState C) → SchemaE C
  | .ok st' => st'.sch
  | .error pr => pr.1.sch

theorem liftE_sch {st : RState C} (e : Except PyErr α) :
    ∀ pr, liftE st e = .error pr → pr.1 = st := by
  intro pr h
  cases e with
  | ok a => cases h
  | error er =>
      unfold liftE at h
      cases h
      rfl

theorem readStepCont_preserved {A : SlotKey} (p : RParams)
    (ks : List SlotKey) (hA : ∀ k ∈ ks, A ≠ k) (st : RState C) (idx : Nat)
    (content : String) (pc : Bool) :
    SchPreserved A st.sch (resSch (readStepCont p ks st idx content pc)) := by
  unfold readStepCont
  cases hco : st.curOpt with
  | none => exact SchPreserved.reflSch A st.sch
  | some l =>
      obtain ⟨osi, okey⟩ := l
      dsimp only
      by_cases hml : ¬ p.mlAllowed
      · rw [if_pos hml]
        exact SchPreserved.reflSch A st.sch
      · rw [if_neg hml]
        by_cases hpc : ¬ pc
        · rw [if_pos hpc]
          exact SchPreserved.reflSch A st.sch
        · rw [if_neg hpc]
          cases hsg : st.sch.heap.get? osi with
          | none => exact SchPreserved.reflSch A st.sch
          | some sec =>
              dsimp only
              cases hfo : secFindOpt sec okey with
              | none => exact SchPreserved.reflSch A st.sch
              | some o =>
                  dsimp only
                  cases hadd : optionAddCont o content none ks with
                  | error e => exact SchPreserved.reflSch A st.sch
                  | ok o' =>
                      simp only [resSch]
                      have hpres := optionAddCont_preserve A o content none
                        ks hA o' hadd
                      exact heapSet_preserved hsg
                        (secReplaceOpt_preserved hfo
                          (hpres.2.trans (secFindOpt_key hfo)) hpres.1)

theorem readStepOption_preserved {A : SlotKey} (p : RParams)
    (ks : List SlotKey) (hA : ∀ k ∈ ks, A ≠ k)
    (hRU : p.readUndefined = .no ∨ p.readUndefined = .sectionOnly)
    (st : RState C) (idx : Nat)
    (content : String) (pc : Bool) (si : Nat) :
    SchPreserved A st.sch
      (resSch (readStepOption p ks st idx content pc si)) := by
  unfold readStepOption
  cases hor : (if ¬ pc ∨ ¬ MIG.optionDelimiter ∈ p.mlIgnore then
      extractOption content p.optionDelims
    else none) with
  | none =>
      dsimp only
      exact readStepCont_preserved p ks hA st idx content pc
  | some kv =>
      obtain ⟨k, v⟩ := kv
      dsimp only
      cases hsg : st.sch.heap.get? si with
      | none => exact SchPreserved.reflSch A st.sch
      | some sec =>
          dsimp only
          cases hho : handleOption sec p k v ks with
          | error e => exact SchPreserved.reflSch A st.sch
          | ok pr =>
              obtain ⟨sec', r⟩ := pr
              cases r with
              | some key =>
                  simp only [resSch]
                  exact heapSet_preserved hsg (handleOption_preserved hA hRU hho)
              | none =>
                  dsimp only
                  exact readStepCont_preserved p ks hA st idx content pc

theorem readStepComment_preserved {A : SlotKey} (p : RParams)
    (ks : List SlotKey) (hA : ∀ k ∈ ks, A ≠ k)
    (hRU : p.readUndefined = .no ∨ p.readUndefined = .sectionOnly)
    (st : RState C) (idx : Nat)
    (content : String) (pc : Bool) (si : Nat) :
    SchPreserved A st.sch
      (resSch (readStepComment p ks st idx content pc si)) := by
  unfold readStepComment
  cases hce : (if ¬ pc ∨ ¬ MIG.commentPre ∈ p.mlIgnore then
      extractCommentE content p.commentPres
    else .ok none) with
  | error e => exact SchPreserved.reflSch A st.sch
  | ok cRes =>
      cases cRes with
      | none =>
          dsimp only
          exact readStepOption_preserved p ks hA hRU st idx content pc si
      | some cnt =>
          dsimp only
          cases hsg : st.sch.heap.get? si with
          | none => exact SchPreserved.reflSch A st.sch
          | some sec =>
              dsimp only
              cases hac : secAddComment sec cnt ks with
              | error e => exact SchPreserved.reflSch A st.sch
              | ok pr =>
                  obtain ⟨sec', cid⟩ := pr
                  simp only [resSch]
                  exact heapSet_preserved hsg
                    (SecPreserved.of_opts_eq (secAddComment_opts hac))

theorem readStepSectionGo_preserved {A : SlotKey} (p : RParams)
    (ks : List SlotKey) (st₁ : RState C) (nm : String) :
    SchPreserved A st₁.sch (resSch (readStepSectionGo p ks st₁ nm)) := by
  unfold readStepSectionGo
  cases hh : handleSectionName st₁.sch nm p ks with
  | error e =>
      simp only [resSch]
      exact SchPreserved.reflSch A st₁.sch
  | ok pr =>
      obtain ⟨sch', iopt⟩ := pr
      simp only [resSch]
      exact handleSectionName_preserved hh

theorem readStepSection_preserved {A : SlotKey} (p : RParams)
    (ks : List SlotKey) (st : RState C) (nm : String) :
    SchPreserved A st.sch (resSch (readStepSection p ks st nm)) := by
  unfold readStepSection
  cases hcs : st.curSec with
  | none => exact readStepSectionGo_preserved p ks st nm
  | some i =>
      dsimp only
      by_cases hne : st.curStruct ≠ []
      · rw [if_pos (by simp [hne])]
        cases hflush : heapModify st.sch i
            (fun sec => secSetStructure sec st.curStruct true ks) with
        | error e =>
            simp only [resSch]
            exact SchPreserved.reflSch A st.sch
        | ok sch' =>
            dsimp only
            have hp1 : SchPreserved A st.sch sch' := by
              refine heapModify_preserved ?_ hflush
              intro sec sec' _ hset
              exact SecPreserved.of_opts_eq (secSetStructure_opts hset)
            exact hp1.transSch
              (readStepSectionGo_preserved p ks
                ⟨sch', some i, st.curOpt, []⟩ nm)
      · rw [if_neg (by simpa using hne)]
        exact readStepSectionGo_preserved p ks st nm

theorem readStep_preserved {A : SlotKey} (p : RParams) (ks : List SlotKey)
    (hA : ∀ k ∈ ks, A ≠ k)
    (hRU : p.readUndefined = .no ∨ p.readUndefined = .sectionOnly)
    (st : RState C) (idx : Nat) (line : String) :
    SchPreserved A st.sch (resSch (readStep p ks st idx line)) := by
  unfold readStep
  rcases hcp : checkPossibleContinuation line st.curOpt.isSome p with
    ⟨content, pc⟩
  dsimp only
  by_cases he : isEmptyEntity content p.ignoreWhitespaceLines
  · rw [if_pos (by simp [he])]
    exact SchPreserved.reflSch A st.sch
  · rw [if_neg (by simp [he])]
    cases hsec : (if ¬ pc ∨ ¬ MIG.sectionName ∈ p.mlIgnore then
        extractSectionName content else none) with
    | some nm =>
        dsimp only
        exact readStepSection_preserved p ks st nm
    | none =>
        dsimp only
        cases hcs : st.curSec with
        | none =>
            dsimp only [resSch]
            exact SchPreserved.reflSch A st.sch
        | some si =>
            dsimp only
            exact readStepComment_preserved p ks hA hRU st idx content pc si

theorem readLinesStep_preserved {A : SlotKey} (p : RParams)
    (ks : List SlotKey) (hA : ∀ k ∈ ks, A ≠ k)
    (hRU : p.readUndefined = .no ∨ p.readUndefined = .sectionOnly)
    (acc : RState C × Option PyErr) (il : Nat × String) :
    SchPreserved A acc.1.sch (readLinesStep p ks acc il).1.sch := by
  unfold readLinesStep
  obtain ⟨st, err⟩ := acc
  cases err with
  | some e => exact SchPreserved.reflSch A st.sch
  | none =>
      dsimp only
      cases hr : readStep p ks st il.1 il.2 with
      | ok st' =>
          have := readStep_preserved p ks hA hRU st il.1 il.2
          rw [hr] at this
          exact this
      | error pr =>
          obtain ⟨st', e⟩ := pr
          have := readStep_preserved p ks hA hRU st il.1 il.2
          rw [hr] at this
          exact this

theorem foldl_readLinesStep_preserved {A : SlotKey} (p : RParams)
    (ks : List SlotKey) (hA : ∀ k ∈ ks, A ≠ k)
    (hRU : p.readUndefined = .no ∨ p.readUndefined = .sectionOnly)
    (l : List (Nat × String)) :
    ∀ acc : RState C × Option PyErr,
      SchPreserved A acc.1.sch (l.foldl (readLinesStep p ks) acc).1.sch := by
  induction l with
  | nil => intro acc; exact SchPreserved.reflSch A acc.1.sch
  | cons il t ih =>
      intro acc
      exact (readLinesStep_preserved p ks hA hRU acc il).transSch
        (ih (readLinesStep p ks acc il))

theorem readLines_preserved {A : SlotKey} (p : RParams) (ks : List SlotKey)
    (hA : ∀ k ∈ ks, A ≠ k)
    (hRU : p.readUndefined = .no ∨ p.readUndefined = .sectionOnly)
    (st₀ : RState C) (lines : List String) :
    SchPreserved A st₀.sch (readLines p ks st₀ lines).1.sch := by
  unfold readLines
  exact foldl_readLinesStep_preserved p ks hA hRU lines.enum (st₀, none)

theorem readIni_preserved {A : SlotKey} (p : RParams) (ks : List SlotKey)
    (hA : ∀ k ∈ ks, A ≠ k)
    (hRU : p.readUndefined = .no ∨ p.readUndefined = .sectionOnly)
    (sch₀ : SchemaE C) (text : String) :
    SchPreserved A sch₀ (readIni p sch₀ (some ks) text).1 := by
  unfold readIni
  cases hv : slotAccessVerify sch₀.slots ks with
  | error e =>
      simp only [Except.map]
      rw [hv]
      exact SchPreserved.reflSch A sch₀
  | ok u =>
      simp only [Except.map]
      rw [hv]
      dsimp only
      rcases hgu : getUnnamedSection sch₀ p with ⟨sch₂, uIdx⟩
      dsimp only
      have h1 : SchPreserved A sch₀ sch₂ := by
        have hx : SchPreserved A sch₀ (getUnnamedSection sch₀ p).1 :=
          getUnnamedSection_preserved sch₀ p
        rw [hgu] at hx
        exact hx
      rcases hrl : readLines p ks ⟨sch₂, uIdx, none, []⟩ (splitNl text) with
        ⟨stF, err⟩
      dsimp only
      have h2 : SchPreserved A sch₂ stF.sch := by
        have hx : SchPreserved A sch₂
            (readLines p ks (⟨sch₂, uIdx, none, []⟩ : RState C)
              (splitNl text)).1.sch :=
          readLines_preserved p ks hA hRU ⟨sch₂, uIdx, none, []⟩ (splitNl text)
        rw [hrl] at hx
        exact hx
      cases err with
      | some e => exact h1.transSch h2
      | none =>
          dsimp only
          rcases hgf : getUnnamedSection stF.sch p with ⟨schF, uIdx2⟩
          dsimp only
          have h3 : SchPreserved A stF.sch schF := by
            have hx : SchPreserved A stF.sch
                (getUnnamedSection stF.sch p).1 :=
              getUnnamedSection_preserved stF.sch p
            rw [hgf] at hx
            exact hx
          exact (h1.transSch h2).transSch h3

/-- C1.  Slot isolation holds in the amended form: for every read whose
parameters do not admit undefined options (`read_undefined` in
`{False, "section"}`), reading a document into slot `B` never mutates any
value previously set in a different slot `A` — every option reachable on
the schema before the read (section heap index `si`, option key `key`) is
still reachable afterwards, and its slot store returns the same value for
slot `A` before and after the read into `B`.  (The unrestricted claim is
refuted by `c1_slot_isolation_counterexample`: when undefined options may
be added, `Section._add_entity` binds the new option via `setattr` under
`_str_to_var(key)`, which replaces an existing option bound under the same
attribute variable name and discards its slot-`A` value.) -/
theorem c1_slot_isolation_amended (p : RParams) (sch : SchemaE C)
    (A B : SlotKey) (hAB : A ≠ B)
    (hRU : p.readUndefined = .no ∨ p.readUndefined = .sectionOnly)
    (text : String) (si : Nat) (key : String) (o : OptionE C)
    (ho : (sch.heap.get? si).bind (fun sec => secFindOpt sec key) =
      some o) :
    ∃ o',
      ((readIni p sch (some [B]) text).1.heap.get? si).bind
        (fun sec => secFindOpt sec key) = some o' ∧
      slotsLookup o'.oslots A = slotsLookup o.oslots A := by
  have hA : ∀ k ∈ [B], A ≠ k := by
    intro k hk
    rw [List.mem_singleton] at hk
    subst hk
    exact hAB
  exact readIni_preserved p [B] hA hRU sch text si key o ho

/-- The option of the C1 witness schema before the read. -/
def exOpt1 : OptionE Unit :=
  { key := "k",
    oslots := [((.inl 0 : SlotKey), ⟨.str "x", .str "x"⟩),
      ((.inl 1 : SlotKey), ⟨.pynone, .pynone⟩)] }

/-- Schema for the C1 witness: section `s` with option `k` holding the value
`"x"` in slot `0`; slots `0` and `1` both exist on every level. -/
def exSchema1 : SchemaE Unit :=
  { slots := [(.inl 0, [0]), (.inl 1, [0])],
    heap := [{ name := some "s",
               schemaStructure := [.opt "k"],
               sslots := [(.inl 0, [SItem.opt "k"]), (.inl 1, [])],
               opts := [exOpt1] }],
    attrs := [("s", 0)] }

/-- C1 (witness): reading `"[s]\nk = y"` into slot `1` of `exSchema1` with
the default parameters (`read_undefined=False`) leaves option `k`'s value
in slot `0` unchanged. -/
theorem c1_slot_isolation_amended_witness :
    ∃ o',
      ((readIni defaultRParams exSchema1 (some [Sum.inl 1])
            "[s]\nk = y").1.heap.get? 0).bind
        (fun sec => secFindOpt sec "k") = some o' ∧
      slotsLookup o'.oslots (Sum.inl 0) =
        slotsLookup exOpt1.oslots (Sum.inl 0) :=
  c1_slot_isolation_amended defaultRParams exSchema1 (Sum.inl 0) (Sum.inl 1)
    (by decide) (Or.inl rfl) "[s]\nk = y" 0 "k" exOpt1 rfl

/-- The displaced option of the C1 counterexample: key `a.b`, bound as the
section attribute `a_b` (its schema class variable name), populated with
`"x"` in slot `0`. -/
def exOpt1c : OptionE Unit :=
  { key := "a.b", var := "a_b",
    oslots := [((.inl 0 : SlotKey), ⟨.str "x", .str "x"⟩),
      ((.inl 1 : SlotKey), ⟨.pynone, .pynone⟩)] }

/-- Schema for the C1 counterexample: section `s` holding `exOpt1c`. -/
def exSchema1c : SchemaE Unit :=
  { slots := [(.inl 0, [0]), (.inl 1, [0])],
    heap := [{ name := some "s",
               schemaStructure := [.opt "a.b"],
               sslots := [(.inl 0, [SItem.opt "a.b"]), (.inl 1, [])],
               opts := [exOpt1c] }],
    attrs := [("s", 0)] }

/-- Default parameters with `read_undefined=True`. -/
def ruAllParams : RParams := { readUndefined := .all }

/-- C1 counterexample to the claim as stated: on `exSchema1c` (option key
`a.b` bound as attribute `a_b`, value `"x"` in slot `0`), reading
`"[s]\na-b = 2"` into slot `1` with `read_undefined=True` completes without
error, yet afterwards no option with key `a.b` is reachable — the new
undefined option's key `a-b` maps to the same attribute variable `a_b`
(`_str_to_var` replaces every non-word character by `_`), so `setattr`
replaces the old option and its slot-`0` value `"x"` is gone. -/
theorem c1_slot_isolation_counterexample :
    (exSchema1c.heap.get? 0).bind (fun sec => secFindOpt sec "a.b") =
      some exOpt1c ∧
    slotsLookup exOpt1c.oslots (Sum.inl 0) =
      some ⟨.str "x", .str "x"⟩ ∧
    (readIni ruAllParams exSchema1c (some [Sum.inl 1]) "[s]\na-b = 2").2 =
      none ∧
    ((readIni ruAllParams exSchema1c (some [Sum.inl 1])
          "[s]\na-b = 2").1.heap.get? 0).bind
      (fun sec => secFindOpt sec "a.b") = none :=
  ⟨rfl, rfl, rfl, rfl⟩

/- ------------------------------------------------------------------ -/
/- Round-trip (C3): string scaffolding                                 -/
/- ------------------------------------------------------------------ -/

/-- Join a list of lines with single newlines. -/
def joinNl : List String → String
  | [] => ""
  | [l] => l
  | l :: rest => l ++ "\n" ++ joinNl rest

theorem joinNl_cons (l : String) (L : List String) (h : L ≠ []) :
    joinNl (l :: L) = l ++ "\n" ++ joinNl L := by
  cases L with
  | nil => exact absurd rfl h
  | cons x t => rfl

theorem joinNl_append (L₁ L₂ : List String) (h₁ : L₁ ≠ []) (h₂ : L₂ ≠ []) :
    joinNl (L₁ ++ L₂) = joinNl L₁ ++ "\n" ++ joinNl L₂ := by
  induction L₁ with
  | nil => exact absurd rfl h₁
  | cons x t ih =>
      cases t with
      | nil =>
          rw [List.singleton_append, joinNl_cons x L₂ h₂]
          rfl
      | cons y u =>
          rw [List.cons_append,
            joinNl_cons x ((y :: u) ++ L₂) (by simp),
            joinNl_cons x (y :: u) (by simp),
            ih (by simp)]
          simp [String.append_assoc]

theorem dropRight_two_newlines (t : String) :
    (t ++ "\n\n").dropRight 2 = t := by
  obtain ⟨l⟩ := t
  have hdata : (String.mk l ++ "\n\n") = ⟨l ++ ['\n', '\n']⟩ := rfl
  rw [hdata]
  show (Substring.dropRight
    ⟨⟨l ++ ['\n', '\n']⟩, 0, String.endPos ⟨l ++ ['\n', '\n']⟩⟩ 2).toString =
    ⟨l⟩
  have hnl : Char.utf8Size '\n' = 1 := rfl
  have hbsize : (Substring.mk ⟨l ++ ['\n', '\n']⟩ 0
      (String.endPos ⟨l ++ ['\n', '\n']⟩)).bsize = String.utf8Len l + 2 := by
    simp [Substring.bsize, String.endPos_eq, hnl]
  rw [Substring.dropRight]
  rw [hbsize]
  have hp1 : Substring.prev
      ⟨⟨l ++ ['\n', '\n']⟩, 0, String.endPos ⟨l ++ ['\n', '\n']⟩⟩
      ⟨String.utf8Len l + 2⟩ = ⟨String.utf8Len l + 1⟩ := by
    rw [Substring.prev]
    rw [if_neg (by simp [String.Pos.ext_iff])]
    have hassoc : (⟨l ++ ['\n', '\n']⟩ : String) =
        ⟨(l ++ ['\n']) ++ '\n' :: []⟩ := by simp
    have h2 : (0 : String.Pos) + (⟨String.utf8Len l + 2⟩ : String.Pos) =
        ⟨String.utf8Len (l ++ ['\n']) + Char.utf8Size '\n'⟩ := by
      simp [String.Pos.ext_iff, hnl]
    rw [hassoc, h2, String.prev_of_valid]
    simp [String.Pos.ext_iff, hnl]
  have hp2 : Substring.prev
      ⟨⟨l ++ ['\n', '\n']⟩, 0, String.endPos ⟨l ++ ['\n', '\n']⟩⟩
      ⟨String.utf8Len l + 1⟩ = ⟨String.utf8Len l⟩ := by
    rw [Substring.prev]
    rw [if_neg (by simp [String.Pos.ext_iff])]
    have h2 : (0 : String.Pos) + (⟨String.utf8Len l + 1⟩ : String.Pos) =
        ⟨String.utf8Len l + Char.utf8Size '\n'⟩ := by
      simp [String.Pos.ext_iff, hnl]
    rw [h2]
    rw [show (⟨l ++ ['\n', '\n']⟩ : String) = ⟨l ++ '\n' :: ['\n']⟩ from rfl]
    rw [String.prev_of_valid]
    simp [String.Pos.ext_iff]
  have hprevn : Substring.prevn
      ⟨⟨l ++ ['\n', '\n']⟩, 0, String.endPos ⟨l ++ ['\n', '\n']⟩⟩ 2
      ⟨String.utf8Len l + 2⟩ = ⟨String.utf8Len l⟩ := by
    show Substring.prevn _ (1 + 1) _ = _
    rw [Substring.prevn, hp1, Substring.prevn, hp2, Substring.prevn]
  rw [hprevn]
  show String.extract ⟨l ++ ['\n', '\n']⟩ 0 (0 + ⟨String.utf8Len l⟩) = ⟨l⟩
  have hz : (0 : String.Pos) + (⟨String.utf8Len l⟩ : String.Pos) =
      ⟨String.utf8Len ([] : List Char) + String.utf8Len l⟩ := by
    simp [String.Pos.ext_iff]
  rw [hz]
  rw [show (⟨l ++ ['\n', '\n']⟩ : String) = ⟨[] ++ l ++ ['\n', '\n']⟩
    from rfl]
  rw [show (0 : String.Pos) = (⟨String.utf8Len ([] : List Char)⟩ : String.Pos)
    from rfl]
  exact String.extract_of_valid [] l ['\n', '\n']

theorem splitNlL_no_nl (l : List Char) (h : '\n' ∉ l) :
    splitNlL l = [l] := by
  induction l with
  | nil => rfl
  | cons c t ih =>
      rw [splitNlL]
      rw [if_neg (by intro hc; exact h (hc ▸ List.mem_cons_self c t))]
      rw [ih (fun hm => h (List.mem_cons_of_mem c hm))]

theorem splitNlL_append_nl (l : List Char) (h : '\n' ∉ l)
    (rest : List Char) :
    splitNlL (l ++ '\n' :: rest) = l :: splitNlL rest := by
  induction l with
  | nil => simp [splitNlL]
  | cons c t ih =>
      rw [List.cons_append, splitNlL]
      rw [if_neg (by intro hc; exact h (hc ▸ List.mem_cons_self c t))]
      rw [ih (fun hm => h (List.mem_cons_of_mem c hm))]

theorem splitNl_joinNl (L : List String) (hn : ∀ s ∈ L, '\n' ∉ s.data)
    (hne : L ≠ []) : splitNl (joinNl L) = L := by
  induction L with
  | nil => exact absurd rfl hne
  | cons l t ih =>
      cases t with
      | nil =>
          show (splitNlL l.data).map (fun c => String.mk c) = [l]
          rw [splitNlL_no_nl l.data (hn l (List.mem_cons_self l []))]
          rfl
      | cons y u =>
          rw [joinNl_cons l (y :: u) (by simp)]
          show (splitNlL (l ++ "\n" ++ joinNl (y :: u)).data).map
            (fun c => String.mk c) = l :: y :: u
          have hdata : (l ++ "\n" ++ joinNl (y :: u)).data =
              l.data ++ '\n' :: (joinNl (y :: u)).data := by
            simp
          rw [hdata,
            splitNlL_append_nl l.data (hn l (List.mem_cons_self l _))]
          have := ih (fun s hs => hn s (List.mem_cons_of_mem l hs)) (by simp)
          rw [List.map_cons]
          rw [show (splitNlL (joinNl (y :: u)).data).map
              (fun c => String.mk c) = splitNl (joinNl (y :: u)) from rfl,
            this]

/-- One rendered option line `key = value`. -/
def rdOptLine (kv : String × String) : String := kv.1 ++ " = " ++ kv.2

/-- The body string a section's structure fold produces: every option line
followed by the doubled entity delimiter. -/
def rdBody : List (String × String) → String
  | [] => ""
  | kv :: rest => rdOptLine kv ++ "\n\n" ++ rdBody rest

/-- Concatenation of the per-section export strings (`[name]`, the doubled
delimiter, then the body) before the final slice. -/
def rdBlocks : List (String × List (String × String)) → String
  | [] => ""
  | d :: rest => "[" ++ d.1 ++ "]" ++ "\n\n" ++ rdBody d.2 ++ rdBlocks rest

/-- The entity lines of one rendered section. -/
def rdSecLines (d : String × List (String × String)) : List String :=
  ["[" ++ d.1 ++ "]", ""] ++ (d.2.map (fun kv => [rdOptLine kv, ""])).flatten

/-- The entity lines of a rendered document (with the trailing empty line
still present). -/
def rdLines (D : List (String × List (String × String))) : List String :=
  (D.map rdSecLines).flatten

/-- The exported text of a rendered document. -/
def rdText (D : List (String × List (String × String))) : String :=
  joinNl (rdLines D).dropLast

theorem rdBody_join (kvs : List (String × String)) (h : kvs ≠ []) :
    rdBody kvs =
      joinNl (kvs.map (fun kv => [rdOptLine kv, ""])).flatten ++ "\n" := by
  induction kvs with
  | nil => exact absurd rfl h
  | cons kv rest ih =>
      cases rest with
      | nil =>
          apply String.ext
          show (rdOptLine kv ++ "\n\n" ++ "").data =
            (joinNl [rdOptLine kv, ""] ++ "\n").data
          show (rdOptLine kv ++ "\n\n" ++ "").data =
            (rdOptLine kv ++ "\n" ++ "" ++ "\n").data
          simp [String.data_append]
      | cons kv₂ rest₂ =>
          rw [rdBody, ih (by simp)]
          have hfl : (List.map (fun kv => [rdOptLine kv, ""])
              (kv :: kv₂ :: rest₂)).flatten =
              [rdOptLine kv, ""] ++
                (List.map (fun kv => [rdOptLine kv, ""])
                  (kv₂ :: rest₂)).flatten := rfl
          rw [hfl, joinNl_append [rdOptLine kv, ""] _ (by simp) (by simp)]
          apply String.ext
          show _ = ((rdOptLine kv ++ "\n" ++ "" ++ "\n" ++
            joinNl (List.map (fun kv => [rdOptLine kv, ""])
              (kv₂ :: rest₂)).flatten) ++ "\n").data
          simp [String.data_append]

theorem rdBlocks_join (D : List (String × List (String × String)))
    (h : D ≠ []) : rdBlocks D = joinNl (rdLines D) ++ "\n" := by
  induction D with
  | nil => exact absurd rfl h
  | cons d rest ih =>
      have hsec : ∀ d' : String × List (String × String),
          "[" ++ d'.1 ++ "]" ++ "\n\n" ++ rdBody d'.2 =
            joinNl (rdSecLines d') ++ "\n" := by
        intro d'
        cases hkv : d'.2 with
        | nil =>
            rw [rdSecLines, hkv]
            apply String.ext
            show ("[" ++ d'.1 ++ "]" ++ "\n\n" ++ "").data =
              (joinNl ["[" ++ d'.1 ++ "]", ""] ++ "\n").data
            show ("[" ++ d'.1 ++ "]" ++ "\n\n" ++ "").data =
              ("[" ++ d'.1 ++ "]" ++ "\n" ++ "" ++ "\n").data
            simp [String.data_append]
        | cons kv rest₂ =>
            rw [rdSecLines, hkv,
              joinNl_append ["[" ++ d'.1 ++ "]", ""] _ (by simp) (by simp),
              rdBody_join (kv :: rest₂) (by simp)]
            apply String.ext
            show ("[" ++ d'.1 ++ "]" ++ "\n\n" ++
              (joinNl (List.map (fun kv => [rdOptLine kv, ""])
                (kv :: rest₂)).flatten ++ "\n")).data =
              (("[" ++ d'.1 ++ "]" ++ "\n" ++ "" ++ "\n" ++
                joinNl (List.map (fun kv => [rdOptLine kv, ""])
                  (kv :: rest₂)).flatten) ++ "\n").data
            simp [String.data_append]
      cases rest with
      | nil =>
          show "[" ++ d.1 ++ "]" ++ "\n\n" ++ rdBody d.2 ++ rdBlocks [] =
            joinNl (rdLines [d]) ++ "\n"
          rw [show rdBlocks [] = "" from rfl, String.append_empty,
            show rdLines [d] = rdSecLines d ++ [] from rfl, List.append_nil]
          exact hsec d
      | cons d₂ rest₂ =>
          show "[" ++ d.1 ++ "]" ++ "\n\n" ++ rdBody d.2 ++
            rdBlocks (d₂ :: rest₂) = _
          rw [ih (by simp)]
          have hrl : rdLines (d :: d₂ :: rest₂) =
              rdSecLines d ++ rdLines (d₂ :: rest₂) := rfl
          rw [hrl, joinNl_append (rdSecLines d) _ (by simp [rdSecLines])
            (by show rdLines (d₂ :: rest₂) ≠ []
                simp [rdLines, rdSecLines]),
            ← hsec d]
          apply String.ext
          simp [String.data_append]
theorem flatPairs_concat (kvs : List (String × String)) :
    (kvs.map (fun kv => [rdOptLine kv, ""])).flatten = [] ∨
      ∃ L, (kvs.map (fun kv => [rdOptLine kv, ""])).flatten = L ++ [""] := by
  induction kvs with
  | nil => exact Or.inl rfl
  | cons kv r ihr =>
      right
      cases ihr with
      | inl he =>
          refine ⟨[rdOptLine kv], ?_⟩
          show [rdOptLine kv, ""] ++
            (r.map (fun kv => [rdOptLine kv, ""])).flatten = _
          rw [he]
          rfl
      | inr hex =>
          obtain ⟨L, hL⟩ := hex
          refine ⟨[rdOptLine kv, ""] ++ L, ?_⟩
          show [rdOptLine kv, ""] ++
            (r.map (fun kv => [rdOptLine kv, ""])).flatten = _
          rw [hL, List.append_assoc]

theorem rdSecLines_concat (d : String × List (String × String)) :
    ∃ L', rdSecLines d = L' ++ [""] ∧ L' ≠ [] := by
  cases flatPairs_concat d.2 with
  | inl he =>
      refine ⟨["[" ++ d.1 ++ "]"], ?_, by simp⟩
      rw [rdSecLines, he]
      rfl
  | inr hex =>
      obtain ⟨L, hL⟩ := hex
      refine ⟨["[" ++ d.1 ++ "]", ""] ++ L, ?_, by simp⟩
      rw [rdSecLines, hL, List.append_assoc]

theorem rdLines_concat (D : List (String × List (String × String)))
    (h : D ≠ []) : ∃ L', rdLines D = L' ++ [""] ∧ L' ≠ [] := by
  induction D with
  | nil => exact absurd rfl h
  | cons d rest ih =>
      cases rest with
      | nil =>
          obtain ⟨L', hL', hne⟩ := rdSecLines_concat d
          exact ⟨L', by rw [show rdLines [d] = rdSecLines d ++ [] from rfl,
            List.append_nil, hL'], hne⟩
      | cons d₂ rest₂ =>
          obtain ⟨L', hL', hne⟩ := ih (by simp)
          refine ⟨rdSecLines d ++ L', ?_, by simp [rdSecLines]⟩
          rw [show rdLines (d :: d₂ :: rest₂) =
            rdSecLines d ++ rdLines (d₂ :: rest₂) from rfl, hL',
            List.append_assoc]

theorem rdBlocks_eq_text (D : List (String × List (String × String)))
    (h : D ≠ []) : rdBlocks D = rdText D ++ "\n\n" := by
  obtain ⟨L', hL', hne⟩ := rdLines_concat D h
  rw [rdBlocks_join D h, rdText, hL', List.dropLast_concat,
    joinNl_append L' [""] hne (by simp)]
  apply String.ext
  simp [String.data_append, joinNl]

theorem rdText_splitNl (D : List (String × List (String × String)))
    (h : D ≠ []) (hn : ∀ s ∈ rdLines D, '\n' ∉ s.data) :
    splitNl (rdText D) = (rdLines D).dropLast := by
  obtain ⟨L', hL', hne⟩ := rdLines_concat D h
  rw [rdText, hL', List.dropLast_concat]
  refine splitNl_joinNl L' ?_ hne
  intro s hs
  exact hn s (by rw [hL']; exact List.mem_append_left _ hs)

/-- The `fallback` content-slot access the exporter computes from the schema
slot keys: the latest slot plus, when more than one exists, the first. -/
def accessFallback (ks : List SlotKey) : Option (List SlotKey) :=
  match ks.getLast? with
  | some l => some ([l] ++ if ks.length > 1 then [ks.headI] else [])
  | none => none

/-- A section's structure fold renders exactly the given key/value pairs at
the given access slots. -/
def BodyPresents (showC : C → String) (sec : SectionE C)
    (acc : List SlotKey) (kvs : List (String × String)) : Prop :=
  List.Forall₂ (fun it kv => ∃ o, it = SItem.opt kv.1 ∧
      secFindOpt sec kv.1 = some o ∧ o.undef = false ∧
      optionToString showC o "=" none acc = .ok (rdOptLine kv))
    sec.schemaStructure kvs

/-- A schema's export sections render exactly the given document data at the
given access slots. -/
def Presents (showC : C → String) (X : SchemaE C) (acc : List SlotKey)
    (D : List (String × List (String × String))) : Prop :=
  List.Forall₂ (fun sec d => sec.name = some d.1 ∧
      BodyPresents showC sec acc d.2)
    (schGetSectionsForExport X false) D

theorem exportOptItem_fold (showC : C → String) (sec : SectionE C)
    (acc : List SlotKey) :
    ∀ (items : List SItem) (kvs : List (String × String)),
      List.Forall₂ (fun it kv => ∃ o, it = SItem.opt kv.1 ∧
          secFindOpt sec kv.1 = some o ∧ o.undef = false ∧
          optionToString showC o "=" none acc = .ok (rdOptLine kv))
        items kvs →
      ∀ acc₀, items.foldlM (exportOptItem showC false sec "=" acc) acc₀ =
        .ok (acc₀ ++ rdBody kvs) := by
  intro items kvs hrel
  induction hrel with
  | nil =>
      intro acc₀
      rw [List.foldlM_nil]
      rw [show rdBody [] = "" from rfl, String.append_empty]
      rfl
  | cons hkv hrest ih =>
      rename_i it kv items' kvs'
      intro acc₀
      obtain ⟨o, hit, hfind, hu, hts⟩ := hkv
      rw [List.foldlM_cons]
      have hstep : exportOptItem showC false sec "=" acc acc₀ it =
          .ok (acc₀ ++ rdOptLine kv ++ "\n\n") := by
        rw [hit]
        rw [exportOptItem]
        rw [hfind]
        dsimp only
        rw [if_pos (by rw [hu]; simp)]
        rw [hts]
      rw [hstep]
      show items'.foldlM (exportOptItem showC false sec "=" acc)
        (acc₀ ++ rdOptLine kv ++ "\n\n") = _
      rw [ih (acc₀ ++ rdOptLine kv ++ "\n\n")]
      have : acc₀ ++ rdOptLine kv ++ "\n\n" ++ rdBody kvs' =
          acc₀ ++ rdBody (kv :: kvs') := by
        rw [show rdBody (kv :: kvs') = rdOptLine kv ++ "\n\n" ++ rdBody kvs'
          from rfl]
        apply String.ext
        simp [String.data_append]
      rw [this]

theorem exportSec_fold (showC : C → String) (acc : List SlotKey) :
    ∀ (secs : List (SectionE C)) (D : List (String × List (String × String))),
      List.Forall₂ (fun sec d => sec.name = some d.1 ∧
          BodyPresents showC sec acc d.2) secs D →
      ∀ out₀, secs.foldlM (exportSecStep showC false "=" acc) out₀ =
        .ok (out₀ ++ rdBlocks D) := by
  intro secs D hrel
  induction hrel with
  | nil =>
      intro out₀
      rw [List.foldlM_nil]
      rw [show rdBlocks [] = "" from rfl, String.append_empty]
      rfl
  | cons hd hrest ih =>
      rename_i sec d secs' D'
      intro out₀
      obtain ⟨hnm, hbody⟩ := hd
      rw [List.foldlM_cons]
      have hstep : exportSecStep showC false "=" acc out₀ sec =
          .ok (out₀ ++ ("[" ++ d.1 ++ "]" ++ "\n\n" ++ rdBody d.2)) := by
        rw [exportSecStep]
        rw [exportOptItem_fold showC sec acc sec.schemaStructure d.2 hbody ""]
        rw [hnm]
        have hb : ("" : String) ++ rdBody d.2 = rdBody d.2 := by
          apply String.ext
          simp [String.data_append]
        rw [hb]
        dsimp only
        have : (out₀ ++ ("[" ++ d.1 ++ "]" ++ "\n\n")) ++ rdBody d.2 =
            out₀ ++ ("[" ++ d.1 ++ "]" ++ "\n\n" ++ rdBody d.2) := by
          apply String.ext
          simp [String.data_append]
        rw [this]
      rw [hstep]
      show secs'.foldlM (exportSecStep showC false "=" acc) _ = _
      rw [ih _]
      have : out₀ ++ ("[" ++ d.1 ++ "]" ++ "\n\n" ++ rdBody d.2) ++
          rdBlocks D' = out₀ ++ rdBlocks (d :: D') := by
        rw [show rdBlocks (d :: D') =
          "[" ++ d.1 ++ "]" ++ "\n\n" ++ rdBody d.2 ++ rdBlocks D' from rfl]
        apply String.ext
        simp [String.data_append]
      rw [this]

theorem exportText_presents (showC : C → String) (X : SchemaE C)
    (acc : List SlotKey) (D : List (String × List (String × String)))
    (hacc : accessFallback (X.slots.map Prod.fst) = some acc)
    (hp : Presents showC X acc D) (hne : D ≠ []) :
    exportText showC X .fallback ["="] false = .ok (rdText D) := by
  unfold exportText
  unfold accessFallback at hacc
  cases hl : (X.slots.map Prod.fst).getLast? with
  | none =>
      rw [hl] at hacc
      cases hacc
  | some l =>
      rw [hl] at hacc
      simp only [Option.some.injEq] at hacc
      simp only [bind, Except.bind]
      rw [hl]
      simp only
      rw [hacc]
      rw [show (["="] : List String).head? = some "=" from rfl]
      dsimp only
      rw [exportSec_fold showC acc (schGetSectionsForExport X false) D hp ""]
      have hb : ("" : String) ++ rdBlocks D = rdBlocks D := by
        apply String.ext
        simp [String.data_append]
      rw [hb, rdBlocks_eq_text D hne]
      dsimp only
      rw [dropRight_two_newlines]

/- ------------------------------------------------------------------ -/
/- Round-trip (C3): reader normal form                                 -/
/- ------------------------------------------------------------------ -/

/-- The fresh integer slot key `_ReadIni.__new__` generates for a schema
when called without slots. -/
def bKey (sch : SchemaE C) : SlotKey := .inl (freshSlotKey sch.slots)

/-- A value in reader normal form: `None`, or a non-empty stripped
single-line raw string. -/
def NFVal : PyV C → Prop
  | .pynone => True
  | .str v => v ≠ "" ∧ pstrip v = v ∧ '\n' ∉ v.data
  | _ => False

/-- An option key in reader normal form: non-empty, all word characters. -/
def NFKey (k : String) : Prop := k ≠ "" ∧ k.data.all isWordChar = true

/-- A section name in reader normal form: single-line and re-extracted
verbatim from its rendered header. -/
def NFName (nm : String) : Prop :=
  '\n' ∉ nm.data ∧ extractSectionName ("[" ++ nm ++ "]") = some nm

/-- An option in reader normal form relative to the populated content slot
`a` and the fresh slot `b`. -/
def NFOpt (a b : SlotKey) (o : OptionE C) : Prop :=
  o.undef = false ∧ o.conv = none ∧ NFKey o.key ∧
  (∃ osv, slotsLookup o.oslots a = some osv ∧ NFVal osv.input) ∧
  slotsLookup o.oslots b = none

/-- A section in reader normal form: named, defined, schema structure equal
to the declared options in order, distinct keys, normal options, fresh slot
not yet present. -/
def NFSec (a b : SlotKey) (sec : SectionE C) : Prop :=
  (∃ nm, sec.name = some nm ∧ NFName nm) ∧ sec.undef = false ∧
  sec.schemaStructure = sec.opts.map (fun o => SItem.opt o.key) ∧
  (sec.opts.map (fun o => o.key)).Nodup ∧
  (∀ o ∈ sec.opts, NFOpt a b o) ∧
  slotsLookup sec.sslots b = none

/-- A populated schema in reader normal form: one populated content slot
`a`, at least one section, attributes referencing distinct heap sections
with pairwise distinct names, all in normal form. -/
def NFSchema (a : SlotKey) (sch : SchemaE C) : Prop :=
  (∃ sl, sch.slots = [(a, sl)]) ∧ sch.attrs ≠ [] ∧
  (sch.attrs.map Prod.snd).Nodup ∧
  (sch.attrs.map
    (fun pr => (sch.heap.get? pr.2).bind (fun s => s.name))).Nodup ∧
  (∀ pr ∈ sch.attrs, ∃ sec, sch.heap.get? pr.2 = some sec ∧
    NFSec a (bKey sch) sec)

/-- The document data a normal-form schema renders: per export section its
name and the option key/value strings at slot `a`. -/
def renderD (showC : C → String) (a : SlotKey) (sch : SchemaE C) :
    List (String × List (String × String)) :=
  (schGetSectionsForExport sch false).map fun sec =>
    (sec.name.getD "",
      sec.opts.map fun o =>
        (o.key, match slotsLookup o.oslots a with
          | some osv => osvToString showC osv none
          | none => ""))

/-- What a normal-form option becomes when its rendered line is read back
into the fresh slot `b`. -/
def readBackOpt (a b : SlotKey) (o : OptionE C) : OptionE C :=
  match slotsLookup o.oslots a with
  | some osv =>
      { o with oslots := slotsSetItem o.oslots b ⟨osv.input, osv.input⟩ }
  | none => o

theorem isWordChar_ne (c : Char) (h : isWordChar c = true) :
    pyWs c = false ∧ c ≠ '=' ∧ c ≠ '[' ∧ c ≠ ';' ∧ c ≠ '\n' := by
  refine ⟨?_, ?_, ?_, ?_, ?_⟩
  · by_contra hw
    rw [Bool.not_eq_false] at hw
    rw [pyWs] at hw
    simp only [decide_eq_true_eq] at hw
    rcases hw with h1 | h1 | h1 | h1 | h1 | h1 <;>
      (subst h1; exact absurd h (by decide))
  · intro h1; subst h1; exact absurd h (by decide)
  · intro h1; subst h1; exact absurd h (by decide)
  · intro h1; subst h1; exact absurd h (by decide)
  · intro h1; subst h1; exact absurd h (by decide)

theorem takeWhile_all_append (p : α → Bool) (x y : List α)
    (hx : ∀ a ∈ x, p a = true) :
    (x ++ y).takeWhile p = x ++ y.takeWhile p := by
  induction x with
  | nil => rfl
  | cons a t ih =>
      rw [List.cons_append, List.takeWhile_cons_of_pos
        (hx a (List.mem_cons_self a t)), List.cons_append,
        ih (fun a ha => hx a (List.mem_cons_of_mem _ ha))]

theorem takeWhile_all_eq (p : α → Bool) (x : List α)
    (hx : ∀ a ∈ x, p a = true) : x.takeWhile p = x := by
  induction x with
  | nil => rfl
  | cons a t ih =>
      rw [List.takeWhile_cons_of_pos (hx a (List.mem_cons_self a t)),
        ih (fun a ha => hx a (List.mem_cons_of_mem _ ha))]

theorem dropWhileRight_concat_pos (p : α → Bool) (l : List α) (x : α)
    (hx : p x = true) : dropWhileRight p (l ++ [x]) = dropWhileRight p l := by
  rw [dropWhileRight, dropWhileRight, List.reverse_append]
  rw [show [x].reverse = [x] from rfl, List.singleton_append,
    List.dropWhile_cons_of_pos hx]

theorem dropWhileRight_of_last (p : α → Bool) (l : List α)
    (h : ∀ x, l.getLast? = some x → p x = false) :
    dropWhileRight p l = l := by
  rcases l.eq_nil_or_concat with he | ⟨l', x, hx⟩
  · rw [he]; rfl
  · subst hx
    rw [List.concat_eq_append] at h ⊢
    rw [dropWhileRight, List.reverse_append]
    rw [show [x].reverse = [x] from rfl, List.singleton_append,
      List.dropWhile_cons_of_neg
        (by rw [h x (List.getLast?_concat l')]; simp)]
    simp

theorem pstripL_cons_ws (c : Char) (l : List Char) (hc : pyWs c = true) :
    pstripL (c :: l) = pstripL l := by
  rw [pstripL, pstripL, List.dropWhile_cons_of_pos hc]

theorem pstrip_data (v : String) (h : pstrip v = v) :
    pstripL v.data = v.data := by
  have := congrArg String.data h
  exact this

theorem pstripL_key_sp (k : String) (hk : NFKey k) :
    pstripL (k.data ++ [' ']) = k.data := by
  obtain ⟨hne, hall⟩ := hk
  have hd : k.data ≠ [] := fun he => hne (by
    cases k with
    | mk d => cases he; rfl)
  cases hkd : k.data with
  | nil => exact absurd hkd hd
  | cons c t =>
      have hcw : isWordChar c = true := by
        have := hall
        rw [hkd, List.all_cons, Bool.and_eq_true] at this
        exact this.1
      rw [pstripL, List.cons_append,
        List.dropWhile_cons_of_neg (by rw [(isWordChar_ne c hcw).1]; simp),
        ← List.cons_append,
        dropWhileRight_concat_pos _ _ _ (by rw [pyWs]; decide)]
      refine dropWhileRight_of_last _ _ ?_
      intro x hx
      have hmem : x ∈ c :: t := by
        rcases (c :: t).eq_nil_or_concat with he | ⟨l', y, hy⟩
        · cases he
        · rw [hy, List.concat_eq_append, List.getLast?_concat] at hx
          cases hx
          rw [hy, List.concat_eq_append]
          exact List.mem_append_right _ (List.mem_singleton_self x)
      have hxw : isWordChar x = true := by
        have := hall
        rw [hkd] at this
        rw [List.all_eq_true] at this
        exact this x hmem
      exact (isWordChar_ne x hxw).1

theorem optline_data (k v : String) :
    (k ++ " = " ++ v).data = k.data ++ ' ' :: '=' :: ' ' :: v.data := by
  simp [String.data_append]

theorem extractOption_render (k v : String) (hk : NFKey k)
    (hv : pstrip v = v) :
    extractOption (k ++ " = " ++ v) ["="] =
      some (k, if v = "" then none else some v) := by
  obtain ⟨hne, hall⟩ := hk
  rw [extractOption]
  rw [show (["="] : List String).flatMap (fun s => s.data) = ['='] from rfl]
  rw [optline_data]
  have hpre : (k.data ++ ' ' :: '=' :: ' ' :: v.data).takeWhile
      (fun c => ¬ c ∈ ['=']) = k.data ++ [' '] := by
    rw [takeWhile_all_append _ k.data _ (by
      intro c hc
      rw [List.all_eq_true] at hall
      have := (isWordChar_ne c (hall c hc)).2.1
      simp [this])]
    rw [List.takeWhile_cons_of_pos (by simp),
      List.takeWhile_cons_of_neg (by simp)]
  rw [hpre]
  have hlen : (k.data ++ [' ']).length ≠
      (k.data ++ ' ' :: '=' :: ' ' :: v.data).length := by
    simp
  rw [if_neg hlen]
  have hdrop : (k.data ++ ' ' :: '=' :: ' ' :: v.data).drop
      ((k.data ++ [' ']).length + 1) = ' ' :: v.data := by
    rw [List.length_append]
    rw [show k.data.length + [' '].length + 1 = k.data.length + 2 from by
      simp]
    rw [show (' ' :: '=' :: ' ' :: v.data) = [' ', '='] ++ ' ' :: v.data
      from rfl]
    rw [← List.append_assoc]
    rw [show k.data.length + 2 = (k.data ++ [' ', '=']).length from by simp]
    exact List.drop_left _ _
  rw [hdrop]
  rw [pstripL_key_sp k ⟨hne, hall⟩]
  have hd : k.data ≠ [] := fun he => hne (by
    cases k with
    | mk d => cases he; rfl)
  rcases k.data.eq_nil_or_concat with he | ⟨l', x, hy⟩
  · exact absurd he hd
  · dsimp only
    rw [hy, List.concat_eq_append, List.getLast?_concat]
    have hxw : isWordChar x = true := by
      rw [List.all_eq_true] at hall
      exact hall x (by
        rw [hy, List.concat_eq_append]
        exact List.mem_append_right _ (List.mem_singleton_self x))
    dsimp only
    rw [if_pos hxw]
    have hsuf : (((l' ++ [x]).reverse.takeWhile isKeyChar)).reverse =
        l' ++ [x] := by
      rw [takeWhile_all_eq _ _ (by
        intro c hc
        rw [List.mem_reverse] at hc
        rw [List.all_eq_true] at hall
        have hcw := hall c (by rw [hy, List.concat_eq_append]; exact hc)
        rw [isKeyChar]
        simp [hcw])]
      simp
    rw [hsuf]
    have hkey : (l' ++ [x]).dropWhile (fun c => ¬ isWordChar c) =
        l' ++ [x] := by
      cases hl' : l' with
      | nil =>
          rw [List.nil_append]
          exact List.dropWhile_cons_of_neg (by simp [hxw])
      | cons c t =>
          have hcw : isWordChar c = true := by
            rw [List.all_eq_true] at hall
            exact hall c (by rw [hy, hl']; simp)
          rw [List.cons_append]
          exact List.dropWhile_cons_of_neg (by simp [hcw])
    rw [hkey]
    have hpv : pstripL (' ' :: v.data) = v.data := by
      rw [pstripL_cons_ws ' ' v.data (by rw [pyWs]; decide)]
      exact pstrip_data v hv
    rw [hpv]
    rw [← List.concat_eq_append, ← hy]
    have hmkk : (⟨k.data⟩ : String) = k := by
      cases k with
      | mk d => rfl
    rw [hmkk]
    by_cases hve : v = ""
    · rw [if_pos hve, if_pos (show v.data = [] by rw [hve])]
    · rw [if_neg hve, if_neg (fun hvd => hve (String.ext hvd))]

theorem key_head (k : String) (hk : NFKey k) :
    ∃ c kt, k.data = c :: kt ∧ isWordChar c = true := by
  obtain ⟨hne, hall⟩ := hk
  cases hkd : k.data with
  | nil =>
      exact absurd (String.ext (by rw [hkd])) hne
  | cons c kt =>
      refine ⟨c, kt, rfl, ?_⟩
      rw [hkd, List.all_cons, Bool.and_eq_true] at hall
      exact hall.1

theorem dropWhile_append_stop (p : α → Bool) (x : List α) (c : α)
    (y : List α) (hc : p c = false) :
    x.dropWhile p ++ c :: y = (x ++ c :: y).dropWhile p := by
  induction x with
  | nil => simp [List.dropWhile, hc]
  | cons a t ih =>
      by_cases ha : p a
      · rw [List.cons_append, List.dropWhile_cons_of_pos ha,
          List.dropWhile_cons_of_pos ha]
        exact ih
      · rw [List.cons_append,
          List.dropWhile_cons_of_neg ha, List.dropWhile_cons_of_neg ha]
        rfl

theorem dropWhileRight_cons_neg (p : α → Bool) (c : α) (l : List α)
    (hc : p c = false) :
    dropWhileRight p (c :: l) = c :: dropWhileRight p l := by
  rw [dropWhileRight, dropWhileRight]
  rw [show (c :: l).reverse = l.reverse ++ c :: [] from by simp]
  rw [← dropWhile_append_stop p l.reverse c [] hc]
  simp

theorem extractSectionName_optline (k v : String) (hk : NFKey k) :
    extractSectionName (k ++ " = " ++ v) = none := by
  obtain ⟨c, kt, hkd, hcw⟩ := key_head k hk
  rw [extractSectionName]
  have hdata : (k ++ " = " ++ v).data =
      c :: (kt ++ ' ' :: '=' :: ' ' :: v.data) := by
    rw [optline_data, hkd, List.cons_append]
  rw [hdata]
  have hps : pstripL (c :: (kt ++ ' ' :: '=' :: ' ' :: v.data)) =
      c :: dropWhileRight pyWs (kt ++ ' ' :: '=' :: ' ' :: v.data) := by
    rw [pstripL,
      List.dropWhile_cons_of_neg (by rw [(isWordChar_ne c hcw).1]; simp),
      dropWhileRight_cons_neg _ _ _ (isWordChar_ne c hcw).1]
  rw [hps]
  rw [if_neg (by
    intro hcond
    have h1 := hcond.1
    rw [List.head?_cons, Option.some.injEq] at h1
    exact (isWordChar_ne c hcw).2.2.1 h1)]

theorem extractCommentE_optline (k v : String) (hk : NFKey k) :
    extractCommentE (k ++ " = " ++ v) (some [";"]) = .ok none := by
  obtain ⟨c, kt, hkd, hcw⟩ := key_head k hk
  rw [extractCommentE, commentCore]
  have hdata : (k ++ " = " ++ v).data =
      c :: (kt ++ ' ' :: '=' :: ' ' :: v.data) := by
    rw [optline_data, hkd, List.cons_append]
  rw [hdata]
  cases kt with
  | nil =>
      rw [List.nil_append]
      dsimp only
      rw [if_neg (by
        intro hcond
        have h1 := hcond.1
        rw [show ([";"] : List String).flatMap (fun s => s.data) = [';']
          from rfl, List.mem_singleton] at h1
        exact (isWordChar_ne c hcw).2.2.2.1 h1)]
  | cons c₂ kt₂ =>
      rw [List.cons_append]
      dsimp only
      rw [if_neg (by
        intro hcond
        have h1 := hcond.1
        rw [show ([";"] : List String).flatMap (fun s => s.data) = [';']
          from rfl, List.mem_singleton] at h1
        exact (isWordChar_ne c hcw).2.2.2.1 h1)]
  intro h
  cases h

theorem isEmptyEntity_optline (k v : String) (hk : NFKey k) :
    isEmptyEntity (k ++ " = " ++ v) true = false := by
  obtain ⟨c, kt, hkd, hcw⟩ := key_head k hk
  rw [isEmptyEntity, if_pos rfl]
  have hdata : (k ++ " = " ++ v).data =
      c :: (kt ++ ' ' :: '=' :: ' ' :: v.data) := by
    rw [optline_data, hkd, List.cons_append]
  rw [hdata, List.all_cons, (isWordChar_ne c hcw).1]
  rfl

theorem header_data (nm : String) :
    ("[" ++ nm ++ "]").data = '[' :: (nm.data ++ [']']) := by
  simp [String.data_append]

theorem isEmptyEntity_header (nm : String) :
    isEmptyEntity ("[" ++ nm ++ "]") true = false := by
  rw [isEmptyEntity, if_pos rfl, header_data, List.all_cons]
  rw [show pyWs '[' = false from by rw [pyWs]; decide]
  rfl

theorem extractCommentE_header (nm : String) :
    extractCommentE ("[" ++ nm ++ "]") (some [";"]) = .ok none := by
  rw [extractCommentE, commentCore, header_data]
  cases hnd : nm.data with
  | nil =>
      rw [List.nil_append]
      dsimp only
      rw [if_neg (by
        intro hcond
        have h1 := hcond.1
        rw [show ([";"] : List String).flatMap (fun s => s.data) = [';']
          from rfl, List.mem_singleton] at h1
        exact absurd h1 (by decide))]
  | cons c₂ t₂ =>
      rw [List.cons_append]
      dsimp only
      rw [if_neg (by
        intro hcond
        have h1 := hcond.1
        rw [show ([";"] : List String).flatMap (fun s => s.data) = [';']
          from rfl, List.mem_singleton] at h1
        exact absurd h1 (by decide))]
  intro h
  cases h

theorem isEmptyEntity_empty : isEmptyEntity "" true = true := rfl

/-- The raw value the reader parses back from a normal-form option's
rendered line. -/
def nfRaw (a : SlotKey) (o : OptionE C) : Option String :=
  match slotsLookup o.oslots a with
  | some osv =>
      match osv.input with
      | .str v => some v
      | _ => none
  | none => none

theorem readBackOpt_key (a b : SlotKey) (o : OptionE C) :
    (readBackOpt a b o).key = o.key := by
  rw [readBackOpt]
  cases slotsLookup o.oslots a <;> rfl

theorem find?_all_neg_append (p : α → Bool) (l₁ l₂ : List α)
    (h : ∀ x ∈ l₁, p x = false) :
    (l₁ ++ l₂).find? p = l₂.find? p := by
  induction l₁ with
  | nil => rfl
  | cons a t ih =>
      rw [List.cons_append,
        List.find?_cons_of_neg _ (by
          rw [h a (List.mem_cons_self a t)]; simp)]
      exact ih (fun x hx => h x (List.mem_cons_of_mem _ hx))

theorem map_replace_none (l : List (OptionE C)) (key : String)
    (o' : OptionE C) (h : ∀ x ∈ l, x.key ≠ key) :
    l.map (fun o => if o.key = key then o' else o) = l := by
  induction l with
  | nil => rfl
  | cons a t ih =>
      rw [List.map_cons, if_neg (h a (List.mem_cons_self a t)),
        ih (fun x hx => h x (List.mem_cons_of_mem _ hx))]

theorem setSlotsV_single (l : SlotStore α) (b : SlotKey) (v : α) :
    setSlotsV l [b] v true = .ok (slotsSetItem l b v) := by
  rw [setSlotsV]
  rw [List.foldlM_cons]
  by_cases hb : (slotsLookup l b).isSome
  · rw [if_pos hb]
    rfl
  · rw [if_neg hb, if_pos rfl]
    rfl

theorem ilocGetInt_single_neg1 (k : K) (x : V) :
    ilocGetInt [(k, x)] (-1) = .ok (k, x) := rfl

theorem lookup_setItem_isSome (l : SlotStore α) (k b : SlotKey) (v : α)
    (h : (slotsLookup l b).isSome = true) :
    (slotsLookup (slotsSetItem l k v) b).isSome = true := by
  by_cases hkb : b = k
  · subst hkb
    rw [slotsLookup_setItem_self]
    rfl
  · rw [slotsLookup_setItem_ne l k v b hkb]
    exact h

theorem secSetStructureItemsOne_fields {sec sec' : SectionE C} {item : SItem}
    {ea : ExistAction} {ks : List SlotKey}
    (h : secSetStructureItemsOne sec item ea ks = .ok sec') :
    sec'.name = sec.name ∧ sec'.undef = sec.undef ∧
    sec'.schemaStructure = sec.schemaStructure ∧ sec'.opts = sec.opts ∧
    sec'.comments = sec.comments ∧
    ∀ b, (slotsLookup sec.sslots b).isSome = true →
      (slotsLookup sec'.sslots b).isSome = true := by
  unfold secSetStructureItemsOne at h
  cases hv : slotAccessVerify sec.sslots ks with
  | error e =>
      rw [hv] at h
      cases h
  | ok u =>
      rw [hv] at h
      simp only [bind, Except.bind] at h
      refine foldlM_ok_induction _
        (fun x y => y.name = x.name ∧ y.undef = x.undef ∧
          y.schemaStructure = x.schemaStructure ∧ y.opts = x.opts ∧
          y.comments = x.comments ∧
          ∀ b, (slotsLookup x.sslots b).isSome = true →
            (slotsLookup y.sslots b).isSome = true)
        (fun x => ⟨rfl, rfl, rfl, rfl, rfl, fun _ hb => hb⟩)
        (fun x y z h1 h2 => by
          exact ⟨h2.1.trans h1.1, h2.2.1.trans h1.2.1,
            h2.2.2.1.trans h1.2.2.1, h2.2.2.2.1.trans h1.2.2.2.1,
            h2.2.2.2.2.1.trans h1.2.2.2.2.1,
            fun b hb => h2.2.2.2.2.2 b (h1.2.2.2.2.2 b hb)⟩)
        ks ?_ sec sec' h
      intro acc k acc' _ hf
      by_cases hmem : item ∈ (slotsLookup acc.sslots k).getD []
      · rw [if_pos hmem] at hf
        cases ea with
        | ignore =>
            cases hf
            exact ⟨rfl, rfl, rfl, rfl, rfl, fun _ hb => hb⟩
        | exception => cases hf
      · rw [if_neg hmem] at hf
        cases hf
        exact ⟨rfl, rfl, rfl, rfl, rfl,
          fun b hb => lookup_setItem_isSome _ _ _ _ hb⟩

theorem secSetStructureItemsOne_single_ok (sec : SectionE C) (item : SItem)
    (b : SlotKey) (hb : (slotsLookup sec.sslots b).isSome = true) :
    ∃ sec', secSetStructureItemsOne sec item .ignore [b] = .ok sec' := by
  unfold secSetStructureItemsOne
  rw [show slotAccessVerify sec.sslots [b] = .ok () from by
    rw [slotAccessVerify, if_pos (by simp [hb])]]
  simp only [bind, Except.bind]
  rw [List.foldlM_cons]
  by_cases hmem : item ∈ (slotsLookup sec.sslots b).getD []
  · rw [if_pos hmem]
    exact ⟨sec, rfl⟩
  · rw [if_neg hmem]
    exact ⟨_, rfl⟩

/-- Mid-read state of a section: the options in `done` have been read back
into slot `b`, the ones in `rem` are untouched; every other export-relevant
field matches `base`, and the section's slot store holds slot `b`. -/
def SecMidL (a b : SlotKey) (done rem : List (OptionE C))
    (base sec' : SectionE C) : Prop :=
  sec'.name = base.name ∧ sec'.undef = base.undef ∧
  sec'.schemaStructure = base.schemaStructure ∧
  sec'.comments = base.comments ∧
  sec'.opts = done.map (readBackOpt a b) ++ rem ∧
  (slotsLookup sec'.sslots b).isSome = true

theorem handleOption_nf (p : RParams) (a b : SlotKey)
    (base sec' : SectionE C) (done rem : List (OptionE C)) (o : OptionE C)
    (hops : base.opts = done ++ o :: rem)
    (hnd : (base.opts.map (fun x => x.key)).Nodup)
    (hOpt : NFOpt a b o)
    (hmid : SecMidL a b done (o :: rem) base sec') :
    ∃ sec'', handleOption sec' p o.key (nfRaw a o) [b] =
      .ok (sec'', some o.key) ∧
      SecMidL a b (done ++ [o]) rem base sec'' := by
  obtain ⟨hundef, hconv, hkey, ⟨osv, hosv, hval⟩, hb⟩ := hOpt
  obtain ⟨hnm, hud, hstr, hcm, hopts, hsl⟩ := hmid
  rw [hops, List.map_append, List.nodup_append] at hnd
  have hdisj : ∀ x ∈ done, x.key ≠ o.key := by
    intro x hx heq
    exact hnd.2.2 (List.mem_map_of_mem (fun x => x.key) hx)
      (by rw [heq]
          exact List.mem_map_of_mem _ (List.mem_cons_self o rem))
  have hremne : ∀ x ∈ rem, x.key ≠ o.key := by
    intro x hx heq
    have h2 := hnd.2.1
    rw [List.map_cons, List.nodup_cons] at h2
    exact h2.1 (by rw [← heq]; exact List.mem_map_of_mem _ hx)
  have hmapne : ∀ x ∈ done.map (readBackOpt a b), x.key ≠ o.key := by
    intro x hx
    rw [List.mem_map] at hx
    obtain ⟨y, hy, hxy⟩ := hx
    subst hxy
    rw [readBackOpt_key]
    exact hdisj y hy
  have hfind : secFindOpt sec' o.key = some o := by
    rw [secFindOpt, hopts]
    rw [find?_all_neg_append _ _ _ (by
      intro x hx
      simp [hmapne x hx])]
    rw [List.find?_cons_of_pos _ (by simp)]
  have hrv : (match nfRaw a o with
      | some v => PyV.str v
      | none => (PyV.pynone : PyV C)) = osv.input := by
    rw [nfRaw, hosv]
    dsimp only
    cases hin : osv.input with
    | pynone => rfl
    | str v => rfl
    | conv c =>
        rw [hin] at hval
        simp only [NFVal] at hval
    | multi xs =>
        rw [hin] at hval
        simp only [NFVal] at hval
  rw [handleOption]
  rw [hfind]
  simp only [bind, Except.bind]
  have hex : (extractedOption o.key (nfRaw a o) [b] : OptionE C).oslots =
      [(b, ⟨osv.input, osv.input⟩)] := by
    rw [extractedOption.eq_def]
    cases hnr : nfRaw a o with
    | none =>
        rw [hnr] at hrv
        dsimp only at hrv ⊢
        rw [hrv]
        rfl
    | some v =>
        rw [hnr] at hrv
        dsimp only at hrv ⊢
        rw [hrv]
        rfl
  rw [hex, ilocGetInt_single_neg1]
  dsimp only
  have hset : optionSetSlots o osv.input osv.input true [b] =
      .ok (readBackOpt a b o) := by
    rw [optionSetSlots]
    have hosvv : setOSV o osv.input osv.input = ⟨osv.input, osv.input⟩ := by
      rw [setOSV.eq_def, hconv]
    rw [hosvv, setSlotsV_single]
    rw [readBackOpt, hosv]
    rfl
  rw [hset]
  dsimp only
  have hrep : secReplaceOpt sec' o.key (readBackOpt a b o) =
      { sec' with
          opts := done.map (readBackOpt a b) ++ readBackOpt a b o :: rem } := by
    rw [secReplaceOpt, hopts, List.map_append, List.map_cons]
    rw [map_replace_none (done.map (readBackOpt a b)) o.key _ hmapne]
    rw [if_pos rfl]
    rw [map_replace_none rem o.key _ hremne]
  rw [hrep]
  obtain ⟨sec₂, h2ok⟩ := secSetStructureItemsOne_single_ok
    { sec' with
        opts := done.map (readBackOpt a b) ++ readBackOpt a b o :: rem }
    (.opt o.key) b hsl
  rw [h2ok]
  refine ⟨sec₂, rfl, ?_⟩
  obtain ⟨f1, f2, f3, f4, f5, f6⟩ := secSetStructureItemsOne_fields h2ok
  refine ⟨f1.trans hnm, f2.trans hud, f3.trans hstr, f5.trans hcm, ?_, ?_⟩
  · rw [f4]
    show done.map (readBackOpt a b) ++ readBackOpt a b o :: rem =
      (done ++ [o]).map (readBackOpt a b) ++ rem
    rw [List.map_append]
    simp
  · exact f6 b hsl

/-- Mid-read state of the schema: attributes unchanged, slot keys `[a, b]`,
heap length unchanged; sections listed in `doneIdx` are fully read, all
others untouched. -/
def SchMid (a b : SlotKey) (sch₀ sch' : SchemaE C) (doneIdx : List Nat) :
    Prop :=
  sch'.attrs = sch₀.attrs ∧
  sch'.slots.map Prod.fst = [a, b] ∧
  sch'.heap.length = sch₀.heap.length ∧
  (∀ i, i ∉ doneIdx → sch'.heap.get? i = sch₀.heap.get? i) ∧
  (∀ i ∈ doneIdx, ∃ base sec', sch₀.heap.get? i = some base ∧
    sch'.heap.get? i = some sec' ∧ SecMidL a b base.opts [] base sec')

theorem slotsLookup_append_none_self (l : SlotStore α) (b : SlotKey) (x : α)
    (h : slotsLookup l b = none) : slotsLookup (l ++ [(b, x)]) b = some x := by
  induction l with
  | nil =>
      rw [List.nil_append, slotsLookup, List.find?_cons_of_pos _ (by simp)]
      rfl
  | cons hd t ih =>
      obtain ⟨k₀, v₀⟩ := hd
      by_cases hk : k₀ = b
      · exfalso
        rw [slotsLookup, List.find?_cons_of_pos _ (by simp [hk])] at h
        cases h
      · rw [slotsLookup, List.find?_cons_of_neg _ (by simp [hk])] at h
        rw [List.cons_append, slotsLookup,
          List.find?_cons_of_neg _ (by simp [hk])]
        exact ih h

theorem find?_pred_congr (p q : α → Bool) (l : List α)
    (h : ∀ x ∈ l, p x = q x) : l.find? p = l.find? q := by
  induction l with
  | nil => rfl
  | cons a t ih =>
      by_cases ha : p a = true
      · rw [List.find?_cons_of_pos _ ha, List.find?_cons_of_pos _
          (by rw [← h a (List.mem_cons_self a t)]; exact ha)]
      · rw [List.find?_cons_of_neg _ ha, List.find?_cons_of_neg _
          (by rw [← h a (List.mem_cons_self a t)]; exact ha)]
        exact ih (fun x hx => h x (List.mem_cons_of_mem _ hx))

theorem schGetSectionIdx_congr (sch₀ sch' : SchemaE C) (nm : Option String)
    (hattrs : sch'.attrs = sch₀.attrs)
    (hnames : ∀ i, (sch'.heap.get? i).map (fun s => s.name) =
      (sch₀.heap.get? i).map (fun s => s.name)) :
    schGetSectionIdx sch' nm = schGetSectionIdx sch₀ nm := by
  rw [schGetSectionIdx, schGetSectionIdx, hattrs]
  refine find?_pred_congr _ _ _ ?_
  intro pr _
  have := hnames pr.2
  cases h1 : sch'.heap.get? pr.2 with
  | none =>
      rw [h1] at this
      cases h2 : sch₀.heap.get? pr.2 with
      | none => rfl
      | some s₂ => rw [h2] at this; cases this
  | some s₁ =>
      rw [h1] at this
      cases h2 : sch₀.heap.get? pr.2 with
      | none => rw [h2] at this; cases this
      | some s₂ =>
          rw [h2] at this
          simp only [Option.map_some', Option.some.injEq] at this
          dsimp only
          rw [this]

theorem SchMid_names (a b : SlotKey) (sch₀ sch' : SchemaE C)
    (doneIdx : List Nat) (h : SchMid a b sch₀ sch' doneIdx) :
    ∀ i, (sch'.heap.get? i).map (fun s => s.name) =
      (sch₀.heap.get? i).map (fun s => s.name) := by
  intro i
  by_cases hd : i ∈ doneIdx
  · obtain ⟨base, sec', hb, hs, hrel⟩ := h.2.2.2.2 i hd
    rw [hb, hs]
    rw [Option.map_some', Option.map_some', hrel.1]
  · rw [h.2.2.2.1 i hd]

theorem schGetSectionIdx_resolve (sch₀ : SchemaE C)
    (doneA restA : List (String × Nat)) (v : String) (i : Nat) (nm : String)
    (hattrs : sch₀.attrs = doneA ++ (v, i) :: restA)
    (hnames : (sch₀.attrs.map
      (fun pr => (sch₀.heap.get? pr.2).bind (fun s => s.name))).Nodup)
    (hsec : (sch₀.heap.get? i).bind (fun s => s.name) = some nm) :
    schGetSectionIdx sch₀ (some nm) = some (v, i) := by
  rw [hattrs, List.map_append, List.nodup_append] at hnames
  cases hg : sch₀.heap.get? i with
  | none =>
      rw [hg] at hsec
      cases hsec
  | some sv =>
      rw [hg] at hsec
      rw [Option.some_bind] at hsec
      rw [schGetSectionIdx, hattrs]
      rw [find?_all_neg_append _ _ _ (by
        intro pr hpr
        cases hgp : sch₀.heap.get? pr.2 with
        | none => rfl
        | some sp =>
            rw [decide_eq_false_iff_not]
            intro hspn
            have hm₁ : some nm ∈ List.map
                (fun pr : String × Nat =>
                  (sch₀.heap.get? pr.2).bind (fun s => s.name)) doneA := by
              have hm := List.mem_map_of_mem
                (fun pr : String × Nat =>
                  (sch₀.heap.get? pr.2).bind (fun s => s.name)) hpr
              dsimp only at hm
              rw [hgp, Option.some_bind, hspn] at hm
              exact hm
            have hm₂ : some nm ∈ List.map
                (fun pr : String × Nat =>
                  (sch₀.heap.get? pr.2).bind (fun s => s.name))
                ((v, i) :: restA) := by
              rw [List.map_cons]
              have he : ((sch₀.heap.get? (v, i).2).bind
                  (fun s => s.name)) = some nm := by
                show ((sch₀.heap.get? i).bind (fun s => s.name)) = some nm
                rw [hg, Option.some_bind, hsec]
              rw [he]
              exact List.mem_cons_self _ _
            exact hnames.2.2 hm₁ hm₂)]
      rw [List.find?_cons_of_pos _ (by
        dsimp only
        rw [show sch₀.heap.get? (v, i).2 = some sv from hg]
        simp [hsec])]
/-- The value string the exporter renders for option `o` from slot `a`. -/
def nfValStr (showC : C → String) (a : SlotKey) (o : OptionE C) : String :=
  match slotsLookup o.oslots a with
  | some osv => osvToString showC osv none
  | none => ""

/-- The full rendered line of option `o`. -/
def optLineOf (showC : C → String) (a : SlotKey) (o : OptionE C) : String :=
  o.key ++ " = " ++ nfValStr showC a o

theorem nfValStr_props (showC : C → String) (a b : SlotKey) (o : OptionE C)
    (hOpt : NFOpt a b o) :
    pstrip (nfValStr showC a o) = nfValStr showC a o ∧
    (if nfValStr showC a o = "" then none else some (nfValStr showC a o)) =
      nfRaw a o ∧
    '\n' ∉ (nfValStr showC a o).data := by
  obtain ⟨-, -, -, ⟨osv, hosv, hval⟩, -⟩ := hOpt
  rw [nfValStr, nfRaw, hosv]
  dsimp only
  cases hin : osv.input with
  | pynone =>
      rw [osvToString.eq_def, hin]
      exact ⟨rfl, rfl, by simp⟩
  | str v =>
      rw [hin] at hval
      obtain ⟨hv1, hv2, hv3⟩ := hval
      rw [osvToString.eq_def, hin]
      dsimp only [pyElemStr]
      exact ⟨hv2, by rw [if_neg hv1], hv3⟩
  | conv c =>
      rw [hin] at hval
      simp only [NFVal] at hval
  | multi xs =>
      rw [hin] at hval
      simp only [NFVal] at hval

theorem startsWith_empty (l : String) : l.startsWith "" = true := by
  simp [String.startsWith, Substring.take, Substring.nextn, BEq.beq,
    Substring.beq, Substring.bsize]
  refine ⟨rfl, ?_⟩
  rw [String.substrEq]
  simp only [Nat.add_zero, Bool.and_eq_true, decide_eq_true_eq]
  refine ⟨⟨?_, ?_⟩, ?_⟩
  · simp [String.toSubstring]
  · simp [String.toSubstring]
  · rw [String.substrEq.loop]
    simp

theorem string_drop_zero (l : String) : l.drop 0 = l := by
  rw [String.drop_eq]
  cases l with
  | mk d => rfl

theorem extractContinuation_empty_pre (l : String) :
    extractContinuation l "" = some l := by
  rw [extractContinuation, if_pos (startsWith_empty l)]
  rw [show ("" : String).length = 0 from rfl, string_drop_zero]

theorem readStep_empty (ks : List SlotKey) (st : RState C) (idx : Nat) :
    readStep defaultRParams ks st idx "" = .ok { st with curOpt := none } := by
  rw [readStep]
  have hcp : checkPossibleContinuation "" st.curOpt.isSome defaultRParams =
      ("", st.curOpt.isSome) := by
    rw [checkPossibleContinuation]
    cases hco : st.curOpt.isSome with
    | false => rw [if_neg (by simp)]
    | true =>
        rw [if_pos ⟨rfl, rfl⟩]
        rw [show defaultRParams.mlPre = "" from rfl,
          extractContinuation_empty_pre]
  rw [hcp]
  dsimp only
  rw [if_pos (show isEmptyEntity "" defaultRParams.ignoreWhitespaceLines =
    true from rfl)]

theorem lookup_isSome_of_mem_fst (l : SlotStore α) (k : SlotKey)
    (h : k ∈ l.map Prod.fst) : (slotsLookup l k).isSome = true := by
  induction l with
  | nil => cases h
  | cons hd t ih =>
      obtain ⟨k₀, v₀⟩ := hd
      rw [List.map_cons] at h
      by_cases hk : k₀ = k
      · rw [slotsLookup, List.find?_cons_of_pos _ (by simp [hk])]
        rfl
      · rw [slotsLookup, List.find?_cons_of_neg _ (by simp [hk])]
        rcases List.mem_cons.1 h with he | ht
        · exact absurd he.symm hk
        · exact ih ht

theorem slotsSetItem_map_fst (l : SlotStore α) (k : SlotKey) (v : α)
    (h : (slotsLookup l k).isSome = true) :
    (slotsSetItem l k v).map Prod.fst = l.map Prod.fst := by
  induction l with
  | nil =>
      rw [slotsLookup, List.find?_nil] at h
      cases h
  | cons hd t ih =>
      obtain ⟨k₀, v₀⟩ := hd
      by_cases hk : k₀ = k
      · rw [slotsSetItem, if_pos hk, List.map_cons, List.map_cons, hk]
      · rw [slotsSetItem, if_neg hk, List.map_cons, List.map_cons]
        rw [slotsLookup, List.find?_cons_of_neg _ (by simp [hk])] at h
        rw [ih h]

theorem schSetStructureItemsSec_nf (sch' : SchemaE C) (i : Nat)
    (a b : SlotKey) (hslots : sch'.slots.map Prod.fst = [a, b]) :
    ∃ sl', schSetStructureItemsSec sch' i [b] =
      .ok { sch' with slots := sl' } ∧ sl'.map Prod.fst = [a, b] := by
  rw [schSetStructureItemsSec]
  have hb : (slotsLookup sch'.slots b).isSome = true :=
    lookup_isSome_of_mem_fst _ _ (by rw [hslots]; simp)
  rw [show slotAccessVerify sch'.slots [b] = .ok () from by
    rw [slotAccessVerify, if_pos (by simp [hb])]]
  simp only [bind, Except.bind]
  rw [List.foldl_cons, List.foldl_nil]
  by_cases hmem : i ∈ (slotsLookup sch'.slots b).getD []
  · rw [if_pos hmem]
    exact ⟨sch'.slots, rfl, hslots⟩
  · rw [if_neg hmem]
    refine ⟨_, rfl, ?_⟩
    rw [slotsSetItem_map_fst _ _ _ hb, hslots]

theorem heapGet_set_self (sch : SchemaE C) (i : Nat) (sec₀ sec : SectionE C)
    (h : sch.heap.get? i = some sec₀) :
    (heapSet sch i sec).heap.get? i = some sec := by
  rw [heapSet]
  rw [List.get?_set_eq_of_lt]
  exact heapGet_lt h

theorem heapGet_set_ne (sch : SchemaE C) (i j : Nat) (sec : SectionE C)
    (h : j ≠ i) : (heapSet sch i sec).heap.get? j = sch.heap.get? j := by
  rw [heapSet]
  exact List.get?_set_ne _ _ (fun hh => h hh.symm)

theorem handleSectionName_nf (a b : SlotKey) (sch' : SchemaE C) (v : String)
    (i : Nat) (nm : String) (base : SectionE C)
    (hres : schGetSectionIdx sch' (some nm) = some (v, i))
    (hslots : sch'.slots.map Prod.fst = [a, b])
    (hheap : sch'.heap.get? i = some base)
    (hb : slotsLookup base.sslots b = none) :
    ∃ sl', handleSectionName sch' nm defaultRParams [b] =
      .ok (heapSet { sch' with slots := sl' } i
        { base with sslots := base.sslots ++ [(b, [])] }, some i) ∧
      sl'.map Prod.fst = [a, b] := by
  obtain ⟨sl', hset, hsl'⟩ := schSetStructureItemsSec_nf sch' i a b hslots
  refine ⟨sl', ?_, hsl'⟩
  rw [handleSectionName]
  rw [hres]
  simp only [bind, Except.bind]
  rw [hset]
  dsimp only
  have hheap₁ : ({ sch' with slots := sl' } : SchemaE C).heap.get? i =
      some base := hheap
  rw [heapModify, hheap₁]
  dsimp only
  rw [show secAddSlots base [b] true =
      .ok { base with sslots := base.sslots ++ [(b, [])] } from by
    rw [secAddSlots, slotsAdd, List.foldlM_cons]
    rw [show (slotsLookup base.sslots b).isSome = false from by
      rw [hb]; rfl]
    rfl]
  rfl

theorem flush_ok (sch' : SchemaE C) (j : Nat) (secJ : SectionE C)
    (cs : List SItem) (b : SlotKey)
    (hheap : sch'.heap.get? j = some secJ)
    (hbelong : cs.all (fun it => match it with
      | .opt k => (secFindOpt secJ k).isSome
      | .cmt i => (secJ.comments.lookup i).isSome) = true) :
    heapModify sch' j (fun sec => secSetStructure sec cs true [b]) =
      .ok (heapSet sch' j
        { secJ with sslots := slotsSetItem secJ.sslots b cs }) := by
  rw [heapModify, hheap]
  dsimp only
  rw [secSetStructure, if_pos hbelong, setSlotsV_single]
  rfl

theorem readStep_optline (showC : C → String) (a b : SlotKey)
    (sch : SchemaE C) (si : Nat) (cs : List SItem) (idx : Nat)
    (sec' base : SectionE C) (done rem : List (OptionE C)) (o : OptionE C)
    (hheap : sch.heap.get? si = some sec')
    (hops : base.opts = done ++ o :: rem)
    (hnd : (base.opts.map (fun x => x.key)).Nodup)
    (hOpt : NFOpt a b o)
    (hmid : SecMidL a b done (o :: rem) base sec') :
    ∃ sec'', readStep defaultRParams [b]
        ⟨sch, some si, none, cs⟩ idx (optLineOf showC a o) =
      .ok ⟨heapSet sch si sec'', some si, some (si, o.key),
        cs ++ [SItem.opt o.key]⟩ ∧
      SecMidL a b (done ++ [o]) rem base sec'' := by
  obtain ⟨sec'', hho, hmid'⟩ := handleOption_nf defaultRParams a b base sec'
    done rem o hops hnd hOpt hmid
  refine ⟨sec'', ?_, hmid'⟩
  have hkey : NFKey o.key := hOpt.2.2.1
  have hvp := nfValStr_props showC a b o hOpt
  rw [readStep]
  rw [show checkPossibleContinuation (optLineOf showC a o)
      (⟨sch, some si, none, cs⟩ : RState C).curOpt.isSome defaultRParams =
      (optLineOf showC a o, false) from by
    rw [checkPossibleContinuation, if_neg (by simp)]]
  dsimp only
  rw [optLineOf]
  rw [show isEmptyEntity (o.key ++ " = " ++ nfValStr showC a o)
      defaultRParams.ignoreWhitespaceLines = false from
    isEmptyEntity_optline o.key _ hkey]
  rw [if_neg (by simp)]
  rw [if_pos (Or.inl (by simp))]
  rw [extractSectionName_optline o.key _ hkey]
  dsimp only
  rw [readStepComment]
  rw [if_pos (Or.inl (by simp))]
  rw [show extractCommentE (o.key ++ " = " ++ nfValStr showC a o)
      defaultRParams.commentPres = .ok none from
    extractCommentE_optline o.key _ hkey]
  dsimp only
  rw [readStepOption]
  rw [if_pos (Or.inl (by simp))]
  rw [show extractOption (o.key ++ " = " ++ nfValStr showC a o)
      defaultRParams.optionDelims = some (o.key, nfRaw a o) from by
    rw [show defaultRParams.optionDelims = ["="] from rfl]
    rw [extractOption_render o.key _ hkey hvp.1, hvp.2.1]]
  dsimp only
  rw [show (⟨sch, some si, none, cs⟩ : RState C).sch.heap.get? si =
    some sec' from hheap]
  dsimp only
  rw [hho]

theorem readStep_header_noflush (a b : SlotKey) (sch' : SchemaE C)
    (cso : Option Nat) (cs : List SItem) (idx : Nat) (nm : String)
    (v : String) (i : Nat) (base : SectionE C)
    (hnf : cso = none ∨ cs = [])
    (hname : NFName nm)
    (hres : schGetSectionIdx sch' (some nm) = some (v, i))
    (hslots : sch'.slots.map Prod.fst = [a, b])
    (hheap : sch'.heap.get? i = some base)
    (hb : slotsLookup base.sslots b = none) :
    ∃ sl', readStep defaultRParams [b] ⟨sch', cso, none, cs⟩ idx
        ("[" ++ nm ++ "]") =
      .ok ⟨heapSet { sch' with slots := sl' } i
        { base with sslots := base.sslots ++ [(b, [])] }, some i, none, cs⟩ ∧
      sl'.map Prod.fst = [a, b] := by
  obtain ⟨sl', hhsn, hsl'⟩ := handleSectionName_nf a b sch' v i nm base
    hres hslots hheap hb
  refine ⟨sl', ?_, hsl'⟩
  rw [readStep]
  rw [show checkPossibleContinuation ("[" ++ nm ++ "]")
      (⟨sch', cso, none, cs⟩ : RState C).curOpt.isSome defaultRParams =
      ("[" ++ nm ++ "]", false) from by
    rw [checkPossibleContinuation, if_neg (by simp)]]
  dsimp only
  rw [show isEmptyEntity ("[" ++ nm ++ "]")
      defaultRParams.ignoreWhitespaceLines = false from
    isEmptyEntity_header nm]
  rw [if_neg (by simp)]
  rw [if_pos (Or.inl (by simp))]
  rw [hname.2]
  dsimp only
  rw [readStepSection]
  cases hnf with
  | inl hcn =>
      subst hcn
      dsimp only
      rw [readStepSectionGo, hhsn]
  | inr hce =>
      subst hce
      cases cso with
      | none =>
          dsimp only
          rw [readStepSectionGo, hhsn]
      | some j =>
          dsimp only
          rw [if_neg (by simp)]
          rw [readStepSectionGo, hhsn]

theorem readStep_header_flush (a b : SlotKey) (sch' sch₁ : SchemaE C)
    (j : Nat) (secJ : SectionE C) (cs : List SItem) (idx : Nat)
    (nm : String) (v : String) (i : Nat) (base : SectionE C)
    (hcs : cs ≠ [])
    (hheapJ : sch'.heap.get? j = some secJ)
    (hbelong : cs.all (fun it => match it with
      | .opt k => (secFindOpt secJ k).isSome
      | .cmt ci => (secJ.comments.lookup ci).isSome) = true)
    (hsch₁ : sch₁ = heapSet sch' j
      { secJ with sslots := slotsSetItem secJ.sslots b cs })
    (hname : NFName nm)
    (hres : schGetSectionIdx sch₁ (some nm) = some (v, i))
    (hslots : sch₁.slots.map Prod.fst = [a, b])
    (hheap : sch₁.heap.get? i = some base)
    (hb : slotsLookup base.sslots b = none) :
    ∃ sl', readStep defaultRParams [b] ⟨sch', some j, none, cs⟩ idx
        ("[" ++ nm ++ "]") =
      .ok ⟨heapSet { sch₁ with slots := sl' } i
        { base with sslots := base.sslots ++ [(b, [])] }, some i, none, []⟩ ∧
      sl'.map Prod.fst = [a, b] := by
  obtain ⟨sl', hhsn, hsl'⟩ := handleSectionName_nf a b sch₁ v i nm base
    hres hslots hheap hb
  refine ⟨sl', ?_, hsl'⟩
  rw [readStep]
  rw [show checkPossibleContinuation ("[" ++ nm ++ "]")
      (⟨sch', some j, none, cs⟩ : RState C).curOpt.isSome defaultRParams =
      ("[" ++ nm ++ "]", false) from by
    rw [checkPossibleContinuation, if_neg (by simp)]]
  dsimp only
  rw [show isEmptyEntity ("[" ++ nm ++ "]")
      defaultRParams.ignoreWhitespaceLines = false from
    isEmptyEntity_header nm]
  rw [if_neg (by simp)]
  rw [if_pos (Or.inl (by simp))]
  rw [hname.2]
  dsimp only
  rw [readStepSection]
  dsimp only
  rw [if_pos (by simp [hcs])]
  rw [flush_ok sch' j secJ cs b hheapJ hbelong]
  dsimp only
  rw [show (heapSet sch' j
      { secJ with sslots := slotsSetItem secJ.sslots b cs }) = sch₁ from
    hsch₁.symm]
  rw [readStepSectionGo.eq_def]
  dsimp only
  rw [hhsn]

theorem readLinesStep_ok (p : RParams) (ks : List SlotKey) (st st' : RState C)
    (i : Nat) (l : String) (h : readStep p ks st i l = .ok st') :
    readLinesStep p ks (st, none) (i, l) = (st', none) := by
  rw [readLinesStep]
  dsimp only
  rw [h]

theorem processOpts (showC : C → String) (a b : SlotKey)
    (base : SectionE C)
    (hnd : (base.opts.map (fun x => x.key)).Nodup)
    (hallNF : ∀ o ∈ base.opts, NFOpt a b o) :
    ∀ (rem done : List (OptionE C)), base.opts = done ++ rem →
    ∀ (sch : SchemaE C) (si : Nat) (sec' : SectionE C) (cs : List SItem),
      sch.heap.get? si = some sec' →
      SecMidL a b done rem base sec' →
      ∀ il : List (Nat × String),
        il.map Prod.snd =
          (rem.map (fun o => [optLineOf showC a o, ""])).flatten →
        ∃ (schF : SchemaE C) (sec'' : SectionE C),
          il.foldl (readLinesStep defaultRParams [b])
              (⟨sch, some si, none, cs⟩, none) =
            (⟨schF, some si, none,
              cs ++ rem.map (fun o => SItem.opt o.key)⟩, none) ∧
          schF.heap.get? si = some sec'' ∧
          (∀ j, j ≠ si → schF.heap.get? j = sch.heap.get? j) ∧
          schF.slots = sch.slots ∧ schF.attrs = sch.attrs ∧
          schF.heap.length = sch.heap.length ∧
          SecMidL a b (done ++ rem) [] base sec'' := by
  intro rem
  induction rem with
  | nil =>
      intro done hops sch si sec' cs hheap hmid il hil
      rw [List.map_nil, List.flatten_nil] at hil
      rw [List.map_eq_nil] at hil
      subst hil
      refine ⟨sch, sec', ?_, hheap, fun j _ => rfl, rfl, rfl, rfl, ?_⟩
      · rw [List.foldl_nil, List.map_nil, List.append_nil]
      · rw [List.append_nil]
        exact hmid
  | cons o rem' ih =>
      intro done hops sch si sec' cs hheap hmid il hil
      rw [List.map_cons, List.flatten_cons, List.cons_append,
        List.cons_append, List.nil_append] at hil
      cases il with
      | nil => exact absurd hil (by simp)
      | cons p₁ t₁ =>
          obtain ⟨i₁, l₁⟩ := p₁
          cases t₁ with
          | nil =>
              rw [List.map_cons, List.map_nil] at hil
              injection hil with h₁ h₂
              exact absurd h₂ (by simp)
          | cons p₂ il₂ =>
              obtain ⟨i₂, l₂⟩ := p₂
              rw [List.map_cons, List.map_cons] at hil
              injection hil with h₁ hil
              injection hil with h₂ hil
              dsimp only at h₁ h₂
              subst h₁
              subst h₂
              obtain ⟨sec₁, hstep, hmid₁⟩ := readStep_optline showC a b sch
                si cs i₁ sec' base done rem' o hheap hops hnd
                (hallNF o (by rw [hops]; simp)) hmid
              obtain ⟨schF, sec'', hfold, hgF, hoF, hslF, hatF, hlenF,
                hmidF⟩ := ih (done ++ [o]) (by rw [hops]; simp)
                (heapSet sch si sec₁) si sec₁ (cs ++ [SItem.opt o.key])
                (heapGet_set_self sch si sec' sec₁ hheap) hmid₁ il₂ hil
              refine ⟨schF, sec'', ?_, hgF, ?_, ?_, ?_, ?_, ?_⟩
              · rw [List.foldl_cons, readLinesStep_ok _ _ _ _ _ _ hstep]
                rw [List.foldl_cons, readLinesStep_ok _ _ _ _ _ _
                  (readStep_empty [b] _ i₂)]
                show List.foldl (readLinesStep defaultRParams [b])
                  ((⟨heapSet sch si sec₁, some si, none,
                    cs ++ [SItem.opt o.key]⟩ : RState C), none) il₂ = _
                rw [hfold]
                rw [List.map_cons]
                rw [show cs ++ SItem.opt o.key ::
                    List.map (fun o => SItem.opt o.key) rem' =
                  (cs ++ [SItem.opt o.key]) ++
                    List.map (fun o => SItem.opt o.key) rem' from by simp]
              · intro j hj
                rw [hoF j hj, heapGet_set_ne sch si j sec₁ hj]
              · rw [hslF]; rfl
              · rw [hatF]; rfl
              · rw [hlenF, heapSet, List.length_set]
              · rw [show done ++ o :: rem' = (done ++ [o]) ++ rem' from by
                  simp]
                exact hmidF
/-- The rendered lines of one section block. -/
def secLinesOf (showC : C → String) (a : SlotKey) (base : SectionE C) :
    List String :=
  ["[" ++ base.name.getD "" ++ "]", ""] ++
    (base.opts.map (fun o => [optLineOf showC a o, ""])).flatten

/-- The rendered lines of the blocks of the given attribute suffix. -/
def blocksLinesOf (showC : C → String) (a : SlotKey) (sch₀ : SchemaE C)
    (restA : List (String × Nat)) : List String :=
  (restA.map (fun pr => match sch₀.heap.get? pr.2 with
    | some base => secLinesOf showC a base
    | none => [])).flatten

/-- The reader state allowed at a block boundary: either nothing read yet,
or the current section is a fully read one and the accumulated structure is
exactly its option items. -/
def BoundaryOK (sch₀ : SchemaE C) (doneIdx : List Nat) (cso : Option Nat)
    (cs : List SItem) : Prop :=
  (cso = none ∧ cs = []) ∨
  (∃ j base, cso = some j ∧ j ∈ doneIdx ∧ sch₀.heap.get? j = some base ∧
    cs = base.opts.map (fun o => SItem.opt o.key))

theorem processBlocks (showC : C → String) (a b : SlotKey)
    (sch₀ : SchemaE C)
    (hnames : (sch₀.attrs.map
      (fun pr => (sch₀.heap.get? pr.2).bind (fun s => s.name))).Nodup)
    (hidx : (sch₀.attrs.map Prod.snd).Nodup)
    (hsecsNF : ∀ pr ∈ sch₀.attrs, ∃ sec,
      sch₀.heap.get? pr.2 = some sec ∧ NFSec a b sec) :
    ∀ (restA doneA : List (String × Nat)), sch₀.attrs = doneA ++ restA →
    ∀ (sch' : SchemaE C) (cso : Option Nat) (cs : List SItem),
      SchMid a b sch₀ sch' (doneA.map Prod.snd) →
      BoundaryOK sch₀ (doneA.map Prod.snd) cso cs →
      ∀ il : List (Nat × String),
        il.map Prod.snd = blocksLinesOf showC a sch₀ restA →
        ∃ (schF : SchemaE C) (csoF : Option Nat) (csF : List SItem),
          il.foldl (readLinesStep defaultRParams [b])
              (⟨sch', cso, none, cs⟩, none) =
            (⟨schF, csoF, none, csF⟩, none) ∧
          SchMid a b sch₀ schF
            (doneA.map Prod.snd ++ restA.map Prod.snd) := by
  intro restA
  induction restA with
  | nil =>
      intro doneA hattrs sch' cso cs hmid hbd il hil
      rw [blocksLinesOf, List.map_nil, List.flatten_nil,
        List.map_eq_nil] at hil
      subst hil
      refine ⟨sch', cso, cs, ?_, ?_⟩
      · rw [List.foldl_nil]
      · rw [List.map_nil, List.append_nil]
        exact hmid
  | cons pr restA' ih =>
      intro doneA hattrs sch' cso cs hmid hbd il hil
      obtain ⟨v, i⟩ := pr
      have hprmem : ((v, i) : String × Nat) ∈ sch₀.attrs := by
        rw [hattrs]
        exact List.mem_append_right _ (List.mem_cons_self _ _)
      obtain ⟨base, hbase, hNFS⟩ := hsecsNF (v, i) hprmem
      obtain ⟨⟨nm, hnm, hname⟩, hud, hstr, hnd, hallNF, hsb⟩ := hNFS
      have hinotdone : i ∉ doneA.map Prod.snd := by
        intro hmem
        rw [hattrs, List.map_append, List.map_cons, List.nodup_append]
          at hidx
        exact hidx.2.2 hmem (List.mem_cons_self _ _)
      have hresolve : schGetSectionIdx sch₀ (some nm) = some (v, i) := by
        refine schGetSectionIdx_resolve sch₀ doneA restA' v i nm hattrs
          hnames ?_
        rw [hbase, Option.some_bind, hnm]
      rw [blocksLinesOf, List.map_cons, List.flatten_cons] at hil
      rw [show (match sch₀.heap.get? (v, i).2 with
        | some base => secLinesOf showC a base
        | none => []) = secLinesOf showC a base from by rw [hbase]] at hil
      rw [secLinesOf, hnm, Option.getD_some] at hil
      rw [List.cons_append, List.cons_append, List.cons_append,
        List.nil_append] at hil
      cases il with
      | nil => exact absurd hil (by simp)
      | cons p₁ t₁ =>
          obtain ⟨i₁, l₁⟩ := p₁
          cases t₁ with
          | nil =>
              rw [List.map_cons, List.map_nil] at hil
              injection hil with h₁ h₂
              exact absurd h₂ (by simp)
          | cons p₂ t₂ =>
              obtain ⟨i₂, l₂⟩ := p₂
              rw [List.map_cons, List.map_cons] at hil
              injection hil with h₁ hil
              injection hil with h₂ hil
              dsimp only at h₁ h₂
              subst h₁
              subst h₂
              obtain ⟨ilOpts, ilNext, hsplit, hmOpts, hmNext⟩ :=
                List.append_eq_map_iff.mp hil.symm
              subst hsplit
              -- the header step, by boundary case
              have hcongr : ∀ schX : SchemaE C,
                  SchMid a b sch₀ schX (doneA.map Prod.snd) →
                  schGetSectionIdx schX (some nm) = some (v, i) := by
                intro schX hmidX
                rw [schGetSectionIdx_congr sch₀ schX (some nm) hmidX.1
                  (SchMid_names a b sch₀ schX _ hmidX)]
                exact hresolve
              have hheapPre : ∀ schX : SchemaE C,
                  SchMid a b sch₀ schX (doneA.map Prod.snd) →
                  schX.heap.get? i = some base := by
                intro schX hmidX
                exact (hmidX.2.2.2.1 i hinotdone).trans hbase
              have hkey : ∃ (schPre : SchemaE C) (sl' : SlotStore (List Nat)),
                  SchMid a b sch₀ schPre (doneA.map Prod.snd) ∧
                  readStep defaultRParams [b]
                      ⟨sch', cso, none, cs⟩ i₁ ("[" ++ nm ++ "]") =
                    .ok ⟨heapSet { schPre with slots := sl' } i
                      { base with sslots := base.sslots ++ [(b, [])] },
                      some i, none, []⟩ ∧
                    sl'.map Prod.fst = [a, b] := by
                rcases hbd with ⟨hcso, hcse⟩ |
                  ⟨j, baseJ, hcso, hjdone, hbaseJ, hcse⟩
                · subst hcso
                  subst hcse
                  obtain ⟨sl', hh, hsl'⟩ := readStep_header_noflush a b sch'
                    none [] i₁ nm v i base (Or.inl rfl) hname
                    (hcongr sch' hmid) hmid.2.1 (hheapPre sch' hmid) hsb
                  exact ⟨sch', sl', hmid, hh, hsl'⟩
                · subst hcso
                  by_cases hce : cs = []
                  · subst hce
                    obtain ⟨sl', hh, hsl'⟩ := readStep_header_noflush a b
                      sch' (some j) [] i₁ nm v i base (Or.inr rfl) hname
                      (hcongr sch' hmid) hmid.2.1 (hheapPre sch' hmid) hsb
                    exact ⟨sch', sl', hmid, hh, hsl'⟩
                  · obtain ⟨baseJ', secJ, hbJ0, hbJ', hrelJ⟩ :=
                      hmid.2.2.2.2 j hjdone
                    have hbJeq : baseJ' = baseJ := by
                      rw [hbaseJ] at hbJ0
                      exact ((Option.some.injEq _ _).mp hbJ0).symm
                    subst hbJeq
                    have hoptsJ : secJ.opts =
                        baseJ'.opts.map (readBackOpt a b) := by
                      have := hrelJ.2.2.2.2.1
                      rw [List.append_nil] at this
                      exact this
                    have hbelong : cs.all (fun it => match it with
                        | .opt k => (secFindOpt secJ k).isSome
                        | .cmt ci => (secJ.comments.lookup ci).isSome) =
                        true := by
                      rw [List.all_eq_true]
                      intro it hit
                      rw [hcse, List.mem_map] at hit
                      obtain ⟨o, ho, hito⟩ := hit
                      subst hito
                      show (secFindOpt secJ o.key).isSome = true
                      rw [secFindOpt, hoptsJ]
                      rw [List.find?_isSome]
                      exact ⟨readBackOpt a b o, List.mem_map_of_mem _ ho,
                        by rw [readBackOpt_key]; simp⟩
                    have hmid₁ : SchMid a b sch₀
                        (heapSet sch' j { secJ with
                          sslots := slotsSetItem secJ.sslots b cs })
                        (doneA.map Prod.snd) := by
                      refine ⟨hmid.1, hmid.2.1, ?_, ?_, ?_⟩
                      · rw [show (heapSet sch' j { secJ with
                            sslots := slotsSetItem secJ.sslots b cs
                          }).heap.length = sch'.heap.length from by
                          rw [heapSet, List.length_set]]
                        exact hmid.2.2.1
                      · intro k hk
                        have hkj : k ≠ j := fun he => hk (he ▸ hjdone)
                        rw [heapGet_set_ne sch' j k _ hkj]
                        exact hmid.2.2.2.1 k hk
                      · intro k hkd
                        by_cases hkj : k = j
                        · subst hkj
                          refine ⟨baseJ', _,
                            hbaseJ, heapGet_set_self sch' k secJ _ hbJ',
                            ?_, ?_, ?_, ?_, ?_, ?_⟩
                          · exact hrelJ.1
                          · exact hrelJ.2.1
                          · exact hrelJ.2.2.1
                          · exact hrelJ.2.2.2.1
                          · exact hrelJ.2.2.2.2.1
                          · exact lookup_setItem_isSome _ _ _ _
                              hrelJ.2.2.2.2.2
                        · obtain ⟨bk, sk, h1, h2, h3⟩ :=
                            hmid.2.2.2.2 k hkd
                          exact ⟨bk, sk, h1,
                            (heapGet_set_ne sch' j k _ hkj).trans h2, h3⟩
                    obtain ⟨sl', hh, hsl'⟩ := readStep_header_flush a b sch'
                      (heapSet sch' j { secJ with
                        sslots := slotsSetItem secJ.sslots b cs })
                      j secJ cs i₁ nm v i base hce hbJ' hbelong rfl hname
                      (hcongr _ hmid₁) hmid₁.2.1 (hheapPre _ hmid₁) hsb
                    exact ⟨_, sl', hmid₁, hh, hsl'⟩
              obtain ⟨schPre, sl', hmidPre, hhdr, hsl'⟩ := hkey
              have hheapH : (heapSet { schPre with slots := sl' } i
                  { base with sslots := base.sslots ++ [(b, [])] }
                  ).heap.get? i =
                  some { base with sslots := base.sslots ++ [(b, [])] } :=
                heapGet_set_self _ i base _ (hheapPre schPre hmidPre)
              have hmidStart : SecMidL a b [] base.opts base
                  { base with sslots := base.sslots ++ [(b, [])] } := by
                refine ⟨rfl, rfl, rfl, rfl, by simp, ?_⟩
                rw [show slotsLookup (base.sslots ++ [(b, [])]) b =
                  some [] from slotsLookup_append_none_self _ _ _ hsb]
                rfl
              obtain ⟨schF₃, sec'', hfold₃, hg₃, ho₃, hsl₃, hat₃, hlen₃,
                hmidSec⟩ := processOpts showC a b base hnd hallNF
                base.opts [] (by simp)
                (heapSet { schPre with slots := sl' } i
                  { base with sslots := base.sslots ++ [(b, [])] })
                i { base with sslots := base.sslots ++ [(b, [])] } []
                hheapH hmidStart ilOpts hmOpts
              rw [List.nil_append] at hmidSec
              have hmidNew : SchMid a b sch₀ schF₃
                  (doneA.map Prod.snd ++ [i]) := by
                refine ⟨?_, ?_, ?_, ?_, ?_⟩
                · rw [hat₃]
                  exact hmidPre.1
                · rw [hsl₃]
                  exact hsl'
                · rw [hlen₃]
                  rw [show (heapSet { schPre with slots := sl' } i
                      { base with sslots := base.sslots ++ [(b, [])] }
                    ).heap.length = schPre.heap.length from by
                    rw [heapSet, List.length_set]]
                  exact hmidPre.2.2.1
                · intro k hk
                  have hki : k ≠ i := fun he => hk (by
                    rw [he]
                    exact List.mem_append_right _ (List.mem_singleton_self i))
                  have hkd : k ∉ doneA.map Prod.snd := fun hm =>
                    hk (List.mem_append_left _ hm)
                  rw [ho₃ k hki]
                  rw [show (heapSet { schPre with slots := sl' } i
                      { base with sslots := base.sslots ++ [(b, [])] }
                    ).heap.get? k = schPre.heap.get? k from
                    heapGet_set_ne _ i k _ hki]
                  exact hmidPre.2.2.2.1 k hkd
                · intro k hkmem
                  rcases List.mem_append.1 hkmem with hkd | hki
                  · have hkni : k ≠ i := fun he => hinotdone (he ▸ hkd)
                    obtain ⟨bk, sk, h1, h2, h3⟩ :=
                      hmidPre.2.2.2.2 k hkd
                    refine ⟨bk, sk, h1, ?_, h3⟩
                    rw [ho₃ k hkni]
                    rw [show (heapSet { schPre with slots := sl' } i
                        { base with sslots := base.sslots ++ [(b, [])] }
                      ).heap.get? k = schPre.heap.get? k from
                      heapGet_set_ne _ i k _ hkni]
                    exact h2
                  · rw [List.mem_singleton] at hki
                    subst hki
                    exact ⟨base, sec'', hbase, hg₃, hmidSec⟩
              have hbdNew : BoundaryOK sch₀ (doneA.map Prod.snd ++ [i])
                  (some i) (base.opts.map (fun o => SItem.opt o.key)) :=
                Or.inr ⟨i, base, rfl,
                  List.mem_append_right _ (List.mem_singleton_self i),
                  hbase, rfl⟩
              have hattrs' : sch₀.attrs = (doneA ++ [(v, i)]) ++ restA' := by
                rw [hattrs]
                simp
              have hmidNew' : SchMid a b sch₀ schF₃
                  ((doneA ++ [(v, i)]).map Prod.snd) := by
                rw [List.map_append]
                exact hmidNew
              have hbdNew' : BoundaryOK sch₀
                  ((doneA ++ [(v, i)]).map Prod.snd) (some i)
                  (base.opts.map (fun o => SItem.opt o.key)) := by
                rw [List.map_append]
                exact hbdNew
              obtain ⟨schF, csoF, csF, hfoldF, hmidF⟩ := ih
                (doneA ++ [(v, i)]) hattrs' schF₃ (some i)
                (base.opts.map (fun o => SItem.opt o.key))
                hmidNew' hbdNew' ilNext hmNext
              refine ⟨schF, csoF, csF, ?_, ?_⟩
              · rw [List.foldl_cons, readLinesStep_ok _ _ _ _ _ _ hhdr]
                rw [List.foldl_cons, readLinesStep_ok _ _ _ _ _ _
                  (readStep_empty [b] _ i₂)]
                show List.foldl (readLinesStep defaultRParams [b])
                  ((⟨heapSet { schPre with slots := sl' } i
                    { base with sslots := base.sslots ++ [(b, [])] },
                    some i, none, []⟩ : RState C), none)
                  (ilOpts ++ ilNext) = _
                rw [List.foldl_append, hfold₃]
                rw [show ([] : List SItem) ++
                  base.opts.map (fun o => SItem.opt o.key) =
                  base.opts.map (fun o => SItem.opt o.key) from
                  List.nil_append _]
                exact hfoldF
              · have := hmidF
                rw [List.map_append] at this
                rw [List.map_cons]
                rw [show doneA.map Prod.snd ++ i :: restA'.map Prod.snd =
                  (doneA.map Prod.snd ++ [(v, i).2]) ++
                    restA'.map Prod.snd from by simp]
                exact this

theorem freshSlotKey_singleton (ak : SlotKey) (sl : List Nat) :
    Sum.inl (freshSlotKey [(ak, sl)]) ≠ ak ∧
    slotsLookup [(ak, sl)] (Sum.inl (freshSlotKey [(ak, sl)])) = none := by
  by_cases h1 : ak = Sum.inl 1
  · subst h1
    have hfresh : freshSlotKey [((Sum.inl 1 : SlotKey), sl)] = 2 := rfl
    rw [hfresh]
    exact ⟨by simp, rfl⟩
  · have hlookup1 : slotsLookup [(ak, sl)] (Sum.inl 1) = none := by
      rw [slotsLookup, List.find?_cons_of_neg _ (by
        simp only [decide_eq_true_eq]
        exact h1), List.find?_nil]
      rfl
    have hfresh : freshSlotKey [(ak, sl)] = 1 := by
      rw [freshSlotKey]
      rw [show List.range ([(ak, sl)].length + 1) = [0, 1] from rfl]
      rw [List.find?_cons_of_pos _ (by
        show (slotsLookup [(ak, sl)]
          (Sum.inl (Int.ofNat ([(ak, sl)].length + 0)))).isNone = true
        rw [show Sum.inl (Int.ofNat ([(ak, sl)].length + 0)) =
          (Sum.inl 1 : SlotKey) from rfl]
        rw [hlookup1]
        rfl)]
      rfl
    rw [hfresh]
    exact ⟨fun h => h1 h.symm, hlookup1⟩

theorem renderD_eq (showC : C → String) (a : SlotKey) (sch : SchemaE C) :
    renderD showC a sch = (schGetSectionsForExport sch false).map
      (fun sec => (sec.name.getD "",
        sec.opts.map fun o => (o.key, nfValStr showC a o))) := rfl

theorem rdSecLines_secLinesOf (showC : C → String) (a : SlotKey)
    (sec : SectionE C) :
    rdSecLines (sec.name.getD "",
        sec.opts.map fun o => (o.key, nfValStr showC a o)) =
      secLinesOf showC a sec := by
  rw [rdSecLines, secLinesOf, List.map_map]
  rfl

theorem exportSections_cons (X : SchemaE C) (pr : String × Nat)
    (t : List (String × Nat)) (sec : SectionE C)
    (hg : X.heap.get? pr.2 = some sec) (hu : sec.undef = false) :
    schGetSectionsForExport { X with attrs := pr :: t } false =
      sec :: schGetSectionsForExport { X with attrs := t } false := by
  rw [schGetSectionsForExport, schGetSectionsForExport]
  show List.filterMap _ (pr :: t) = sec :: List.filterMap _ t
  apply List.filterMap_cons_some
  show (match X.heap.get? pr.2 with
    | some s => if false = true ∨ ¬ s.undef = true then some s else none
    | none => none) = some sec
  rw [hg]
  dsimp only
  rw [if_pos (Or.inr (by simp [hu]))]

theorem rdLines_blocks_aux (showC : C → String) (a : SlotKey)
    (sch : SchemaE C) :
    ∀ l : List (String × Nat),
      (∀ pr ∈ l, ∃ sec, sch.heap.get? pr.2 = some sec ∧
        sec.undef = false) →
      rdLines ((schGetSectionsForExport { sch with attrs := l } false).map
        (fun sec => (sec.name.getD "",
          sec.opts.map fun o => (o.key, nfValStr showC a o)))) =
      blocksLinesOf showC a sch l := by
  intro l
  induction l with
  | nil => intro _; rfl
  | cons pr t ih =>
      intro h
      obtain ⟨sec, hg, hu⟩ := h pr (List.mem_cons_self _ _)
      rw [exportSections_cons sch pr t sec hg hu, List.map_cons]
      have hrd : ∀ (x : String × List (String × String))
          (xs : List (String × List (String × String))),
          rdLines (x :: xs) = rdSecLines x ++ rdLines xs := fun x xs => rfl
      rw [hrd, rdSecLines_secLinesOf showC a sec,
        ih (fun pr' hpr' => h pr' (List.mem_cons_of_mem _ hpr'))]
      have hbl : blocksLinesOf showC a sch (pr :: t) =
          secLinesOf showC a sec ++ blocksLinesOf showC a sch t := by
        rw [blocksLinesOf, blocksLinesOf, List.map_cons, List.flatten_cons,
          hg]
      rw [hbl]

theorem rdLines_renderD (showC : C → String) (a : SlotKey) (sch : SchemaE C)
    (h : ∀ pr ∈ sch.attrs, ∃ sec, sch.heap.get? pr.2 = some sec ∧
      sec.undef = false) :
    rdLines (renderD showC a sch) = blocksLinesOf showC a sch sch.attrs := by
  rw [renderD_eq]
  exact rdLines_blocks_aux showC a sch sch.attrs h

theorem optLineOf_no_nl (showC : C → String) (a b : SlotKey) (o : OptionE C)
    (hOpt : NFOpt a b o) : '\n' ∉ (optLineOf showC a o).data := by
  have hv := (nfValStr_props showC a b o hOpt).2.2
  have hk := hOpt.2.2.1.2
  intro hmem
  rw [optLineOf] at hmem
  simp only [String.data_append, List.mem_append] at hmem
  rcases hmem with (hk' | hsp) | hv'
  · exact absurd (List.all_eq_true.mp hk _ hk') (by decide)
  · exact absurd hsp (by decide)
  · exact hv hv'

theorem secLinesOf_no_nl (showC : C → String) (a b : SlotKey)
    (base : SectionE C) (hNFS : NFSec a b base) :
    ∀ s ∈ secLinesOf showC a base, '\n' ∉ s.data := by
  obtain ⟨⟨nm, hnm, hname⟩, -, -, -, hallNF, -⟩ := hNFS
  intro s hs
  rw [secLinesOf] at hs
  rcases List.mem_append.1 hs with hh | hfl
  · simp only [List.mem_cons, List.mem_singleton, List.not_mem_nil,
      or_false] at hh
    rcases hh with he | he
    · subst he
      rw [hnm, Option.getD_some]
      intro hmem
      simp only [String.data_append, List.mem_append] at hmem
      rcases hmem with (hbr | hnmem) | hbr2
      · exact absurd hbr (by decide)
      · exact hname.1 hnmem
      · exact absurd hbr2 (by decide)
    · subst he
      simp
  · obtain ⟨blk, hblk, hsblk⟩ := List.mem_flatten.1 hfl
    obtain ⟨o, ho, hoeq⟩ := List.mem_map.1 hblk
    subst hoeq
    simp only [List.mem_cons, List.mem_singleton, List.not_mem_nil,
      or_false] at hsblk
    rcases hsblk with he | he
    · subst he
      exact optLineOf_no_nl showC a b o (hallNF o ho)
    · subst he
      simp

theorem blocksLinesOf_no_nl (showC : C → String) (a b : SlotKey)
    (sch : SchemaE C)
    (hsecsNF : ∀ pr ∈ sch.attrs, ∃ sec, sch.heap.get? pr.2 = some sec ∧
      NFSec a b sec) :
    ∀ s ∈ blocksLinesOf showC a sch sch.attrs, '\n' ∉ s.data := by
  intro s hs
  rw [blocksLinesOf] at hs
  obtain ⟨blk, hblk, hsblk⟩ := List.mem_flatten.1 hs
  obtain ⟨pr, hpr, hpreq⟩ := List.mem_map.1 hblk
  obtain ⟨sec, hg, hNFS⟩ := hsecsNF pr hpr
  rw [hg] at hpreq
  subst hpreq
  exact secLinesOf_no_nl showC a b sec hNFS s hsblk

theorem secFindOpt_self (sec : SectionE C)
    (hnd : (sec.opts.map (fun o => o.key)).Nodup) (o : OptionE C)
    (ho : o ∈ sec.opts) : secFindOpt sec o.key = some o := by
  rw [secFindOpt]
  have hgen : ∀ l : List (OptionE C), (l.map (fun o => o.key)).Nodup →
      o ∈ l → l.find? (fun x => x.key = o.key) = some o := by
    intro l
    induction l with
    | nil => intro _ h; cases h
    | cons hd t ih =>
        intro hnd' hmem
        rcases List.mem_cons.1 hmem with he | ht
        · subst he
          rw [List.find?_cons_of_pos _ (by simp)]
        · rw [List.map_cons, List.nodup_cons] at hnd'
          have hne : hd.key ≠ o.key := by
            intro heq
            exact hnd'.1 (by rw [heq]; exact List.mem_map_of_mem _ ht)
          rw [List.find?_cons_of_neg _ (by simp [hne]), ih hnd'.2 ht]
  exact hgen sec.opts hnd ho

theorem readBackOpt_undef (a b : SlotKey) (o : OptionE C) :
    (readBackOpt a b o).undef = o.undef := by
  rw [readBackOpt]
  cases slotsLookup o.oslots a <;> rfl

theorem osvToString_input_congr (showC : C → String) (v w : OSV C)
    (p : Option String) (h : v.input = w.input) :
    osvToString showC v p = osvToString showC w p := by
  rw [osvToString.eq_def, osvToString.eq_def, h]

theorem optionToString_nf (showC : C → String) (a b : SlotKey)
    (o : OptionE C) (hOpt : NFOpt a b o) :
    optionToString showC o "=" none [a] =
      .ok (rdOptLine (o.key, nfValStr showC a o)) := by
  obtain ⟨-, -, -, ⟨osv, hosv, -⟩, -⟩ := hOpt
  rw [optionToString]
  dsimp only
  rw [hosv]
  dsimp only
  simp only [bind, Except.bind]
  refine congrArg Except.ok ?_
  have hval : nfValStr showC a o = osvToString showC osv none := by
    rw [nfValStr, hosv]
  rw [hval, rdOptLine]
  apply String.ext
  simp [String.data_append]

theorem optionToString_nf_rb (showC : C → String) (a b : SlotKey)
    (o : OptionE C) (hOpt : NFOpt a b o) :
    optionToString showC (readBackOpt a b o) "=" none [b, a] =
      .ok (rdOptLine (o.key, nfValStr showC a o)) := by
  obtain ⟨-, -, -, ⟨osv, hosv, -⟩, -⟩ := hOpt
  have hrb : readBackOpt a b o =
      { o with oslots := slotsSetItem o.oslots b ⟨osv.input, osv.input⟩ } := by
    rw [readBackOpt, hosv]
  rw [optionToString, hrb]
  dsimp only
  rw [slotsLookup_setItem_self]
  dsimp only
  simp only [bind, Except.bind]
  refine congrArg Except.ok ?_
  have hval : nfValStr showC a o =
      osvToString showC (⟨osv.input, osv.input⟩ : OSV C) none := by
    rw [nfValStr, hosv]
    exact (osvToString_input_congr showC osv ⟨osv.input, osv.input⟩ none
      rfl).symm
  rw [hval, rdOptLine]
  apply String.ext
  simp [String.data_append]

theorem exportSections_rel (sch schF : SchemaE C)
    (R : SectionE C → SectionE C → Prop) :
    ∀ l : List (String × Nat),
      (∀ pr ∈ l, ∃ base sec', sch.heap.get? pr.2 = some base ∧
        base.undef = false ∧ schF.heap.get? pr.2 = some sec' ∧
        sec'.undef = false ∧ R sec' base) →
      List.Forall₂ R
        (schGetSectionsForExport { schF with attrs := l } false)
        (schGetSectionsForExport { sch with attrs := l } false) := by
  intro l
  induction l with
  | nil => intro _; exact List.Forall₂.nil
  | cons pr t ih =>
      intro h
      obtain ⟨base, sec', hgb, hub, hgs, hus, hR⟩ :=
        h pr (List.mem_cons_self _ _)
      rw [exportSections_cons schF pr t sec' hgs hus,
        exportSections_cons sch pr t base hgb hub]
      exact List.Forall₂.cons hR
        (ih (fun pr' hpr' => h pr' (List.mem_cons_of_mem _ hpr')))

theorem presents_orig (showC : C → String) (a : SlotKey) (sch : SchemaE C)
    (hNF : NFSchema a sch) :
    Presents showC sch [a] (renderD showC a sch) := by
  obtain ⟨⟨sl, hsl⟩, hne, hidx, hnames, hsecsNF⟩ := hNF
  rw [Presents, renderD_eq, List.forall₂_map_right_iff, List.forall₂_same]
  intro sec hsec
  rw [schGetSectionsForExport] at hsec
  obtain ⟨pr, hpr, hfm⟩ := List.mem_filterMap.1 hsec
  obtain ⟨sec₀, hg, hNFS⟩ := hsecsNF pr hpr
  rw [hg] at hfm
  dsimp only at hfm
  rw [if_pos (Or.inr (by simp [hNFS.2.1]))] at hfm
  have hsec₀ : sec₀ = sec := (Option.some.injEq _ _).mp hfm
  subst hsec₀
  obtain ⟨nm, hnm, hname⟩ := hNFS.1
  constructor
  · rw [hnm]
    rfl
  · rw [BodyPresents]
    dsimp only
    rw [hNFS.2.2.1, List.forall₂_map_right_iff, List.forall₂_map_left_iff,
      List.forall₂_same]
    intro o ho
    exact ⟨o, rfl, secFindOpt_self sec₀ hNFS.2.2.2.1 o ho,
      (hNFS.2.2.2.2.1 o ho).1,
      optionToString_nf showC a (bKey sch) o (hNFS.2.2.2.2.1 o ho)⟩

theorem presents_final (showC : C → String) (a : SlotKey)
    (sch schF : SchemaE C) (hNF : NFSchema a sch)
    (hmid : SchMid a (bKey sch) sch schF (sch.attrs.map Prod.snd)) :
    Presents showC schF [bKey sch, a] (renderD showC a sch) := by
  obtain ⟨⟨sl, hsl⟩, hne, hidx, hnames, hsecsNF⟩ := hNF
  rw [Presents, renderD_eq, List.forall₂_map_right_iff]
  have hrel := exportSections_rel sch schF
    (fun sec' base => sec'.name = some (base.name.getD "") ∧
      BodyPresents showC sec' [bKey sch, a]
        (base.opts.map fun o => (o.key, nfValStr showC a o)))
    sch.attrs ?_
  · have h1 : ({ schF with attrs := sch.attrs } : SchemaE C) = schF := by
      rw [← hmid.1]
    have h2 : ({ sch with attrs := sch.attrs } : SchemaE C) = sch := rfl
    rw [h1, h2] at hrel
    exact hrel
  · intro pr hpr
    obtain ⟨sec₀, hg, hNFS⟩ := hsecsNF pr hpr
    obtain ⟨base, sec', hb, hs, hSM⟩ := hmid.2.2.2.2 pr.2
      (List.mem_map_of_mem Prod.snd hpr)
    have hbase : base = sec₀ := by
      rw [hg] at hb
      exact ((Option.some.injEq _ _).mp hb).symm
    subst hbase
    obtain ⟨hnmE, hudE, hstrE, hcmE, hoptsE, hslE⟩ := hSM
    rw [List.append_nil] at hoptsE
    obtain ⟨⟨nm, hnm, hname⟩, hud, hstr, hnd, hallNF, hsb⟩ := hNFS
    refine ⟨base, sec', hg, hud, hs, by rw [hudE]; exact hud, ?_, ?_⟩
    · rw [hnmE, hnm]
      rfl
    · rw [BodyPresents, hstrE, hstr, List.forall₂_map_right_iff,
        List.forall₂_map_left_iff, List.forall₂_same]
      intro o ho
      have hndE : (sec'.opts.map (fun x => x.key)).Nodup := by
        rw [hoptsE, List.map_map]
        have hmc : base.opts.map ((fun x : OptionE C => x.key) ∘
            readBackOpt a (bKey sch)) = base.opts.map (fun x => x.key) :=
          List.map_congr_left (fun x _ => readBackOpt_key a (bKey sch) x)
        rw [hmc]
        exact hnd
      have hmemE : readBackOpt a (bKey sch) o ∈ sec'.opts := by
        rw [hoptsE]
        exact List.mem_map_of_mem _ ho
      have hfind := secFindOpt_self sec' hndE _ hmemE
      rw [readBackOpt_key] at hfind
      exact ⟨readBackOpt a (bKey sch) o, rfl, hfind,
        by rw [readBackOpt_undef]; exact (hallNF o ho).1,
        optionToString_nf_rb showC a (bKey sch) o (hallNF o ho)⟩

theorem schGetSectionIdx_none_nf (a : SlotKey) (sch : SchemaE C)
    (hsecsNF : ∀ pr ∈ sch.attrs, ∃ sec, sch.heap.get? pr.2 = some sec ∧
      NFSec a (bKey sch) sec) :
    schGetSectionIdx sch (none : Option String) = none := by
  rw [schGetSectionIdx]
  apply List.find?_eq_none.mpr
  intro pr hpr
  obtain ⟨sec, hg, hNFS⟩ := hsecsNF pr hpr
  obtain ⟨nm, hnm, -⟩ := hNFS.1
  intro hc
  rw [hg] at hc
  dsimp only at hc
  rw [hnm] at hc
  exact absurd hc (by simp)

theorem readIni_nf (showC : C → String) (a : SlotKey) (sch : SchemaE C)
    (hNF : NFSchema a sch) :
    ∃ schF : SchemaE C,
      readIni defaultRParams sch none (rdText (renderD showC a sch)) =
        (schF, none) ∧
      SchMid a (bKey sch) sch schF (sch.attrs.map Prod.snd) := by
  obtain ⟨⟨sl, hsl⟩, hne, hidx, hnames, hsecsNF⟩ := hNF
  have hweak : ∀ pr ∈ sch.attrs, ∃ sec, sch.heap.get? pr.2 = some sec ∧
      sec.undef = false := by
    intro pr hpr
    obtain ⟨sec, hg, hN⟩ := hsecsNF pr hpr
    exact ⟨sec, hg, hN.2.1⟩
  have hfr : Sum.inl (freshSlotKey sch.slots) ≠ a ∧
      slotsLookup sch.slots (Sum.inl (freshSlotKey sch.slots)) = none := by
    rw [hsl]
    exact freshSlotKey_singleton a sl
  have hadd : slotsAdd sch.slots [Sum.inl (freshSlotKey sch.slots)]
      ([] : List Nat) false =
      .ok (sch.slots ++ [(Sum.inl (freshSlotKey sch.slots), [])]) := by
    rw [slotsAdd, List.foldlM_cons]
    rw [if_neg (by rw [hfr.2]; simp)]
    rfl
  have hDne : renderD showC a sch ≠ [] := by
    rw [renderD_eq]
    cases hat : sch.attrs with
    | nil => exact absurd hat hne
    | cons pr t =>
        obtain ⟨sec, hg, hu⟩ := hweak pr (by
          rw [hat]; exact List.mem_cons_self _ _)
        have hcons := exportSections_cons sch pr t sec hg hu
        rw [show ({ sch with attrs := pr :: t } : SchemaE C) = sch from by
          rw [← hat]] at hcons
        rw [hcons]
        simp
  have hnl : ∀ s ∈ rdLines (renderD showC a sch), '\n' ∉ s.data := by
    rw [rdLines_renderD showC a sch hweak]
    exact blocksLinesOf_no_nl showC a (bKey sch) sch hsecsNF
  obtain ⟨L', hL', hL'ne⟩ := rdLines_concat (renderD showC a sch) hDne
  have hsplit : splitNl (rdText (renderD showC a sch)) = L' := by
    rw [rdText_splitNl _ hDne hnl, hL', List.dropLast_concat]
  have hnoU : schGetSectionIdx sch (none : Option String) = none :=
    schGetSectionIdx_none_nf a sch hsecsNF
  obtain ⟨schF, csoF, csF, hfold, hmidF⟩ := processBlocks showC a (bKey sch)
    sch hnames hidx hsecsNF sch.attrs [] (by rw [List.nil_append])
    { sch with slots := sch.slots ++ [(bKey sch, [])] } none []
    (by
      refine ⟨rfl, ?_, rfl, fun i _ => rfl, ?_⟩
      · show (sch.slots ++ [(bKey sch, [])]).map Prod.fst = [a, bKey sch]
        rw [hsl]
        rfl
      · intro i hi
        exact absurd hi (List.not_mem_nil i))
    (Or.inl ⟨rfl, rfl⟩)
    ((L' ++ [""]).enum)
    (by
      rw [List.enum_map_snd, ← rdLines_renderD showC a sch hweak]
      exact hL'.symm)
  rw [List.map_nil, List.nil_append] at hmidF
  have henum : (L' ++ [""]).enum = L'.enum ++ [(L'.length, "")] := by
    rw [List.enum_append]
    rfl
  rw [henum, List.foldl_append] at hfold
  cases hM : L'.enum.foldl (readLinesStep defaultRParams [bKey sch])
      (⟨{ sch with slots := sch.slots ++ [(bKey sch, [])] }, none, none, []⟩,
        none) with
  | mk stM errM =>
  rw [hM] at hfold
  rw [List.foldl_cons, List.foldl_nil] at hfold
  cases errM with
  | some e =>
      rw [show readLinesStep defaultRParams [bKey sch] (stM, some e)
          (L'.length, "") = (stM, some e) from rfl] at hfold
      exact absurd (congrArg Prod.snd hfold) (by simp)
  | none =>
      have hstep : readLinesStep defaultRParams [bKey sch] (stM, none)
          (L'.length, "") = ({ stM with curOpt := none }, none) := by
        rw [readLinesStep]
        rw [show readStep defaultRParams [bKey sch] stM
            (L'.length, "").1 (L'.length, "").2 =
          .ok { stM with curOpt := none } from
            readStep_empty [bKey sch] stM L'.length]
      rw [hstep] at hfold
      have hsch : stM.sch = schF := by
        have h1 := congrArg (fun q : RState C × Option PyErr => q.1.sch) hfold
        exact h1
      refine ⟨schF, ?_, hmidF⟩
      rw [readIni]
      dsimp only
      rw [show (Sum.inl (freshSlotKey sch.slots) : SlotKey) = bKey sch from
        rfl] at hadd ⊢
      rw [hadd]
      simp only [Except.map]
      have hgU : getUnnamedSection
          ({ sch with slots := sch.slots ++ [(bKey sch, [])] } : SchemaE C)
          defaultRParams =
          ({ sch with slots := sch.slots ++ [(bKey sch, [])] }, none) := by
        rw [getUnnamedSection]
        rw [show schGetSectionIdx
            ({ sch with slots := sch.slots ++ [(bKey sch, [])] } : SchemaE C)
            (none : Option String) = none from hnoU]
        dsimp only
        rw [if_neg (by decide)]
      rw [hgU]
      dsimp only
      rw [hsplit, readLines, hM]
      dsimp only
      have hgUF : getUnnamedSection stM.sch defaultRParams =
          (stM.sch, none) := by
        rw [getUnnamedSection]
        rw [show schGetSectionIdx stM.sch (none : Option String) =
            none from by
          rw [hsch]
          rw [schGetSectionIdx_congr sch schF none hmidF.1
            (SchMid_names a (bKey sch) sch schF _ hmidF)]
          exact hnoU]
        dsimp only
        rw [if_neg (by decide)]
      rw [hgUF]
      dsimp only
      rw [hsch]

/-- C3: In the amended form the round-trip law holds: for every schema in
reader normal form (one populated content slot `a`; named, defined sections
with distinct names and distinct heap indices; options with distinct
word-character keys, no converter, and single-line stripped raw values),
exporting in schema-declaration order with undefined entities excluded,
reading the exported text back into a fresh slot, and exporting again in the
same mode yields byte-identical text.  (The unrestricted claim is refuted by
`c3_roundtrip_counterexample`: the reader strips surrounding whitespace from
option values, so a populated value with trailing whitespace does not
survive the round trip.) -/
theorem c3_roundtrip_amended (showC : C → String) (a : SlotKey)
    (sch : SchemaE C) (hNF : NFSchema a sch) :
    ∃ (e : String) (schF : SchemaE C),
      exportText showC sch .fallback ["="] false = .ok e ∧
      readIni defaultRParams sch none e = (schF, none) ∧
      exportText showC schF .fallback ["="] false = .ok e := by
  have hNF' := hNF
  obtain ⟨⟨sl, hsl⟩, hne, hidx, hnames, hsecsNF⟩ := hNF'
  have hweak : ∀ pr ∈ sch.attrs, ∃ sec, sch.heap.get? pr.2 = some sec ∧
      sec.undef = false := by
    intro pr hpr
    obtain ⟨sec, hg, hN⟩ := hsecsNF pr hpr
    exact ⟨sec, hg, hN.2.1⟩
  have hDne : renderD showC a sch ≠ [] := by
    rw [renderD_eq]
    cases hat : sch.attrs with
    | nil => exact absurd hat hne
    | cons pr t =>
        obtain ⟨sec, hg, hu⟩ := hweak pr (by
          rw [hat]; exact List.mem_cons_self _ _)
        have hcons := exportSections_cons sch pr t sec hg hu
        rw [show ({ sch with attrs := pr :: t } : SchemaE C) = sch from by
          rw [← hat]] at hcons
        rw [hcons]
        simp
  have hacc1 : accessFallback (sch.slots.map Prod.fst) = some [a] := by
    rw [hsl]
    rfl
  have hexp1 : exportText showC sch .fallback ["="] false =
      .ok (rdText (renderD showC a sch)) :=
    exportText_presents showC sch [a] (renderD showC a sch) hacc1
      (presents_orig showC a sch hNF) hDne
  obtain ⟨schF, hread, hmid⟩ := readIni_nf showC a sch hNF
  have hacc2 : accessFallback (schF.slots.map Prod.fst) =
      some [bKey sch, a] := by
    rw [hmid.2.1]
    rfl
  have hexp2 : exportText showC schF .fallback ["="] false =
      .ok (rdText (renderD showC a sch)) :=
    exportText_presents showC schF [bKey sch, a] (renderD showC a sch) hacc2
      (presents_final showC a sch schF hNF hmid) hDne
  exact ⟨rdText (renderD showC a sch), schF, hexp1, hread, hexp2⟩

/-- A trivial converted-value type for the concrete round-trip examples. -/
def exShowU : Unit → String := fun _ => ""

/-- Concrete normal-form option `k = x`, populated in slot `0`. -/
def exOptC3 : OptionE Unit :=
  { key := "k",
    oslots := [(Sum.inl 0, { input := .str "x", converted := .str "x" })] }

/-- Concrete normal-form section `[s]` holding `exOptC3`. -/
def exSecC3 : SectionE Unit :=
  { name := some "s", schemaStructure := [.opt "k"],
    sslots := [(Sum.inl 0, [.opt "k"])], opts := [exOptC3] }

/-- Concrete normal-form schema with the single section `exSecC3`. -/
def exSchemaC3 : SchemaE Unit :=
  { slots := [(Sum.inl 0, [0])], heap := [exSecC3], attrs := [("s", 0)] }

theorem exSchemaC3_nf : NFSchema (Sum.inl 0) exSchemaC3 := by
  refine ⟨⟨[0], rfl⟩, by decide, by decide, by decide, ?_⟩
  intro pr hpr
  have hpr' : pr = ("s", 0) := List.mem_singleton.1 hpr
  subst hpr'
  refine ⟨exSecC3, rfl, ⟨"s", rfl, by decide, by decide⟩, rfl, rfl,
    by decide, ?_, rfl⟩
  intro o ho
  have ho' : o = exOptC3 := List.mem_singleton.1 ho
  subst ho'
  exact ⟨rfl, rfl, ⟨by decide, by decide⟩,
    ⟨{ input := .str "x", converted := .str "x" }, rfl,
      by exact ⟨by decide, by decide, by decide⟩⟩, rfl⟩

theorem c3_roundtrip_amended_witness :
    NFSchema (Sum.inl 0) exSchemaC3 ∧
    ∃ (e : String) (schF : SchemaE Unit),
      exportText exShowU exSchemaC3 .fallback ["="] false = .ok e ∧
      readIni defaultRParams exSchemaC3 none e = (schF, none) ∧
      exportText exShowU schF .fallback ["="] false = .ok e :=
  ⟨exSchemaC3_nf,
    c3_roundtrip_amended exShowU (Sum.inl 0) exSchemaC3 exSchemaC3_nf⟩

/-- Like `exOptC3` but populated with the value `"x "`, whose trailing
whitespace the reader strips. -/
def exOptC3b : OptionE Unit :=
  { key := "k",
    oslots := [(Sum.inl 0, { input := .str "x ", converted := .str "x " })] }

/-- Section `[s]` holding `exOptC3b`. -/
def exSecC3b : SectionE Unit :=
  { name := some "s", schemaStructure := [.opt "k"],
    sslots := [(Sum.inl 0, [.opt "k"])], opts := [exOptC3b] }

/-- Populated schema refuting the unrestricted round-trip claim. -/
def exSchemaC3b : SchemaE Unit :=
  { slots := [(Sum.inl 0, [0])], heap := [exSecC3b], attrs := [("s", 0)] }

/-- C3 counterexample to the claim as stated: the populated schema
`exSchemaC3b` (one section `s`, one option `k` with raw value `"x "`)
exports to `"[s]\n\nk = x "`, the read back into the fresh slot succeeds,
but the second export renders the re-read (whitespace-stripped) value and
yields `"[s]\n\nk = x"`, which differs from the first export byte-wise. -/
theorem c3_roundtrip_counterexample :
    ∃ (e e₂ : String) (schF : SchemaE Unit),
      exportText exShowU exSchemaC3b .fallback ["="] false = .ok e ∧
      readIni defaultRParams exSchemaC3b none e = (schF, none) ∧
      exportText exShowU schF .fallback ["="] false = .ok e₂ ∧
      e₂ ≠ e := by
  refine ⟨"[s]\n\nk = x ", "[s]\n\nk = x", _, rfl, rfl, rfl, by decide⟩

end Smartini
